import Mathlib

/-!
# Tangram `Url`: parsing and dot-segment removal

A shallow embedding of `core/src/util/url.cpp` (class `Tangram::Url`).

* A `std::string` is a `List Char`, one `Char` per byte; `m_string[i]` is
  `getD i nul`, which also covers the read of the terminating NUL at
  `i = size()`.
* `size_t` values are natural numbers.  `std::string::npos` is the result
  `none` of the two `find` functions, and a `size_t` subtraction is `sizeSub`,
  which wraps around on underflow.
* `m_flags` is the `int` bit mask of the source, with the same bit values.
* The `char*` cursors of `removeDotSegmentsFromRange` are indices into the
  buffer they point into; the buffer is threaded through the loop because the
  function writes to it.
-/

namespace Tangram

/-! ## Strings and `size_t` -/

/-- The NUL byte, which is what `m_string[m_string.size()]` reads. -/
def nul : Char := Char.ofNat 0

/-- Read of `s[i]`; NUL at and past the end. -/
def charAt (s : List Char) (i : Nat) : Char := s.getD i nul

/-- Subtraction of two `size_t` values: it wraps around modulo `2 ^ 64` when the
subtrahend is the larger one. -/
def sizeSub (a b : Nat) : Nat := if b ≤ a then a - b else a + 2 ^ 64 - b

/-- The call `std::min(pos, e)` where `pos` is the result of a `find`: `none`
stands for `npos`, the largest `size_t`, so the minimum is then `e`. -/
def minNpos (pos : Option Nat) (e : Nat) : Nat :=
  match pos with
  | some i => min i e
  | none => e

/-- The substring `std::string(s, pos, n)`, also the one that
`s.compare(pos, n, ...)` compares: at most `n` characters from `pos` on. -/
def substr (s : List Char) (pos n : Nat) : List Char := (s.drop pos).take n

/-- The call `s.find(c, start)` for a character `c`: the first index at or after
`start` that holds `c`, `none` for `npos`. -/
def findChar (s : List Char) (c : Char) (start : Nat) : Option Nat :=
  let i := (s.drop start).indexOf c
  if start + i < s.length then some (start + i) else none

/-- First index at which `pat` occurs in `l`, if any. -/
def findSub (pat : List Char) : List Char → Option Nat
  | [] => if pat = [] then some 0 else none
  | c :: cs =>
    if pat.isPrefixOf (c :: cs) then some 0 else (findSub pat cs).map (· + 1)

/-- The call `s.find(pat, start)` for a string `pat`: the first index at or
after `start` where `pat` occurs, `none` for `npos`. -/
def findStr (s : List Char) (pat : List Char) (start : Nat) : Option Nat :=
  if start ≤ s.length then (findSub pat (s.drop start)).map (· + start) else none

/-! ## The `Url` value -/

/-- The struct `PartRanges::Range`. -/
structure Range where
  start : Nat := 0
  count : Nat := 0
deriving DecidableEq, Repr

/-- The struct `Url::PartRanges`. -/
structure PartRanges where
  scheme : Range := {}
  location : Range := {}
  path : Range := {}
  parameters : Range := {}
  query : Range := {}
  fragment : Range := {}
  media : Range := {}
  data : Range := {}
deriving DecidableEq, Repr

def IS_INVALID : Nat := 1 <<< 0
def IS_ABSOLUTE : Nat := 1 <<< 1
def IS_STANDARDIZED : Nat := 1 <<< 2
def HAS_HTTP_SCHEME : Nat := 1 <<< 3
def HAS_FILE_SCHEME : Nat := 1 <<< 4
def HAS_DATA_SCHEME : Nat := 1 <<< 5
def HAS_BASE64_DATA : Nat := 1 <<< 6

/-- The class `Url`: its three data members. -/
structure Url where
  m_string : List Char := []
  m_parts : PartRanges := {}
  m_flags : Nat := 0
deriving DecidableEq, Repr

namespace Url

def isEmpty (u : Url) : Bool := u.m_string.isEmpty
def isInvalid (u : Url) : Bool := (u.m_flags &&& IS_INVALID) != 0
def isAbsolute (u : Url) : Bool := (u.m_flags &&& IS_ABSOLUTE) != 0
def isStandardized (u : Url) : Bool := (u.m_flags &&& IS_STANDARDIZED) != 0
def hasHttpScheme (u : Url) : Bool := (u.m_flags &&& HAS_HTTP_SCHEME) != 0
def hasFileScheme (u : Url) : Bool := (u.m_flags &&& HAS_FILE_SCHEME) != 0
def hasDataScheme (u : Url) : Bool := (u.m_flags &&& HAS_DATA_SCHEME) != 0
def hasBase64Data (u : Url) : Bool := (u.m_flags &&& HAS_BASE64_DATA) != 0

def hasScheme (u : Url) : Bool := u.m_parts.scheme.count != 0
def hasNetLocation (u : Url) : Bool := u.m_parts.location.count != 0
def hasPath (u : Url) : Bool := u.m_parts.path.count != 0
def hasParameters (u : Url) : Bool := u.m_parts.parameters.count != 0
def hasQuery (u : Url) : Bool := u.m_parts.query.count != 0
def hasFragment (u : Url) : Bool := u.m_parts.fragment.count != 0
def hasMediaType (u : Url) : Bool := u.m_parts.media.count != 0
def hasData (u : Url) : Bool := u.m_parts.data.count != 0

def scheme (u : Url) : List Char :=
  substr u.m_string u.m_parts.scheme.start u.m_parts.scheme.count
def netLocation (u : Url) : List Char :=
  substr u.m_string u.m_parts.location.start u.m_parts.location.count
def path (u : Url) : List Char :=
  substr u.m_string u.m_parts.path.start u.m_parts.path.count
def parameters (u : Url) : List Char :=
  substr u.m_string u.m_parts.parameters.start u.m_parts.parameters.count
def query (u : Url) : List Char :=
  substr u.m_string u.m_parts.query.start u.m_parts.query.count
def fragment (u : Url) : List Char :=
  substr u.m_string u.m_parts.fragment.start u.m_parts.fragment.count
def mediaType (u : Url) : List Char :=
  substr u.m_string u.m_parts.media.start u.m_parts.media.count
def data (u : Url) : List Char :=
  substr u.m_string u.m_parts.data.start u.m_parts.data.count
def string (u : Url) : List Char := u.m_string

end Url

/-! ## The parser -/

/-- The characters a scheme may contain: `isalnum(c) || c == '+' || c == '.' ||
c == '-'`. -/
def isSchemeChar (c : Char) : Bool :=
  c.isAlphanum || c == '+' || c == '.' || c == '-'

/-- The scheme loop `while (i < end && (isalnum(c) || ...)) { c = m_string[++i]; }`
with `c = m_string[i]` throughout; the first argument bounds the number of
iterations. -/
def scanScheme (s : List Char) (e : Nat) : Nat → Nat → Nat
  | 0, i => i
  | fuel + 1, i =>
    if i < e ∧ isSchemeChar (charAt s i) then scanScheme s e fuel (i + 1) else i

/-- The member function `Url::initializeFromString`, run on a freshly
constructed object (all ranges `(0, 0)`, no flag set): the object it leaves
and the value it returns. -/
def initializeFromString (source : List Char) : Url × Bool :=
  let m_string := source
  let start := 0
  let end0 := m_string.length
  -- Parse the fragment.
  let pound := minNpos (findChar m_string '#' start) end0
  let fragmentStart := min (pound + 1) end0
  let fragment : Range := { start := fragmentStart, count := sizeSub end0 fragmentStart }
  let end1 := pound
  -- Parse the scheme.
  let i := scanScheme m_string end1 (end1 - start) start
  let c := charAt m_string i
  let scheme : Range := if c = ':' then { start := start, count := sizeSub i start } else {}
  let start1 := if c = ':' then i + 1 else start
  let flags0 := if c = ':' then 0 ||| IS_ABSOLUTE else 0
  -- If scheme is 'data', parse as data URI.
  if substr m_string scheme.start scheme.count = "data".toList then
    let flags1 := flags0 ||| HAS_DATA_SCHEME
    let base64Indicator := minNpos (findStr m_string ";base64".toList start1) end1
    let comma := minNpos (findChar m_string ',' start1) end1
    let flags2 := if base64Indicator < comma then flags1 ||| HAS_BASE64_DATA else flags1
    let media : Range :=
      { start := start1, count := sizeSub (min base64Indicator comma) start1 }
    let start2 := min (comma + 1) end1
    let data : Range := { start := start2, count := sizeSub end1 start2 }
    ({ m_string := m_string,
       m_parts := { scheme := scheme, fragment := fragment, media := media, data := data },
       m_flags := flags2 }, true)
  else
    -- Check whether the scheme is 'http', 'https', or 'file'.
    let flags1 :=
      if substr m_string scheme.start scheme.count = "http".toList ∨
          substr m_string scheme.start scheme.count = "https".toList then
        flags0 ||| HAS_HTTP_SCHEME
      else if substr m_string scheme.start scheme.count = "file".toList then
        flags0 ||| HAS_FILE_SCHEME
      else flags0
    -- If '//' is next in the string, the network location follows.
    let hasLocation : Bool := substr m_string start1 2 = "//".toList
    let slash := minNpos (findChar m_string '/' (start1 + 2)) end1
    let location : Range :=
      if hasLocation then { start := start1 + 2, count := sizeSub slash (start1 + 2) } else {}
    let start2 := if hasLocation then slash else start1
    -- Parse the query.
    let qmark := minNpos (findChar m_string '?' start2) end1
    let queryStart := min (qmark + 1) end1
    let query : Range := { start := queryStart, count := sizeSub end1 queryStart }
    let end2 := qmark
    -- Parse the parameters.
    let semicolon := minNpos (findChar m_string ';' start2) end2
    let parametersStart := min (semicolon + 1) end2
    let parameters : Range :=
      { start := parametersStart, count := sizeSub end2 parametersStart }
    let end3 := semicolon
    -- Parse the path.
    let path : Range := { start := start2, count := sizeSub end3 start2 }
    ({ m_string := m_string,
       m_parts := { scheme := scheme, location := location, path := path,
                    parameters := parameters, query := query, fragment := fragment },
       m_flags := flags1 }, true)

/-- The constructor `Url::Url(const std::string& source)`. -/
def Url.ofString (source : List Char) : Url :=
  let r := initializeFromString source
  if !r.2 then { r.1 with m_flags := r.1.m_flags ||| IS_INVALID } else r.1

/-! ## Dot-segment removal -/

/-- Helper `rangeStartsWith(begin, end, prefix)`: the loop advances while the
range and the NUL-terminated `prefix` agree and reports whether the whole of
`prefix` was matched. -/
def rangeStartsWith (buf : List Char) : Nat → Nat → List Char → Bool
  | _, _, [] => true
  | b, e, p :: ps =>
    if b < e ∧ charAt buf b = p then rangeStartsWith buf (b + 1) e ps else false

/-- Helper `rangeEquals(begin, end, prefix)`: as `rangeStartsWith`, and the
range has to be used up as well. -/
def rangeEquals (buf : List Char) : Nat → Nat → List Char → Bool
  | b, e, [] => b == e
  | b, e, p :: ps =>
    if b < e ∧ charAt buf b = p then rangeEquals buf (b + 1) e ps else false

/-- The loop `while (begin < end && *begin == value) { begin++; }` of
`rangeIsAll`; the result is the final `begin`. -/
def rangeIsAllLoop (buf : List Char) (e : Nat) (value : Char) : Nat → Nat → Nat
  | 0, b => b
  | fuel + 1, b =>
    if b < e ∧ charAt buf b = value then rangeIsAllLoop buf e value fuel (b + 1) else b

/-- Helper `rangeIsAll(begin, end, value)`. -/
def rangeIsAll (buf : List Char) (b e : Nat) (value : Char) : Bool :=
  rangeIsAllLoop buf e value (e - b) b == e

/-- The loop `while (pos > begin && *pos != '/') { pos--; }` of
`removeLastSegmentFromRange`; the result is the final `pos`. -/
def removeLastSegmentLoop (buf : List Char) (b : Nat) : Nat → Nat → Nat
  | 0, pos => pos
  | fuel + 1, pos =>
    if pos > b ∧ charAt buf pos ≠ '/' then removeLastSegmentLoop buf b fuel (pos - 1) else pos

/-- The function `removeLastSegmentFromRange(begin, end)`. -/
def removeLastSegmentFromRange (buf : List Char) (b e : Nat) : Nat :=
  if b ≥ e then b else removeLastSegmentLoop buf b (e - 1 - b) (e - 1)

/-- The state of the loop of `removeDotSegmentsFromRange`: the buffer, the read
cursor `pos` and the write cursor `out`. -/
structure Cursors where
  buf : List Char
  pos : Nat
  out : Nat
deriving DecidableEq, Repr

/-- The statement `*out++ = *pos; pos++;`. -/
def copyChar (st : Cursors) : Cursors :=
  { buf := st.buf.set st.out (charAt st.buf st.pos), pos := st.pos + 1, out := st.out + 1 }

/-- The inner loop `while (pos < end && *pos != '/') { *out++ = *pos; pos++; }`. -/
def copySegmentLoop (e : Nat) : Nat → Cursors → Cursors
  | 0, st => st
  | fuel + 1, st =>
    if st.pos < e ∧ charAt st.buf st.pos ≠ '/' then copySegmentLoop e fuel (copyChar st) else st

/-- One pass through the body of the `while (pos < end)` loop of
`removeDotSegmentsFromRange(begin, end)`. -/
def removeDotSegmentsStep (b e : Nat) (st : Cursors) : Cursors :=
  if rangeStartsWith st.buf st.pos e "../".toList then
    { st with pos := st.pos + 3 }
  else if rangeStartsWith st.buf st.pos e "./".toList then
    { st with pos := st.pos + 2 }
  else if rangeStartsWith st.buf st.pos e "/./".toList then
    { st with pos := st.pos + 2 }
  else if rangeEquals st.buf st.pos e "/.".toList then
    { st with pos := st.pos + 1, buf := st.buf.set (st.pos + 1) '/' }
  else if rangeStartsWith st.buf st.pos e "/../".toList then
    { st with pos := st.pos + 3, out := removeLastSegmentFromRange st.buf b st.out }
  else if rangeEquals st.buf st.pos e "/..".toList then
    { st with pos := st.pos + 2, out := removeLastSegmentFromRange st.buf b st.out }
  else if rangeIsAll st.buf st.pos e '.' then
    { st with pos := e }
  else
    let st1 := if charAt st.buf st.pos = '/' then copyChar st else st
    copySegmentLoop e (e - st1.pos) st1

/-- The loop `while (pos < end) { ... }`; the first argument bounds the number
of passes. -/
def removeDotSegmentsLoop (b e : Nat) : Nat → Cursors → Cursors
  | 0, st => st
  | fuel + 1, st =>
    if st.pos < e then removeDotSegmentsLoop b e fuel (removeDotSegmentsStep b e st) else st

/-- The function `Url::removeDotSegmentsFromRange(begin, end)` on the buffer the
two pointers point into: the buffer as the function leaves it, and the returned
position. Every pass advances `pos`, so `e - b` passes are enough. -/
def removeDotSegmentsFromRange (buf : List Char) (b e : Nat) : List Char × Nat :=
  let st := removeDotSegmentsLoop b e (e - b) { buf := buf, pos := b, out := b }
  (st.buf, st.out)

/-- The call `s.resize(n)`. -/
def resize (s : List Char) (n : Nat) : List Char :=
  s.take n ++ List.replicate (n - s.length) nul

/-- The function `Url::removeDotSegmentsFromString(path)`. -/
def removeDotSegmentsFromString (path : List Char) : List Char :=
  let r := removeDotSegmentsFromRange path 0 path.length
  resize r.1 (sizeSub r.2 0)

/-- The call `s.erase(pos, n)`. -/
def erase (s : List Char) (pos n : Nat) : List Char := s.take pos ++ s.drop (pos + n)

/-- The member function `Url::standardized`. -/
def Url.standardized (u : Url) : Url :=
  if u.isStandardized then u
  else if u.hasDataScheme then u
  else
    let parts := u.m_parts
    let pathStart := parts.path.start
    let oldPathEnd := parts.path.start + parts.path.count
    let r := removeDotSegmentsFromRange u.m_string pathStart oldPathEnd
    let string := r.1
    let newPathEnd := r.2
    if newPathEnd ≠ oldPathEnd then
      let offset := sizeSub oldPathEnd newPathEnd
      let pathCount := sizeSub parts.path.count offset
      { m_string := erase string (parts.path.start + pathCount) offset,
        m_parts :=
          { parts with
            path := { parts.path with count := pathCount },
            parameters := { parts.parameters with start := sizeSub parts.parameters.start offset },
            query := { parts.query with start := sizeSub parts.query.start offset },
            fragment := { parts.fragment with start := sizeSub parts.fragment.start offset } },
        m_flags := u.m_flags ||| IS_STANDARDIZED }
    else
      { m_string := string, m_parts := parts, m_flags := u.m_flags ||| IS_STANDARDIZED }

/-- The member function `Url::madeRelative`. -/
def Url.madeRelative (u : Url) (_base : Url) : Url := u

/-- The member function `Url::resolved`. -/
def Url.resolved (u : Url) (_base : Url) : Url := u

/-- The constructor `Url::Url(const std::string& source, const Url& base)`. -/
def Url.ofStringWithBase (source : List Char) (base : Url) : Url :=
  (Url.ofString source).resolved base

/-- The constructor `Url::Url()`. -/
def Url.empty : Url := {}

/-- The member function `Url::operator==`. -/
def Url.equals (u rhs : Url) : Bool := u.m_string == rhs.m_string

/-! ## The accesses to the buffer -/

/-- An access to the buffer through one of the pointers: a read or a write at
an index. -/
inductive Access where
  | read (i : Nat)
  | write (i : Nat)
deriving DecidableEq, Repr

/-- The index an access goes to. -/
def Access.index : Access → Nat
  | .read i => i
  | .write i => i

/-- The accesses of `rangeStartsWith(begin, end, prefix)`: the condition
`begin < end && (*prefix != 0) && *begin == *prefix` reads `*begin` when
`begin < end` and the pattern is not used up. -/
def rangeStartsWithAccesses (buf : List Char) : Nat → Nat → List Char → List Access
  | _, _, [] => []
  | b, e, p :: ps =>
    if b < e then
      Access.read b :: (if charAt buf b = p then rangeStartsWithAccesses buf (b + 1) e ps else [])
    else []

/-- The accesses of `rangeEquals(begin, end, prefix)`, whose loop is the loop
of `rangeStartsWith`; the test after the loop reads nothing from the buffer. -/
def rangeEqualsAccesses (buf : List Char) : Nat → Nat → List Char → List Access
  | _, _, [] => []
  | b, e, p :: ps =>
    if b < e then
      Access.read b :: (if charAt buf b = p then rangeEqualsAccesses buf (b + 1) e ps else [])
    else []

/-- The accesses of the loop of `rangeIsAll`: the condition
`begin < end && *begin == value` reads `*begin` when `begin < end`. -/
def rangeIsAllLoopAccesses (buf : List Char) (e : Nat) (value : Char) : Nat → Nat → List Access
  | 0, b => if b < e then [Access.read b] else []
  | fuel + 1, b =>
    if b < e then
      Access.read b ::
        (if charAt buf b = value then rangeIsAllLoopAccesses buf e value fuel (b + 1) else [])
    else []

/-- The accesses of `rangeIsAll(begin, end, value)`. -/
def rangeIsAllAccesses (buf : List Char) (b e : Nat) (value : Char) : List Access :=
  rangeIsAllLoopAccesses buf e value (e - b) b

/-- The accesses of the loop of `removeLastSegmentFromRange`: the condition
`pos > begin && *pos != '/'` reads `*pos` when `pos > begin`. -/
def removeLastSegmentLoopAccesses (buf : List Char) (b : Nat) : Nat → Nat → List Access
  | 0, pos => if pos > b then [Access.read pos] else []
  | fuel + 1, pos =>
    if pos > b then
      Access.read pos ::
        (if charAt buf pos ≠ '/' then removeLastSegmentLoopAccesses buf b fuel (pos - 1) else [])
    else []

/-- The accesses of `removeLastSegmentFromRange(begin, end)`. -/
def removeLastSegmentFromRangeAccesses (buf : List Char) (b e : Nat) : List Access :=
  if b ≥ e then [] else removeLastSegmentLoopAccesses buf b (e - 1 - b) (e - 1)

/-- The accesses of the statement `*out++ = *pos; pos++;`. -/
def copyCharAccesses (st : Cursors) : List Access := [Access.read st.pos, Access.write st.out]

/-- The accesses of the inner loop
`while (pos < end && *pos != '/') { *out++ = *pos; pos++; }`. -/
def copySegmentLoopAccesses (e : Nat) : Nat → Cursors → List Access
  | 0, st => if st.pos < e then [Access.read st.pos] else []
  | fuel + 1, st =>
    if st.pos < e then
      Access.read st.pos ::
        (if charAt st.buf st.pos ≠ '/' then
          copyCharAccesses st ++ copySegmentLoopAccesses e fuel (copyChar st)
        else [])
    else []

/-- The accesses of one pass through the body of the `while (pos < end)` loop
of `removeDotSegmentsFromRange(begin, end)`: those of the tests, in the order
in which they are made, and those of the branch that is taken. -/
def removeDotSegmentsStepAccesses (b e : Nat) (st : Cursors) : List Access :=
  rangeStartsWithAccesses st.buf st.pos e "../".toList ++
  if rangeStartsWith st.buf st.pos e "../".toList then []
  else
  rangeStartsWithAccesses st.buf st.pos e "./".toList ++
  if rangeStartsWith st.buf st.pos e "./".toList then []
  else
  rangeStartsWithAccesses st.buf st.pos e "/./".toList ++
  if rangeStartsWith st.buf st.pos e "/./".toList then []
  else
  rangeEqualsAccesses st.buf st.pos e "/.".toList ++
  if rangeEquals st.buf st.pos e "/.".toList then [Access.write (st.pos + 1)]
  else
  rangeStartsWithAccesses st.buf st.pos e "/../".toList ++
  if rangeStartsWith st.buf st.pos e "/../".toList then
    removeLastSegmentFromRangeAccesses st.buf b st.out
  else
  rangeEqualsAccesses st.buf st.pos e "/..".toList ++
  if rangeEquals st.buf st.pos e "/..".toList then
    removeLastSegmentFromRangeAccesses st.buf b st.out
  else
  rangeIsAllAccesses st.buf st.pos e '.' ++
  if rangeIsAll st.buf st.pos e '.' then []
  else
    let st1 := if charAt st.buf st.pos = '/' then copyChar st else st
    Access.read st.pos ::
      ((if charAt st.buf st.pos = '/' then copyCharAccesses st else []) ++
        copySegmentLoopAccesses e (e - st1.pos) st1)

/-- The accesses of the loop `while (pos < end) { ... }`, pass after pass. -/
def removeDotSegmentsLoopAccesses (b e : Nat) : Nat → Cursors → List Access
  | 0, _ => []
  | fuel + 1, st =>
    if st.pos < e then
      removeDotSegmentsStepAccesses b e st ++
        removeDotSegmentsLoopAccesses b e fuel (removeDotSegmentsStep b e st)
    else []

/-- The accesses of `Url::removeDotSegmentsFromRange(begin, end)`. -/
def removeDotSegmentsFromRangeAccesses (buf : List Char) (b e : Nat) : List Access :=
  removeDotSegmentsLoopAccesses b e (e - b) { buf := buf, pos := b, out := b }

/-! ## The parser, step by step

Names for the values `initializeFromString` computes on the way. -/

/-- The value of `pound`, which is also `end` for all later steps. -/
def poundOf (s : List Char) : Nat := minNpos (findChar s '#' 0) s.length

/-- The range recorded for the fragment. -/
def fragmentOf (s : List Char) : Range :=
  { start := min (poundOf s + 1) s.length,
    count := sizeSub s.length (min (poundOf s + 1) s.length) }

/-- The value of `i` when the scheme loop ends. -/
def schemeStop (s : List Char) : Nat := scanScheme s (poundOf s) (poundOf s - 0) 0

/-- The test `c == ':'` after the scheme loop. -/
def hasColon (s : List Char) : Prop := charAt s (schemeStop s) = ':'

instance (s : List Char) : Decidable (hasColon s) := by unfold hasColon; infer_instance

/-- The range recorded for the scheme. -/
def schemeOf (s : List Char) : Range :=
  if hasColon s then { start := 0, count := sizeSub (schemeStop s) 0 } else {}

/-- The value of `start` after the scheme step. -/
def afterScheme (s : List Char) : Nat := if hasColon s then schemeStop s + 1 else 0

/-- The flags after the scheme step. -/
def schemeFlags (s : List Char) : Nat := if hasColon s then 0 ||| IS_ABSOLUTE else 0

/-- The text that is compared with `data`, `http`, `https` and `file`. -/
def schemeText (s : List Char) : List Char := substr s (schemeOf s).start (schemeOf s).count

def base64Of (s : List Char) : Nat :=
  minNpos (findStr s ";base64".toList (afterScheme s)) (poundOf s)

def commaOf (s : List Char) : Nat := minNpos (findChar s ',' (afterScheme s)) (poundOf s)

/-- The object left by the data URI branch. -/
def dataUrl (s : List Char) : Url :=
  { m_string := s,
    m_parts :=
      { scheme := schemeOf s,
        fragment := fragmentOf s,
        media := { start := afterScheme s, count := sizeSub (min (base64Of s) (commaOf s)) (afterScheme s) },
        data := { start := min (commaOf s + 1) (poundOf s),
                  count := sizeSub (poundOf s) (min (commaOf s + 1) (poundOf s)) } },
    m_flags :=
      if base64Of s < commaOf s then schemeFlags s ||| HAS_DATA_SCHEME ||| HAS_BASE64_DATA
      else schemeFlags s ||| HAS_DATA_SCHEME }

/-- The test for `//` after the scheme. -/
def hasLocation (s : List Char) : Bool := substr s (afterScheme s) 2 = "//".toList

def slashOf (s : List Char) : Nat :=
  minNpos (findChar s '/' (afterScheme s + 2)) (poundOf s)

/-- The value of `start` after the network location step. -/
def pathStartOf (s : List Char) : Nat := if hasLocation s then slashOf s else afterScheme s

def qmarkOf (s : List Char) : Nat := minNpos (findChar s '?' (pathStartOf s)) (poundOf s)

def semicolonOf (s : List Char) : Nat := minNpos (findChar s ';' (pathStartOf s)) (qmarkOf s)

/-- The flags after the scheme classification. -/
def plainFlags (s : List Char) : Nat :=
  if schemeText s = "http".toList ∨ schemeText s = "https".toList then
    schemeFlags s ||| HAS_HTTP_SCHEME
  else if schemeText s = "file".toList then schemeFlags s ||| HAS_FILE_SCHEME
  else schemeFlags s

/-- The object left by the branch for URLs that are not data URIs. -/
def plainUrl (s : List Char) : Url :=
  { m_string := s,
    m_parts :=
      { scheme := schemeOf s,
        location :=
          if hasLocation s then
            { start := afterScheme s + 2, count := sizeSub (slashOf s) (afterScheme s + 2) }
          else {},
        path := { start := pathStartOf s, count := sizeSub (semicolonOf s) (pathStartOf s) },
        parameters :=
          { start := min (semicolonOf s + 1) (qmarkOf s),
            count := sizeSub (qmarkOf s) (min (semicolonOf s + 1) (qmarkOf s)) },
        query :=
          { start := min (qmarkOf s + 1) (poundOf s),
            count := sizeSub (poundOf s) (min (qmarkOf s + 1) (poundOf s)) },
        fragment := fragmentOf s },
    m_flags := plainFlags s }

/-- A range that lies inside the first `n` characters. -/
def Range.within (r : Range) (n : Nat) : Prop := r.start + r.count ≤ n

/-! ## The loop of `removeDotSegmentsFromRange`, seen from outside

The buffer range `[begin, end)` holds, at every pass, the output written so far
in `[begin, out)` and the input still to be read in `[pos, end)`. -/

/-- The characters of `buf` at the positions `b, ..., e - 1`. -/
def window (buf : List Char) (b e : Nat) : List Char := (buf.drop b).take (e - b)

/-- The output without its last segment and the `/` before it; nothing is left
when the only `/` is the first character or there is none. -/
def cutLast : List Char → List Char
  | [] => []
  | c :: cs => if '/' ∈ cs then c :: cutLast cs else []

/-- One pass of the loop as a function of the unread input and the output
written so far. -/
def pureStep (inp outp : List Char) : List Char × List Char :=
  if "../".toList.isPrefixOf inp then (inp.drop 3, outp)
  else if "./".toList.isPrefixOf inp then (inp.drop 2, outp)
  else if "/./".toList.isPrefixOf inp then (inp.drop 2, outp)
  else if inp = "/.".toList then (['/'], outp)
  else if "/../".toList.isPrefixOf inp then (inp.drop 3, cutLast outp)
  else if inp = "/..".toList then (inp.drop 2, cutLast outp)
  else if inp.all (· == '.') then ([], outp)
  else if inp.head? = some '/' then
    ((inp.drop 1).dropWhile (· != '/'), outp ++ '/' :: (inp.drop 1).takeWhile (· != '/'))
  else (inp.dropWhile (· != '/'), outp ++ inp.takeWhile (· != '/'))

/-- The loop as a function of the unread input and the output written so far. -/
def pureLoop : Nat → List Char → List Char → List Char
  | 0, _, outp => outp
  | fuel + 1, inp, outp =>
    if inp = [] then outp else pureLoop fuel (pureStep inp outp).1 (pureStep inp outp).2

/-- The cursors `st` stand for the unread input `inp` and the output `outp`. -/
structure Sim (b e : Nat) (st : Cursors) (inp outp : List Char) : Prop where
  hb : b ≤ st.out
  ho : st.out ≤ st.pos
  hp : st.pos ≤ e
  he : e ≤ st.buf.length
  hinp : window st.buf st.pos e = inp
  hout : window st.buf b st.out = outp

/-- The buffer of `st` has the length of `buf0` and agrees with it outside
`[b, e)`. -/
structure Frame (b e : Nat) (buf0 : List Char) (st : Cursors) : Prop where
  hlen : st.buf.length = buf0.length
  htake : st.buf.take b = buf0.take b
  hdrop : st.buf.drop e = buf0.drop e

/-! ## Dot segments -/

/-- No `/`-separated segment of `p` is `.` or `..`. -/
def NoDotSegments (p : List Char) : Prop :=
  ∀ seg ∈ p.splitOn '/', seg ≠ ".".toList ∧ seg ≠ "..".toList

instance (p : List Char) : Decidable (NoDotSegments p) := by
  unfold NoDotSegments
  infer_instance

/-- What holds of the input and the output at every pass: the output has no dot
segment, and once something has been written the input starts at a `/`, but
for the single `.` that is left of a final `/..`. -/
def PureInv (inp outp : List Char) : Prop :=
  NoDotSegments outp ∧ (outp = [] ∨ inp = [] ∨ inp.head? = some '/' ∨ inp = ['.'])

/-- The `Url` values a caller can obtain: from the public constructors and from
the member functions that return a `Url`. -/
inductive Constructible : Url → Prop
  | ofString (s : List Char) : Constructible (Url.ofString s)
  | empty : Constructible Url.empty
  | withBase (s : List Char) (base : Url) : Constructible (Url.ofStringWithBase s base)
  | standardized (u : Url) : Constructible u → Constructible u.standardized
  | madeRelative (u base : Url) : Constructible u → Constructible (u.madeRelative base)
  | resolved (u base : Url) : Constructible u → Constructible (u.resolved base)

/-! ## The reference algorithm `remove_dot_segments` of RFC 3986, section 5.2.4

Written from the text of the RFC, with an input buffer and an output buffer. -/

/-- Step 2C: "remove the last segment and its preceding `/` (if any) from the
output buffer". -/
def rfcRemoveLastSegment (out : List Char) : List Char :=
  ((out.reverse.dropWhile (· != '/')).drop 1).reverse

/-- Step 2E: "the first path segment in the input buffer, including the initial
`/` character (if any) and any subsequent characters up to, but not including,
the next `/` character or the end of the input buffer". -/
def rfcFirstSegment (inp : List Char) : List Char :=
  inp.take 1 ++ (inp.drop 1).takeWhile (· != '/')

/-- One pass of step 2 on a non-empty input buffer: the new input buffer and
the new output buffer. -/
def rfcStep (inp out : List Char) : List Char × List Char :=
  -- A: a prefix `../` or `./` is removed
  if "../".toList.isPrefixOf inp then (inp.drop 3, out)
  else if "./".toList.isPrefixOf inp then (inp.drop 2, out)
  -- B: a prefix `/./`, or `/.` as the whole rest, is replaced with `/`
  else if "/./".toList.isPrefixOf inp then ('/' :: inp.drop 3, out)
  else if inp = "/.".toList then (['/'], out)
  -- C: a prefix `/../`, or `/..` as the whole rest, is replaced with `/` and
  -- the last segment is removed from the output
  else if "/../".toList.isPrefixOf inp then ('/' :: inp.drop 4, rfcRemoveLastSegment out)
  else if inp = "/..".toList then (['/'], rfcRemoveLastSegment out)
  -- D: an input that is only `.` or `..` is removed
  else if inp = ".".toList ∨ inp = "..".toList then ([], out)
  -- E: the first segment is moved to the output
  else (inp.drop (rfcFirstSegment inp).length, out ++ rfcFirstSegment inp)

/-- Step 2: "while the input buffer is not empty, loop". Each pass shortens the
input buffer, so its length bounds the number of passes. -/
def rfcLoop : Nat → List Char → List Char → List Char
  | 0, _, out => out
  | fuel + 1, inp, out =>
    if inp = [] then out else rfcLoop fuel (rfcStep inp out).1 (rfcStep inp out).2

/-- The algorithm `remove_dot_segments` of RFC 3986, section 5.2.4. -/
def rfcRemoveDotSegments (path : List Char) : List Char := rfcLoop path.length path []

/-- The path without the prefixes `../` and `./` it starts with. -/
def stripDotPrefixes : List Char → List Char
  | '.' :: '.' :: '/' :: r => stripDotPrefixes r
  | '.' :: '/' :: r => stripDotPrefixes r
  | l => l

/-- Every range of `u` lies inside the string of `u`. -/
def Url.rangesValid (u : Url) : Prop :=
  u.m_parts.scheme.within u.m_string.length ∧ u.m_parts.location.within u.m_string.length ∧
  u.m_parts.path.within u.m_string.length ∧ u.m_parts.parameters.within u.m_string.length ∧
  u.m_parts.query.within u.m_string.length ∧ u.m_parts.fragment.within u.m_string.length ∧
  u.m_parts.media.within u.m_string.length ∧ u.m_parts.data.within u.m_string.length

instance (u : Url) : Decidable u.rangesValid := by
  unfold Url.rangesValid Range.within
  infer_instance

/-- The cursors are in the order `begin ≤ out ≤ pos ≤ end`. -/
structure CursorsOk (b e : Nat) (st : Cursors) : Prop where
  hb : b ≤ st.out
  ho : st.out ≤ st.pos
  hp : st.pos ≤ e

/-! ## Reading characters -/

theorem charAt_nil (i : Nat) : charAt [] i = nul := rfl

theorem charAt_cons_zero (c : Char) (s : List Char) : charAt (c :: s) 0 = c := rfl

theorem charAt_cons_succ (c : Char) (s : List Char) (i : Nat) :
    charAt (c :: s) (i + 1) = charAt s i := rfl

theorem charAt_of_le (s : List Char) (i : Nat) (h : s.length ≤ i) : charAt s i = nul := by
  induction s generalizing i with
  | nil => rfl
  | cons c s ih =>
    cases i with
    | zero => simp at h
    | succ i => exact ih i (by simpa using h)

theorem charAt_append_left (a b : List Char) (i : Nat) (h : i < a.length) :
    charAt (a ++ b) i = charAt a i := by
  induction a generalizing i with
  | nil => simp at h
  | cons c a ih =>
    cases i with
    | zero => rfl
    | succ i => exact ih i (by simpa using h)

theorem charAt_append_right (a b : List Char) (i : Nat) :
    charAt (a ++ b) (a.length + i) = charAt b i := by
  induction a with
  | nil => simp
  | cons c a ih =>
    rw [List.length_cons, Nat.add_right_comm]
    exact ih

theorem charAt_mem (s : List Char) (i : Nat) (h : i < s.length) : charAt s i ∈ s := by
  induction s generalizing i with
  | nil => simp at h
  | cons c s ih =>
    cases i with
    | zero => exact List.mem_cons_self _ _
    | succ i => exact List.mem_cons_of_mem _ (ih i (by simpa using h))

theorem charAt_drop (s : List Char) (k i : Nat) : charAt (s.drop k) i = charAt s (k + i) := by
  induction s generalizing k with
  | nil => simp [charAt_nil]
  | cons c s ih =>
    cases k with
    | zero => simp
    | succ k =>
      rw [List.drop_succ_cons, ih, Nat.add_right_comm]
      rfl

/-! ## `size_t` arithmetic -/

theorem sizeSub_of_le {a b : Nat} (h : b ≤ a) : sizeSub a b = a - b := by
  simp [sizeSub, h]

theorem sizeSub_self (a : Nat) : sizeSub a a = 0 := by simp [sizeSub]

theorem sizeSub_zero (a : Nat) : sizeSub a 0 = a := by simp [sizeSub]

theorem minNpos_le (r : Option Nat) (e : Nat) : minNpos r e ≤ e := by
  cases r with
  | none => exact Nat.le_refl e
  | some i => exact Nat.min_le_right i e

/-! ## `find` -/

theorem indexOf_spec (c : Char) (l : List Char) :
    (∀ j, j < l.indexOf c → charAt l j ≠ c) ∧
      (l.indexOf c < l.length → charAt l (l.indexOf c) = c) := by
  induction l with
  | nil => simp
  | cons d l ih =>
    by_cases hd : d = c
    · subst hd
      simp [List.indexOf_cons_self, charAt_cons_zero]
    · rw [List.indexOf_cons_ne _ hd]
      refine ⟨?_, ?_⟩
      · intro j hj
        cases j with
        | zero => simpa [charAt_cons_zero] using hd
        | succ j => exact ih.1 j (by omega)
      · intro h
        exact ih.2 (by simpa using h)

/-- What `findChar` returns, in terms of the characters of the string. -/
theorem findChar_spec (s : List Char) (c : Char) (start : Nat) :
    match findChar s c start with
    | some i => start ≤ i ∧ i < s.length ∧ charAt s i = c ∧
        ∀ j, start ≤ j → j < i → charAt s j ≠ c
    | none => ∀ j, start ≤ j → j < s.length → charAt s j ≠ c := by
  have hspec := indexOf_spec c (s.drop start)
  have hle : (s.drop start).indexOf c ≤ (s.drop start).length := List.indexOf_le_length
  rw [List.length_drop] at hle
  unfold findChar
  by_cases h : start + (s.drop start).indexOf c < s.length
  · rw [if_pos h]
    refine ⟨Nat.le_add_right _ _, h, ?_, ?_⟩
    · have := hspec.2 (by rw [List.length_drop]; omega)
      rwa [charAt_drop] at this
    · intro j hj1 hj2
      have := hspec.1 (j - start) (by omega)
      rwa [charAt_drop, Nat.add_sub_cancel' hj1] at this
  · rw [if_neg h]
    intro j hj1 hj2
    have := hspec.1 (j - start) (by omega)
    rwa [charAt_drop, Nat.add_sub_cancel' hj1] at this

theorem findChar_eq_some {s : List Char} {c : Char} {start i : Nat}
    (h1 : start ≤ i) (h2 : i < s.length) (h3 : charAt s i = c)
    (h4 : ∀ j, start ≤ j → j < i → charAt s j ≠ c) : findChar s c start = some i := by
  have hspec := findChar_spec s c start
  cases hf : findChar s c start with
  | none =>
    rw [hf] at hspec
    exact absurd h3 (hspec i h1 h2)
  | some k =>
    rw [hf] at hspec
    obtain ⟨k1, k2, k3, k4⟩ := hspec
    rcases Nat.lt_trichotomy i k with hlt | heq | hgt
    · exact absurd h3 (k4 i h1 hlt)
    · rw [heq]
    · exact absurd k3 (h4 k k1 hgt)

theorem findChar_eq_none {s : List Char} {c : Char} {start : Nat}
    (h : ∀ j, start ≤ j → j < s.length → charAt s j ≠ c) : findChar s c start = none := by
  have hspec := findChar_spec s c start
  cases hf : findChar s c start with
  | none => rfl
  | some k =>
    rw [hf] at hspec
    exact absurd hspec.2.2.1 (h k hspec.1 hspec.2.1)

/-- The position found in `a ++ c :: b` when `c` does not occur in `a` from
`start` on. -/
theorem findChar_append_cons (a b : List Char) (c : Char) (start : Nat)
    (h1 : start ≤ a.length) (h2 : ∀ j, start ≤ j → j < a.length → charAt a j ≠ c) :
    findChar (a ++ c :: b) c start = some a.length := by
  apply findChar_eq_some h1
  · simp
  · simpa using charAt_append_right a (c :: b) 0
  · intro j hj1 hj2
    rw [charAt_append_left _ _ _ hj2]
    exact h2 j hj1 hj2

theorem charAt_ne_of_not_mem {s : List Char} {c : Char} (h : c ∉ s) (j : Nat)
    (hj : j < s.length) : charAt s j ≠ c := by
  intro heq
  exact h (heq ▸ charAt_mem s j hj)

/-- A `find` that starts inside the second of two concatenated strings. -/
theorem findChar_append_right (x y : List Char) (c : Char) (k : Nat) :
    findChar (x ++ y) c (x.length + k) = (findChar y c k).map (· + x.length) := by
  unfold findChar
  have hd : (x ++ y).drop (x.length + k) = y.drop k := by
    rw [List.drop_append]
  simp only [hd, List.length_append]
  by_cases h : k + (y.drop k).indexOf c < y.length
  · rw [if_pos h, if_pos (by omega)]
    simp only [Option.map_some', Option.some.injEq]
    omega
  · rw [if_neg h, if_neg (by omega)]
    rfl

theorem findChar_zero_append_cons (a b : List Char) (c : Char) (h : c ∉ a) :
    findChar (a ++ c :: b) c 0 = some a.length := by
  unfold findChar
  simp only [List.drop_zero, Nat.zero_add]
  rw [List.indexOf_append_of_not_mem h, List.indexOf_cons_self]
  simp

theorem findChar_zero_of_not_mem (a : List Char) (c : Char) (h : c ∉ a) :
    findChar a c 0 = none := by
  unfold findChar
  simp only [List.drop_zero, Nat.zero_add]
  rw [List.indexOf_of_not_mem h]
  simp

/-! ### The scheme loop -/

theorem scanScheme_eq (s : List Char) (e k : Nat) :
    ∀ fuel i, i ≤ k → k ≤ e → k - i ≤ fuel →
      (∀ j, i ≤ j → j < k → isSchemeChar (charAt s j) = true) →
      (k = e ∨ isSchemeChar (charAt s k) = false) →
      scanScheme s e fuel i = k := by
  intro fuel
  induction fuel with
  | zero =>
    intro i h1 _ h3 _ _
    simp only [scanScheme]
    omega
  | succ fuel ih =>
    intro i h1 h2 h3 h4 h5
    simp only [scanScheme]
    by_cases hik : i = k
    · subst hik
      rw [if_neg]
      rintro ⟨hlt, hc⟩
      rcases h5 with h5 | h5
      · omega
      · rw [h5] at hc; exact absurd hc (by decide)
    · have hlt : i < k := by omega
      rw [if_pos ⟨by omega, h4 i (Nat.le_refl i) hlt⟩]
      exact ih (i + 1) hlt h2 (by omega) (fun j hj1 hj2 => h4 j (by omega) hj2) h5

/-- The scheme loop stops where its condition fails, having passed over scheme
characters only. -/
theorem scanScheme_spec (s : List Char) (e : Nat) :
    ∀ fuel i, i ≤ e → e - i ≤ fuel →
      i ≤ scanScheme s e fuel i ∧ scanScheme s e fuel i ≤ e ∧
      (∀ j, i ≤ j → j < scanScheme s e fuel i → isSchemeChar (charAt s j) = true) ∧
      (scanScheme s e fuel i = e ∨ isSchemeChar (charAt s (scanScheme s e fuel i)) = false) := by
  intro fuel
  induction fuel with
  | zero =>
    intro i h1 h2
    simp only [scanScheme]
    refine ⟨Nat.le_refl i, h1, fun j hj1 hj2 => by omega, Or.inl (by omega)⟩
  | succ fuel ih =>
    intro i h1 h2
    simp only [scanScheme]
    by_cases hc : i < e ∧ isSchemeChar (charAt s i) = true
    · rw [if_pos hc]
      obtain ⟨k1, k2, k3, k4⟩ := ih (i + 1) hc.1 (by omega)
      refine ⟨by omega, k2, ?_, k4⟩
      intro j hj1 hj2
      by_cases hji : j = i
      · rw [hji]; exact hc.2
      · exact k3 j (by omega) hj2
    · rw [if_neg hc]
      refine ⟨Nat.le_refl i, h1, fun j hj1 hj2 => by omega, ?_⟩
      by_cases hie : i = e
      · exact Or.inl hie
      · right
        have : i < e := by omega
        simpa [this] using hc

theorem substr_append_right (x y : List Char) (k n : Nat) :
    substr (x ++ y) (x.length + k) n = substr y k n := by
  unfold substr
  rw [List.drop_append]

theorem substr_zero_append (y z : List Char) : substr (y ++ z) 0 y.length = y := by
  unfold substr
  simp

theorem minNpos_some (i e : Nat) : minNpos (some i) e = min i e := rfl

theorem isSchemeChar_colon : isSchemeChar ':' = false := by decide

theorem not_mem_of_isSchemeChar {sch : List Char} (h : ∀ c ∈ sch, isSchemeChar c = true)
    (d : Char) (hd : isSchemeChar d = false) : d ∉ sch := by
  intro hmem
  rw [h d hmem] at hd
  exact absurd hd (by decide)

theorem substr_cons_succ (c : Char) (y : List Char) (k n : Nat) :
    substr (c :: y) (k + 1) n = substr y k n := rfl

theorem substr_take_append (y z : List Char) (n : Nat) (h : n = y.length) :
    substr (y ++ z) 0 n = y := by
  subst h; exact substr_zero_append y z

/-! ### Substring search -/

theorem findSub_spec (pat : List Char) (l : List Char) :
    match findSub pat l with
    | some i => i ≤ l.length ∧ pat.isPrefixOf (l.drop i) = true ∧
        ∀ j, j < i → pat.isPrefixOf (l.drop j) = false
    | none => ∀ j, j ≤ l.length → pat.isPrefixOf (l.drop j) = false := by
  induction l with
  | nil =>
    unfold findSub
    by_cases hp : pat = []
    · rw [if_pos hp]
      subst hp
      exact ⟨Nat.le_refl _, rfl, fun j hj => absurd hj (Nat.not_lt_zero j)⟩
    · rw [if_neg hp]
      intro j _
      cases pat with
      | nil => exact absurd rfl hp
      | cons p ps => simp
  | cons c cs ih =>
    unfold findSub
    by_cases hp : pat.isPrefixOf (c :: cs) = true
    · rw [if_pos hp]
      exact ⟨Nat.zero_le _, hp, fun j hj => absurd hj (Nat.not_lt_zero j)⟩
    · rw [if_neg hp]
      cases hf : findSub pat cs with
      | none =>
        rw [hf] at ih
        intro j hj
        cases j with
        | zero => exact Bool.eq_false_iff.mpr hp
        | succ j => exact ih j (by simpa using hj)
      | some i =>
        rw [hf] at ih
        obtain ⟨h1, h2, h3⟩ := ih
        refine ⟨Nat.succ_le_succ h1, h2, ?_⟩
        intro j hj
        cases j with
        | zero => exact Bool.eq_false_iff.mpr hp
        | succ j => exact h3 j (Nat.lt_of_succ_lt_succ hj)

theorem findSub_eq_some {pat l : List Char} {i : Nat} (h1 : i ≤ l.length)
    (h2 : pat.isPrefixOf (l.drop i) = true)
    (h3 : ∀ j, j < i → pat.isPrefixOf (l.drop j) = false) : findSub pat l = some i := by
  have hspec := findSub_spec pat l
  cases hf : findSub pat l with
  | none =>
    rw [hf] at hspec
    rw [hspec i h1] at h2
    exact absurd h2 (by decide)
  | some k =>
    rw [hf] at hspec
    obtain ⟨_, k2, k3⟩ := hspec
    rcases Nat.lt_trichotomy i k with hlt | heq | hgt
    · rw [k3 i hlt] at h2; exact absurd h2 (by decide)
    · rw [heq]
    · rw [h3 k hgt] at k2; exact absurd k2 (by decide)

/-- A pattern that does not contain `c` and matches at the start of `l ++ c :: x`
matches at the start of `l`. -/
theorem isPrefixOf_append_cons (c : Char) (x : List Char) :
    ∀ (pat l : List Char), c ∉ pat → pat.isPrefixOf (l ++ c :: x) = pat.isPrefixOf l := by
  intro pat
  induction pat with
  | nil => intro l _; simp
  | cons p ps ih =>
    intro l hc
    simp only [List.mem_cons, not_or] at hc
    cases l with
    | nil =>
      have : (p == c) = false := by
        simp only [beq_eq_false_iff_ne, ne_eq]
        exact fun h => hc.1 h.symm
      simp [List.isPrefixOf, this]
    | cons d l =>
      rw [List.cons_append, List.isPrefixOf, List.isPrefixOf, ih l hc.2]

/-- If the pattern occurs neither in `m` nor with `c` at any but its first
place, it does not match in `m ++ c :: x` at a position inside `m`. -/
theorem isPrefixOf_drop_append_cons (pat m x : List Char) (c : Char)
    (hm : ¬ pat <:+: m) (hc : c ∉ pat.tail) (j : Nat) (hj : j < m.length) :
    pat.isPrefixOf ((m ++ c :: x).drop j) = false := by
  rw [List.drop_append_of_le_length (Nat.le_of_lt hj)]
  cases hpat : pat with
  | nil =>
    exfalso
    apply hm
    rw [hpat]
    exact List.nil_infix
  | cons p ps =>
    rw [hpat] at hc hm
    cases hd : m.drop j with
    | nil =>
      have := congrArg List.length hd
      simp at this
      omega
    | cons d m' =>
      rw [List.cons_append, List.isPrefixOf, isPrefixOf_append_cons c x ps m' (by simpa using hc)]
      by_contra hcon
      apply hm
      have hpre : (p :: ps).isPrefixOf (d :: m') = true := by
        simp only [List.isPrefixOf]
        simpa using hcon
      rw [List.isPrefixOf_iff_prefix] at hpre
      rw [← hd] at hpre
      exact ⟨m.take j, hpre.choose, by
        have := hpre.choose_spec
        rw [List.append_assoc, this, List.take_append_drop]⟩

/-! ## The parser: structure and flags -/

theorem initializeFromString_eq (s : List Char) :
    initializeFromString s =
      if schemeText s = "data".toList then (dataUrl s, true) else (plainUrl s, true) := rfl

theorem ofString_eq (s : List Char) :
    Url.ofString s = if schemeText s = "data".toList then dataUrl s else plainUrl s := by
  unfold Url.ofString
  rw [initializeFromString_eq]
  split <;> rfl

theorem ofString_scheme (s : List Char) : (Url.ofString s).scheme = schemeText s := by
  rw [ofString_eq]
  split <;> rfl

theorem schemeFlags_cases (s : List Char) : schemeFlags s = 0 ∨ schemeFlags s = 2 := by
  unfold schemeFlags
  split
  · right; rfl
  · left; rfl

theorem ofString_hasDataScheme (s : List Char) :
    (Url.ofString s).hasDataScheme = true ↔ schemeText s = "data".toList := by
  rw [ofString_eq]
  by_cases h : schemeText s = "data".toList
  · rw [if_pos h]
    simp only [h, iff_true]
    unfold Url.hasDataScheme dataUrl
    simp only []
    rcases schemeFlags_cases s with h0 | h0 <;> rw [h0] <;> split <;> decide
  · rw [if_neg h]
    simp only [h, iff_false]
    unfold Url.hasDataScheme plainUrl plainFlags
    simp only []
    rcases schemeFlags_cases s with h0 | h0 <;> rw [h0] <;> split_ifs <;> decide

theorem ofString_hasHttpScheme (s : List Char) :
    (Url.ofString s).hasHttpScheme = true ↔
      (schemeText s = "http".toList ∨ schemeText s = "https".toList) := by
  rw [ofString_eq]
  by_cases h : schemeText s = "data".toList
  · rw [if_pos h]
    have hne : ¬ (schemeText s = "http".toList ∨ schemeText s = "https".toList) := by
      rw [h]; decide
    simp only [hne, iff_false]
    unfold Url.hasHttpScheme dataUrl
    simp only []
    rcases schemeFlags_cases s with h0 | h0 <;> rw [h0] <;> split <;> decide
  · rw [if_neg h]
    unfold Url.hasHttpScheme plainUrl plainFlags
    simp only []
    by_cases h1 : schemeText s = "http".toList ∨ schemeText s = "https".toList
    · rw [if_pos h1]
      simp only [h1, iff_true]
      rcases schemeFlags_cases s with h0 | h0 <;> rw [h0] <;> decide
    · rw [if_neg h1]
      simp only [h1, iff_false]
      rcases schemeFlags_cases s with h0 | h0 <;> rw [h0] <;> split <;> decide

theorem ofString_hasFileScheme (s : List Char) :
    (Url.ofString s).hasFileScheme = true ↔ schemeText s = "file".toList := by
  rw [ofString_eq]
  by_cases h : schemeText s = "data".toList
  · rw [if_pos h]
    have hne : ¬ (schemeText s = "file".toList) := by
      rw [h]; decide
    simp only [hne, iff_false]
    unfold Url.hasFileScheme dataUrl
    simp only []
    rcases schemeFlags_cases s with h0 | h0 <;> rw [h0] <;> split <;> decide
  · rw [if_neg h]
    unfold Url.hasFileScheme plainUrl plainFlags
    simp only []
    by_cases h1 : schemeText s = "http".toList ∨ schemeText s = "https".toList
    · rw [if_pos h1]
      have hne : ¬ (schemeText s = "file".toList) := by
        rcases h1 with h1 | h1 <;> rw [h1] <;> decide
      simp only [hne, iff_false]
      rcases schemeFlags_cases s with h0 | h0 <;> rw [h0] <;> decide
    · rw [if_neg h1]
      by_cases h2 : schemeText s = "file".toList
      · rw [if_pos h2]
        simp only [h2, iff_true]
        rcases schemeFlags_cases s with h0 | h0 <;> rw [h0] <;> decide
      · rw [if_neg h2]
        simp only [h2, iff_false]
        rcases schemeFlags_cases s with h0 | h0 <;> rw [h0] <;> decide

theorem findStr_append_right (x y pat : List Char) (k : Nat) (hk : k ≤ y.length) :
    findStr (x ++ y) pat (x.length + k) = (findSub pat (y.drop k)).map (· + (x.length + k)) := by
  unfold findStr
  rw [if_pos (by simp; omega), List.drop_append]

theorem poundOf_of_not_mem (s : List Char) (h : '#' ∉ s) : poundOf s = s.length := by
  unfold poundOf
  rw [findChar_zero_of_not_mem _ _ h]
  rfl

/-! ### Bounds on the values the parser computes -/

theorem le_minNpos_findChar (s : List Char) (c : Char) (start e : Nat) (h : start ≤ e) :
    start ≤ minNpos (findChar s c start) e := by
  have hspec := findChar_spec s c start
  cases hf : findChar s c start with
  | none => exact h
  | some i =>
    rw [hf] at hspec
    rw [minNpos_some]
    exact Nat.le_min.mpr ⟨hspec.1, h⟩

theorem le_minNpos_findStr (s pat : List Char) (start e : Nat) (h : start ≤ e) :
    start ≤ minNpos (findStr s pat start) e := by
  unfold findStr
  split
  · cases hf : findSub pat (s.drop start) with
    | none => exact h
    | some i =>
      simp only [Option.map_some', minNpos_some]
      exact Nat.le_min.mpr ⟨Nat.le_add_left _ _, h⟩
  · exact h

theorem poundOf_le (s : List Char) : poundOf s ≤ s.length := minNpos_le _ _

theorem charAt_poundOf (s : List Char) (h : poundOf s < s.length) :
    charAt s (poundOf s) = '#' := by
  have hspec := findChar_spec s '#' 0
  unfold poundOf at h ⊢
  cases hf : findChar s '#' 0 with
  | none => rw [hf] at h; exact absurd h (Nat.lt_irrefl _)
  | some i =>
    rw [hf] at hspec h
    rw [minNpos_some] at h ⊢
    rw [Nat.min_eq_left (Nat.le_of_lt hspec.2.1)]
    exact hspec.2.2.1

theorem charAt_poundOf_ne (s : List Char) (c : Char) (h1 : c ≠ '#') (h2 : c ≠ nul) :
    charAt s (poundOf s) ≠ c := by
  rcases Nat.lt_or_ge (poundOf s) s.length with h | h
  · rw [charAt_poundOf s h]; exact fun e => h1 e.symm
  · rw [charAt_of_le s _ h]; exact fun e => h2 e.symm

theorem schemeStop_le (s : List Char) : schemeStop s ≤ poundOf s :=
  (scanScheme_spec s (poundOf s) (poundOf s - 0) 0 (Nat.zero_le _) (Nat.le_refl _)).2.1

theorem schemeStop_lt (s : List Char) (h : hasColon s) : schemeStop s < poundOf s := by
  have hle := schemeStop_le s
  rcases Nat.lt_or_ge (schemeStop s) (poundOf s) with h1 | h1
  · exact h1
  · have heq : schemeStop s = poundOf s := Nat.le_antisymm hle h1
    unfold hasColon at h
    rw [heq] at h
    exact absurd h (charAt_poundOf_ne s ':' (by decide) (by decide))

theorem afterScheme_le (s : List Char) : afterScheme s ≤ poundOf s := by
  unfold afterScheme
  split
  · rename_i h; exact schemeStop_lt s h
  · exact Nat.zero_le _

theorem substr_eq_two {s : List Char} {a : Nat} {c d : Char} (h : substr s a 2 = [c, d]) :
    charAt s a = c ∧ charAt s (a + 1) = d ∧ a + 1 < s.length := by
  unfold substr at h
  have h0 : charAt (s.drop a) 0 = c := by
    cases hd : s.drop a with
    | nil => rw [hd] at h; simp at h
    | cons x xs => rw [hd] at h; simp at h; rw [← h.1]; rfl
  have h1 : charAt (s.drop a) 1 = d ∧ 1 < (s.drop a).length := by
    cases hd : s.drop a with
    | nil => rw [hd] at h; simp at h
    | cons x xs =>
      cases xs with
      | nil => rw [hd] at h; simp at h
      | cons y ys => rw [hd] at h; simp at h; rw [← h.2]; exact ⟨rfl, by simp⟩
  rw [charAt_drop] at h0 h1
  rw [List.length_drop] at h1
  exact ⟨h0, h1.1, by omega⟩

theorem hasLocation_bound (s : List Char) (h : hasLocation s = true) :
    afterScheme s + 2 ≤ poundOf s := by
  unfold hasLocation at h
  have h2 := substr_eq_two (of_decide_eq_true h)
  have hle := afterScheme_le s
  have hp : ∀ k, charAt s k = '/' → k < s.length → k ≠ poundOf s := by
    intro k hk _ heq
    rw [heq] at hk
    exact charAt_poundOf_ne s '/' (by decide) (by decide) hk
  have hl := poundOf_le s
  have e1 := hp _ h2.1 (by omega)
  have e2 := hp _ h2.2.1 h2.2.2
  omega

theorem slashOf_ge (s : List Char) (h : hasLocation s = true) : afterScheme s + 2 ≤ slashOf s :=
  le_minNpos_findChar _ _ _ _ (hasLocation_bound s h)

theorem slashOf_le (s : List Char) : slashOf s ≤ poundOf s := minNpos_le _ _

theorem pathStartOf_le (s : List Char) : pathStartOf s ≤ poundOf s := by
  unfold pathStartOf
  split
  · exact slashOf_le s
  · exact afterScheme_le s

theorem qmarkOf_le (s : List Char) : qmarkOf s ≤ poundOf s := minNpos_le _ _

theorem qmarkOf_ge (s : List Char) : pathStartOf s ≤ qmarkOf s :=
  le_minNpos_findChar _ _ _ _ (pathStartOf_le s)

theorem semicolonOf_le (s : List Char) : semicolonOf s ≤ qmarkOf s := minNpos_le _ _

theorem semicolonOf_ge (s : List Char) : pathStartOf s ≤ semicolonOf s :=
  le_minNpos_findChar _ _ _ _ (qmarkOf_ge s)

theorem commaOf_le (s : List Char) : commaOf s ≤ poundOf s := minNpos_le _ _

theorem commaOf_ge (s : List Char) : afterScheme s ≤ commaOf s :=
  le_minNpos_findChar _ _ _ _ (afterScheme_le s)

theorem base64Of_le (s : List Char) : base64Of s ≤ poundOf s := minNpos_le _ _

theorem base64Of_ge (s : List Char) : afterScheme s ≤ base64Of s :=
  le_minNpos_findStr _ _ _ _ (afterScheme_le s)

theorem within_default (n : Nat) : Range.within {} n := Nat.zero_le _

theorem schemeOf_within (s : List Char) : (schemeOf s).within (poundOf s) := by
  unfold schemeOf Range.within
  split
  · simp only [sizeSub_zero, Nat.zero_add]; exact schemeStop_le s
  · exact Nat.zero_le _

theorem fragmentOf_within (s : List Char) : (fragmentOf s).within s.length := by
  unfold fragmentOf Range.within
  simp only []
  rw [sizeSub_of_le (Nat.min_le_right _ _)]
  have := Nat.min_le_right (poundOf s + 1) s.length
  omega

/-- Every range of the data URI branch lies inside the string, the ones other
than the fragment before the `#`. -/
theorem dataUrl_within (s : List Char) :
    (dataUrl s).m_parts.scheme.within (poundOf s) ∧ (dataUrl s).m_parts.location.within (poundOf s) ∧
    (dataUrl s).m_parts.path.within (poundOf s) ∧ (dataUrl s).m_parts.parameters.within (poundOf s) ∧
    (dataUrl s).m_parts.query.within (poundOf s) ∧ (dataUrl s).m_parts.fragment.within s.length ∧
    (dataUrl s).m_parts.media.within (poundOf s) ∧ (dataUrl s).m_parts.data.within (poundOf s) := by
  refine ⟨schemeOf_within s, within_default _, within_default _, within_default _,
    within_default _, fragmentOf_within s, ?_, ?_⟩
  · unfold dataUrl Range.within
    simp only []
    have h1 := base64Of_ge s
    have h2 := commaOf_ge s
    have h3 := commaOf_le s
    rw [sizeSub_of_le (Nat.le_min.mpr ⟨h1, h2⟩)]
    have := Nat.min_le_right (base64Of s) (commaOf s)
    omega
  · unfold dataUrl Range.within
    simp only []
    rw [sizeSub_of_le (Nat.min_le_right _ _)]
    have := Nat.min_le_right (commaOf s + 1) (poundOf s)
    omega

/-- Every range of the branch for other URLs lies inside the string, the ones
other than the fragment before the `#`. -/
theorem plainUrl_within (s : List Char) :
    (plainUrl s).m_parts.scheme.within (poundOf s) ∧ (plainUrl s).m_parts.location.within (poundOf s) ∧
    (plainUrl s).m_parts.path.within (poundOf s) ∧ (plainUrl s).m_parts.parameters.within (poundOf s) ∧
    (plainUrl s).m_parts.query.within (poundOf s) ∧ (plainUrl s).m_parts.fragment.within s.length ∧
    (plainUrl s).m_parts.media.within (poundOf s) ∧ (plainUrl s).m_parts.data.within (poundOf s) := by
  have q1 := qmarkOf_le s
  have q2 := qmarkOf_ge s
  have s1 := semicolonOf_le s
  have s2 := semicolonOf_ge s
  refine ⟨schemeOf_within s, ?_, ?_, ?_, ?_, fragmentOf_within s, within_default _,
    within_default _⟩
  · unfold plainUrl Range.within
    simp only []
    split
    · rename_i h
      simp only []
      have h1 := slashOf_ge s h
      have h2 := slashOf_le s
      rw [sizeSub_of_le h1]
      omega
    · exact Nat.zero_le _
  · unfold plainUrl Range.within
    simp only []
    rw [sizeSub_of_le s2]
    omega
  · unfold plainUrl Range.within
    simp only []
    rw [sizeSub_of_le (Nat.min_le_right _ _)]
    have := Nat.min_le_right (semicolonOf s + 1) (qmarkOf s)
    omega
  · unfold plainUrl Range.within
    simp only []
    rw [sizeSub_of_le (Nat.min_le_right _ _)]
    have := Nat.min_le_right (qmarkOf s + 1) (poundOf s)
    omega

/-! ### Appending a fragment -/

theorem substr_append_left (s x : List Char) (a n : Nat) (h : a + n ≤ s.length) :
    substr (s ++ x) a n = substr s a n := by
  unfold substr
  rw [List.drop_append_of_le_length (by omega), List.take_append_of_le_length]
  rw [List.length_drop]
  omega

theorem scanScheme_append (s x : List Char) (e : Nat) (he : e ≤ s.length) :
    ∀ fuel i, scanScheme (s ++ x) e fuel i = scanScheme s e fuel i := by
  intro fuel
  induction fuel with
  | zero => intro i; rfl
  | succ fuel ih =>
    intro i
    simp only [scanScheme]
    by_cases hi : i < e
    · rw [charAt_append_left s x i (by omega), ih]
    · rw [if_neg (fun h => hi h.1), if_neg (fun h => hi h.1)]

theorem minNpos_findChar_append (s x : List Char) (c : Char) (start e : Nat)
    (he : e ≤ s.length) :
    minNpos (findChar (s ++ x) c start) e = minNpos (findChar s c start) e := by
  have hs := findChar_spec s c start
  cases hf : findChar s c start with
  | some i =>
    rw [hf] at hs
    obtain ⟨h1, h2, h3, h4⟩ := hs
    have : findChar (s ++ x) c start = some i := by
      apply findChar_eq_some h1
      · rw [List.length_append]; omega
      · rw [charAt_append_left _ _ _ h2]; exact h3
      · intro j hj1 hj2
        rw [charAt_append_left _ _ _ (by omega)]
        exact h4 j hj1 hj2
    rw [this]
  | none =>
    rw [hf] at hs
    have ht := findChar_spec (s ++ x) c start
    cases hg : findChar (s ++ x) c start with
    | none => rfl
    | some k =>
      rw [hg] at ht
      obtain ⟨k1, _, k3, _⟩ := ht
      have hk : s.length ≤ k := by
        by_contra hlt
        have hlt : k < s.length := by omega
        rw [charAt_append_left _ _ _ hlt] at k3
        exact hs k k1 hlt k3
      simp only [minNpos]
      omega

theorem minNpos_findStr_append (s f pat : List Char) (c : Char) (hc : c ∉ pat) (start e : Nat)
    (he : e ≤ s.length) :
    minNpos (findStr (s ++ c :: f) pat start) e = minNpos (findStr s pat start) e := by
  unfold findStr
  by_cases hst : start ≤ s.length
  · rw [if_pos hst, if_pos (by rw [List.length_append]; omega),
      List.drop_append_of_le_length hst]
    have hpre : ∀ j, j ≤ (s.drop start).length →
        pat.isPrefixOf ((s.drop start ++ c :: f).drop j) = pat.isPrefixOf ((s.drop start).drop j) := by
      intro j hj
      rw [List.drop_append_of_le_length hj]
      exact isPrefixOf_append_cons c f pat _ hc
    have hs := findSub_spec pat (s.drop start)
    cases hf : findSub pat (s.drop start) with
    | some i =>
      rw [hf] at hs
      obtain ⟨h1, h2, h3⟩ := hs
      have : findSub pat (s.drop start ++ c :: f) = some i := by
        apply findSub_eq_some
        · rw [List.length_append]; omega
        · rw [hpre i h1]; exact h2
        · intro j hj
          rw [hpre j (by omega)]
          exact h3 j hj
      rw [this]
    | none =>
      rw [hf] at hs
      have ht := findSub_spec pat (s.drop start ++ c :: f)
      cases hg : findSub pat (s.drop start ++ c :: f) with
      | none => rfl
      | some k =>
        rw [hg] at ht
        obtain ⟨_, k2, _⟩ := ht
        have hk : (s.drop start).length < k := by
          by_contra hle
          have hle : k ≤ (s.drop start).length := by omega
          rw [hpre k hle, hs k hle] at k2
          exact absurd k2 (by decide)
        rw [List.length_drop] at hk
        simp only [Option.map_some', Option.map_none', minNpos]
        omega
  · rw [if_neg hst]
    split
    · cases hg : findSub pat ((s ++ c :: f).drop start) with
      | none => rfl
      | some k =>
        simp only [Option.map_some', minNpos]
        omega
    · rfl

/-- The test for `//` does not see a `#` that is appended. -/
theorem substr_two_append_pound (s f : List Char) (a : Nat) (ha : a ≤ s.length) :
    (substr (s ++ '#' :: f) a 2 = "//".toList) ↔ (substr s a 2 = "//".toList) := by
  unfold substr
  rw [List.drop_append_of_le_length ha]
  cases s.drop a with
  | nil => simp
  | cons x xs =>
    cases xs with
    | nil => simp
    | cons y ys => simp

section AppendFragment

variable (s f : List Char) (h : '#' ∉ s)
include h

theorem poundOf_append_pound : poundOf (s ++ '#' :: f) = s.length := by
  unfold poundOf
  rw [findChar_zero_append_cons _ _ _ h, minNpos_some, List.length_append]
  omega

theorem schemeStop_append_pound : schemeStop (s ++ '#' :: f) = schemeStop s := by
  unfold schemeStop
  rw [poundOf_append_pound s f h, poundOf_of_not_mem s h]
  exact scanScheme_append s _ _ (Nat.le_refl _) _ _

theorem hasColon_append_pound : hasColon (s ++ '#' :: f) ↔ hasColon s := by
  unfold hasColon
  rw [schemeStop_append_pound s f h]
  have hle := schemeStop_le s
  rw [poundOf_of_not_mem s h] at hle
  rcases Nat.lt_or_ge (schemeStop s) s.length with hlt | hge
  · rw [charAt_append_left _ _ _ hlt]
  · have heq : schemeStop s = s.length := Nat.le_antisymm hle hge
    rw [heq, charAt_of_le s _ (Nat.le_refl _)]
    have := charAt_append_right s ('#' :: f) 0
    rw [Nat.add_zero] at this
    rw [this, charAt_cons_zero]
    constructor <;> intro hc <;> exact absurd hc (by decide)

theorem schemeOf_append_pound : schemeOf (s ++ '#' :: f) = schemeOf s := by
  unfold schemeOf
  by_cases hc : hasColon s
  · rw [if_pos hc, if_pos ((hasColon_append_pound s f h).mpr hc), schemeStop_append_pound s f h]
  · rw [if_neg hc, if_neg (fun hc' => hc ((hasColon_append_pound s f h).mp hc'))]

theorem afterScheme_append_pound : afterScheme (s ++ '#' :: f) = afterScheme s := by
  unfold afterScheme
  by_cases hc : hasColon s
  · rw [if_pos hc, if_pos ((hasColon_append_pound s f h).mpr hc), schemeStop_append_pound s f h]
  · rw [if_neg hc, if_neg (fun hc' => hc ((hasColon_append_pound s f h).mp hc'))]

theorem schemeFlags_append_pound : schemeFlags (s ++ '#' :: f) = schemeFlags s := by
  unfold schemeFlags
  by_cases hc : hasColon s
  · rw [if_pos hc, if_pos ((hasColon_append_pound s f h).mpr hc)]
  · rw [if_neg hc, if_neg (fun hc' => hc ((hasColon_append_pound s f h).mp hc'))]

theorem schemeText_append_pound : schemeText (s ++ '#' :: f) = schemeText s := by
  unfold schemeText
  rw [schemeOf_append_pound s f h]
  apply substr_append_left
  have := schemeOf_within s
  rw [poundOf_of_not_mem s h] at this
  exact this

theorem base64Of_append_pound : base64Of (s ++ '#' :: f) = base64Of s := by
  unfold base64Of
  rw [afterScheme_append_pound s f h, poundOf_append_pound s f h, poundOf_of_not_mem s h]
  exact minNpos_findStr_append s f _ '#' (by decide) _ _ (Nat.le_refl _)

theorem commaOf_append_pound : commaOf (s ++ '#' :: f) = commaOf s := by
  unfold commaOf
  rw [afterScheme_append_pound s f h, poundOf_append_pound s f h, poundOf_of_not_mem s h]
  exact minNpos_findChar_append s _ _ _ _ (Nat.le_refl _)

theorem hasLocation_append_pound : hasLocation (s ++ '#' :: f) = hasLocation s := by
  unfold hasLocation
  rw [afterScheme_append_pound s f h]
  have hle := afterScheme_le s
  rw [poundOf_of_not_mem s h] at hle
  exact decide_eq_decide.mpr (substr_two_append_pound s f _ hle)

theorem slashOf_append_pound : slashOf (s ++ '#' :: f) = slashOf s := by
  unfold slashOf
  rw [afterScheme_append_pound s f h, poundOf_append_pound s f h, poundOf_of_not_mem s h]
  exact minNpos_findChar_append s _ _ _ _ (Nat.le_refl _)

theorem pathStartOf_append_pound : pathStartOf (s ++ '#' :: f) = pathStartOf s := by
  unfold pathStartOf
  rw [hasLocation_append_pound s f h, slashOf_append_pound s f h, afterScheme_append_pound s f h]

theorem qmarkOf_append_pound : qmarkOf (s ++ '#' :: f) = qmarkOf s := by
  unfold qmarkOf
  rw [pathStartOf_append_pound s f h, poundOf_append_pound s f h, poundOf_of_not_mem s h]
  exact minNpos_findChar_append s _ _ _ _ (Nat.le_refl _)

theorem semicolonOf_append_pound : semicolonOf (s ++ '#' :: f) = semicolonOf s := by
  unfold semicolonOf
  rw [pathStartOf_append_pound s f h, qmarkOf_append_pound s f h]
  have := qmarkOf_le s
  rw [poundOf_of_not_mem s h] at this
  exact minNpos_findChar_append s _ _ _ _ this

theorem plainFlags_append_pound : plainFlags (s ++ '#' :: f) = plainFlags s := by
  unfold plainFlags
  rw [schemeText_append_pound s f h, schemeFlags_append_pound s f h]

theorem fragmentOf_append_pound :
    fragmentOf (s ++ '#' :: f) = { start := s.length + 1, count := f.length } := by
  unfold fragmentOf
  rw [poundOf_append_pound s f h]
  have hl : (s ++ '#' :: f).length = s.length + 1 + f.length := by simp; omega
  rw [hl, Nat.min_eq_left (by omega), sizeSub_of_le (by omega)]
  congr 1
  omega

theorem fragmentOf_of_not_mem : fragmentOf s = { start := s.length, count := 0 } := by
  unfold fragmentOf
  rw [poundOf_of_not_mem s h, Nat.min_eq_right (by omega), sizeSub_self]

/-- Parsing `s ++ "#" ++ f` gives the ranges and flags of parsing `s`, but for
the fragment. -/
theorem ofString_append_pound :
    Url.ofString (s ++ '#' :: f) =
      { m_string := s ++ '#' :: f,
        m_parts := { (Url.ofString s).m_parts with
                     fragment := { start := s.length + 1, count := f.length } },
        m_flags := (Url.ofString s).m_flags } := by
  rw [ofString_eq, ofString_eq, schemeText_append_pound s f h]
  split
  · unfold dataUrl
    rw [schemeOf_append_pound s f h, fragmentOf_append_pound s f h, afterScheme_append_pound s f h,
      base64Of_append_pound s f h, commaOf_append_pound s f h, poundOf_append_pound s f h,
      schemeFlags_append_pound s f h, poundOf_of_not_mem s h]
  · unfold plainUrl
    rw [schemeOf_append_pound s f h, fragmentOf_append_pound s f h, afterScheme_append_pound s f h,
      hasLocation_append_pound s f h, slashOf_append_pound s f h, pathStartOf_append_pound s f h,
      qmarkOf_append_pound s f h, semicolonOf_append_pound s f h, poundOf_append_pound s f h,
      plainFlags_append_pound s f h, poundOf_of_not_mem s h]

end AppendFragment

/-- The ranges of a parsed URL lie inside its string. -/
theorem ofString_within (s : List Char) :
    (Url.ofString s).m_parts.scheme.within s.length ∧
    (Url.ofString s).m_parts.location.within s.length ∧
    (Url.ofString s).m_parts.path.within s.length ∧
    (Url.ofString s).m_parts.parameters.within s.length ∧
    (Url.ofString s).m_parts.query.within s.length ∧
    (Url.ofString s).m_parts.fragment.within s.length ∧
    (Url.ofString s).m_parts.media.within s.length ∧
    (Url.ofString s).m_parts.data.within s.length := by
  have hp := poundOf_le s
  rw [ofString_eq]
  split
  · obtain ⟨h1, h2, h3, h4, h5, h6, h7, h8⟩ := dataUrl_within s
    exact ⟨Nat.le_trans h1 hp, Nat.le_trans h2 hp, Nat.le_trans h3 hp, Nat.le_trans h4 hp,
      Nat.le_trans h5 hp, h6, Nat.le_trans h7 hp, Nat.le_trans h8 hp⟩
  · obtain ⟨h1, h2, h3, h4, h5, h6, h7, h8⟩ := plainUrl_within s
    exact ⟨Nat.le_trans h1 hp, Nat.le_trans h2 hp, Nat.le_trans h3 hp, Nat.le_trans h4 hp,
      Nat.le_trans h5 hp, h6, Nat.le_trans h7 hp, Nat.le_trans h8 hp⟩

theorem ofString_m_string (s : List Char) : (Url.ofString s).m_string = s := by
  rw [ofString_eq]
  split <;> rfl

/-! ## Claims about the parser -/

/-- Claim C1: a URL assembled from a scheme other than `data`, a network location,
a path that starts with `/`, parameters, a query and a fragment, with the
separators `://`, `;`, `?` and `#` between them and none of the components
containing a separator that ends it early, is parsed into exactly those
components; it is absolute and has neither media type nor data. -/
theorem ofString_url_components (sch loc path par q f : List Char)
    (hsch : sch ≠ [] ∧ (∀ c ∈ sch, isSchemeChar c = true) ∧ sch ≠ "data".toList)
    (hloc : '/' ∉ loc ∧ '#' ∉ loc)
    (hpath : path.head? = some '/' ∧ ';' ∉ path ∧ '?' ∉ path ∧ '#' ∉ path)
    (hpar : '?' ∉ par ∧ '#' ∉ par) (hq : '#' ∉ q) :
    (Url.ofString (sch ++ "://".toList ++ loc ++ path ++ ";".toList ++ par ++ "?".toList ++ q
        ++ "#".toList ++ f)).isAbsolute = true ∧
    (Url.ofString (sch ++ "://".toList ++ loc ++ path ++ ";".toList ++ par ++ "?".toList ++ q
        ++ "#".toList ++ f)).scheme = sch ∧
    (Url.ofString (sch ++ "://".toList ++ loc ++ path ++ ";".toList ++ par ++ "?".toList ++ q
        ++ "#".toList ++ f)).netLocation = loc ∧
    (Url.ofString (sch ++ "://".toList ++ loc ++ path ++ ";".toList ++ par ++ "?".toList ++ q
        ++ "#".toList ++ f)).path = path ∧
    (Url.ofString (sch ++ "://".toList ++ loc ++ path ++ ";".toList ++ par ++ "?".toList ++ q
        ++ "#".toList ++ f)).parameters = par ∧
    (Url.ofString (sch ++ "://".toList ++ loc ++ path ++ ";".toList ++ par ++ "?".toList ++ q
        ++ "#".toList ++ f)).query = q ∧
    (Url.ofString (sch ++ "://".toList ++ loc ++ path ++ ";".toList ++ par ++ "?".toList ++ q
        ++ "#".toList ++ f)).fragment = f ∧
    (Url.ofString (sch ++ "://".toList ++ loc ++ path ++ ";".toList ++ par ++ "?".toList ++ q
        ++ "#".toList ++ f)).hasMediaType = false ∧
    (Url.ofString (sch ++ "://".toList ++ loc ++ path ++ ";".toList ++ par ++ "?".toList ++ q
        ++ "#".toList ++ f)).hasData = false := by
  obtain ⟨hs1, hs2, hs3⟩ := hsch
  obtain ⟨hl1, hl2⟩ := hloc
  obtain ⟨hp1, hp2, hp3, hp4⟩ := hpath
  obtain ⟨hr1, hr2⟩ := hpar
  obtain ⟨p', rfl⟩ : ∃ p', path = '/' :: p' := by
    cases path with
    | nil => simp at hp1
    | cons c p' => simp at hp1; exact ⟨p', by rw [hp1]⟩
  simp only [List.mem_cons, not_or] at hp2 hp3 hp4
  -- the source, split at each separator
  generalize hs : sch ++ "://".toList ++ loc ++ ('/' :: p') ++ ";".toList ++ par ++ "?".toList ++ q
        ++ "#".toList ++ f = s
  -- the tails of the source after each component
  generalize hr4 : par ++ '?' :: (q ++ '#' :: f) = r4
  generalize hr3 : '/' :: (p' ++ ';' :: r4) = r3
  generalize hr2' : loc ++ r3 = r2
  have hB : s = sch ++ ':' :: '/' :: '/' :: r2 := by
    rw [← hs, ← hr2', ← hr3, ← hr4]; simp
  have hA : s = (sch ++ ':' :: '/' :: '/' :: (loc ++ '/' :: (p' ++ ';' :: (par ++ '?' :: q)))) ++ '#' :: f := by
    rw [← hs]; simp
  have hC : s = (sch ++ [':', '/', '/']) ++ r2 := by rw [hB]; simp
  have hD : s = (sch ++ ':' :: '/' :: '/' :: loc) ++ r3 := by rw [hB, ← hr2']; simp
  have hhash : '#' ∉ sch := not_mem_of_isSchemeChar hs2 '#' (by decide)
  have hlen4 : r4.length = par.length + 1 + q.length + 1 + f.length := by
    rw [← hr4]; simp; omega
  have hlen3 : r3.length = 1 + p'.length + 1 + r4.length := by
    rw [← hr3]; simp; omega
  have hlen2 : r2.length = loc.length + r3.length := by
    rw [← hr2']; simp
  have hlen : s.length = sch.length + 3 + r2.length := by
    rw [hB]; simp; omega
  -- pound
  have hpound : poundOf s = sch.length + 3 + loc.length + (p'.length + 1) + 1 + par.length + 1 + q.length := by
    unfold poundOf
    rw [hA, findChar_zero_append_cons]
    · simp [minNpos_some]; omega
    · simp [hhash, hl2, hp4, hr2, hq]
  -- scheme
  have hat : charAt s sch.length = ':' := by
    rw [hB]
    have := charAt_append_right sch (':' :: '/' :: '/' :: r2) 0
    rw [Nat.add_zero] at this
    rw [this]
    rfl
  have hstop : schemeStop s = sch.length := by
    unfold schemeStop
    rw [hpound]
    apply scanScheme_eq
    · exact Nat.zero_le _
    · omega
    · omega
    · intro j _ hj
      rw [hB, charAt_append_left _ _ _ hj]
      exact hs2 _ (charAt_mem _ _ hj)
    · right
      rw [hat]
      rfl
  have hcolon : hasColon s := by
    unfold hasColon
    rw [hstop]
    exact hat
  have hscheme : schemeOf s = { start := 0, count := sch.length } := by
    unfold schemeOf
    rw [if_pos hcolon, hstop, sizeSub_zero]
  have htext : schemeText s = sch := by
    unfold schemeText
    rw [hscheme]
    simp only []
    rw [hB]
    exact substr_zero_append _ _
  have hafter : afterScheme s = sch.length + 1 := by
    unfold afterScheme
    rw [if_pos hcolon, hstop]
  -- network location
  have hhasloc : hasLocation s = true := by
    unfold hasLocation
    rw [hafter, hB, substr_append_right]
    simp [substr]
  have hslash : slashOf s = sch.length + 3 + loc.length := by
    unfold slashOf
    rw [hafter, hpound]
    have h1 : findChar s '/' (sch.length + 1 + 2) = some (loc.length + (sch.length + 3)) := by
      have := findChar_append_right (sch ++ [':', '/', '/']) r2 '/' 0
      rw [← hC] at this
      simp only [List.length_append, List.length_cons, List.length_nil, Nat.add_zero] at this
      rw [this, ← hr2', ← hr3, findChar_zero_append_cons _ _ _ hl1]
      rfl
    rw [h1, minNpos_some]
    omega
  have hstart : pathStartOf s = sch.length + 3 + loc.length := by
    unfold pathStartOf
    rw [if_pos hhasloc, hslash]
  -- query and parameters
  have hqmark : qmarkOf s = sch.length + 3 + loc.length + (p'.length + 1) + 1 + par.length := by
    unfold qmarkOf
    rw [hstart, hpound]
    have h1 : findChar s '?' (sch.length + 3 + loc.length) =
        some ((p'.length + 1) + 1 + par.length + (sch.length + 3 + loc.length)) := by
      have := findChar_append_right (sch ++ ':' :: '/' :: '/' :: loc) r3 '?' 0
      rw [← hD] at this
      simp only [List.length_append, List.length_cons, Nat.add_zero] at this
      have e : r3 = ('/' :: (p' ++ ';' :: par)) ++ '?' :: (q ++ '#' :: f) := by
        rw [← hr3, ← hr4]; simp
      have hn : '?' ∉ '/' :: (p' ++ ';' :: par) := by
        simp [hp3, hr1]
      rw [show sch.length + 3 + loc.length = sch.length + (loc.length + 1 + 1 + 1) by omega, this, e,
        findChar_zero_append_cons _ _ _ hn]
      simp only [Option.map_some', Option.some.injEq, List.length_cons, List.length_append]
      try omega
    rw [h1, minNpos_some]
    omega
  have hsemi : semicolonOf s = sch.length + 3 + loc.length + (p'.length + 1) := by
    unfold semicolonOf
    rw [hstart, hqmark]
    have h1 : findChar s ';' (sch.length + 3 + loc.length) =
        some ((p'.length + 1) + (sch.length + 3 + loc.length)) := by
      have := findChar_append_right (sch ++ ':' :: '/' :: '/' :: loc) r3 ';' 0
      rw [← hD] at this
      simp only [List.length_append, List.length_cons, Nat.add_zero] at this
      have e : r3 = ('/' :: p') ++ ';' :: r4 := by
        rw [← hr3]; simp
      have hn : ';' ∉ '/' :: p' := by
        simp [hp2]
      rw [show sch.length + 3 + loc.length = sch.length + (loc.length + 1 + 1 + 1) by omega, this, e,
        findChar_zero_append_cons _ _ _ hn]
      simp only [Option.map_some', Option.some.injEq, List.length_cons, List.length_append]
      try omega
    rw [h1, minNpos_some]
    omega
  have hnd : ¬ schemeText s = "data".toList := by rw [htext]; exact hs3
  rw [ofString_eq, if_neg hnd]
  refine ⟨?_, htext, ?_, ?_, ?_, ?_, ?_, rfl, rfl⟩
  · unfold Url.isAbsolute plainUrl plainFlags schemeFlags
    simp only []
    rw [if_pos hcolon]
    split_ifs <;> decide
  · -- netLocation
    unfold Url.netLocation plainUrl
    simp only []
    rw [if_pos hhasloc]
    simp only []
    rw [hslash, hafter, sizeSub_of_le (by omega)]
    have := substr_append_right (sch ++ [':', '/', '/']) r2 0 loc.length
    rw [← hC] at this
    simp only [List.length_append, List.length_cons, List.length_nil, Nat.add_zero] at this
    rw [show sch.length + 1 + 2 = sch.length + (0 + 1 + 1 + 1) by omega,
      show sch.length + 3 + loc.length - (sch.length + (0 + 1 + 1 + 1)) = loc.length by omega, this,
      ← hr2']
    exact substr_zero_append _ _
  · -- path
    unfold Url.path plainUrl
    simp only []
    rw [hsemi, hstart, sizeSub_of_le (by omega)]
    have := substr_append_right (sch ++ ':' :: '/' :: '/' :: loc) r3 0 (p'.length + 1)
    rw [← hD] at this
    simp only [List.length_append, List.length_cons, Nat.add_zero] at this
    rw [show sch.length + 3 + loc.length = sch.length + (loc.length + 1 + 1 + 1) by omega,
      show sch.length + (loc.length + 1 + 1 + 1) + (p'.length + 1) - (sch.length + (loc.length + 1 + 1 + 1))
        = p'.length + 1 by omega, this, ← hr3]
    exact substr_take_append ('/' :: p') (';' :: r4) _ (by simp)
  · -- parameters
    unfold Url.parameters plainUrl
    simp only []
    rw [hsemi, hqmark]
    have hmin : min (sch.length + 3 + loc.length + (p'.length + 1) + 1)
        (sch.length + 3 + loc.length + (p'.length + 1) + 1 + par.length) =
        sch.length + 3 + loc.length + (p'.length + 1) + 1 := by omega
    rw [hmin, sizeSub_of_le (by omega)]
    have e : s = (sch ++ ':' :: '/' :: '/' :: (loc ++ '/' :: (p' ++ [';']))) ++ r4 := by
      rw [hB, ← hr2', ← hr3]; simp
    have := substr_append_right (sch ++ ':' :: '/' :: '/' :: (loc ++ '/' :: (p' ++ [';']))) r4 0 par.length
    rw [← e] at this
    simp only [List.length_append, List.length_cons, List.length_nil, Nat.add_zero] at this
    rw [show sch.length + 3 + loc.length + (p'.length + 1) + 1 =
        sch.length + (loc.length + (p'.length + (0 + 1) + 1) + 1 + 1 + 1) by omega,
      show sch.length + (loc.length + (p'.length + (0 + 1) + 1) + 1 + 1 + 1) + par.length -
        (sch.length + (loc.length + (p'.length + (0 + 1) + 1) + 1 + 1 + 1)) = par.length by omega,
      this, ← hr4]
    exact substr_zero_append _ _
  · -- query
    unfold Url.query plainUrl
    simp only []
    rw [hqmark, hpound]
    have hmin : min (sch.length + 3 + loc.length + (p'.length + 1) + 1 + par.length + 1)
        (sch.length + 3 + loc.length + (p'.length + 1) + 1 + par.length + 1 + q.length) =
        sch.length + 3 + loc.length + (p'.length + 1) + 1 + par.length + 1 := by omega
    rw [hmin, sizeSub_of_le (by omega)]
    have e : s = (sch ++ ':' :: '/' :: '/' :: (loc ++ '/' :: (p' ++ ';' :: (par ++ ['?'])))) ++
        (q ++ '#' :: f) := by
      rw [← hs]; simp
    have := substr_append_right (sch ++ ':' :: '/' :: '/' :: (loc ++ '/' :: (p' ++ ';' :: (par ++ ['?']))))
      (q ++ '#' :: f) 0 q.length
    rw [← e] at this
    simp only [List.length_append, List.length_cons, List.length_nil, Nat.add_zero] at this
    rw [show sch.length + 3 + loc.length + (p'.length + 1) + 1 + par.length + 1 =
        sch.length + (loc.length + (p'.length + (par.length + (0 + 1) + 1) + 1) + 1 + 1 + 1) by omega,
      show sch.length + (loc.length + (p'.length + (par.length + (0 + 1) + 1) + 1) + 1 + 1 + 1) + q.length -
        (sch.length + (loc.length + (p'.length + (par.length + (0 + 1) + 1) + 1) + 1 + 1 + 1)) = q.length
        by omega, this]
    exact substr_zero_append _ _
  · -- fragment
    unfold Url.fragment plainUrl fragmentOf
    simp only []
    rw [hpound]
    have hl : s.length = sch.length + 3 + loc.length + (p'.length + 1) + 1 + par.length + 1 + q.length
        + 1 + f.length := by omega
    have hmin : min (sch.length + 3 + loc.length + (p'.length + 1) + 1 + par.length + 1 + q.length + 1)
        s.length = sch.length + 3 + loc.length + (p'.length + 1) + 1 + par.length + 1 + q.length + 1 := by
      omega
    rw [hmin, sizeSub_of_le (by omega)]
    have e : s = (sch ++ ':' :: '/' :: '/' :: (loc ++ '/' :: (p' ++ ';' :: (par ++ '?' :: (q ++ ['#']))))) ++ f := by
      rw [← hs]; simp
    have h1 := substr_append_right (sch ++ ':' :: '/' :: '/' :: (loc ++ '/' :: (p' ++ ';' :: (par ++ '?' :: (q ++ ['#'])))))
      f 0 f.length
    rw [← e] at h1
    simp only [List.length_append, List.length_cons, List.length_nil, Nat.add_zero] at h1
    have h2 : substr f 0 f.length = f := by simp [substr]
    rw [h2] at h1
    rw [← h1]
    congr 1 <;> omega

theorem ofString_url_components_witness :
    (("https".toList ≠ [] ∧ (∀ c ∈ "https".toList, isSchemeChar c = true) ∧
        "https".toList ≠ "data".toList) ∧
      ('/' ∉ "vector.mapzen.com".toList ∧ '#' ∉ "vector.mapzen.com".toList) ∧
      ("/osm/all/0/0/0.mvt".toList.head? = some '/' ∧ ';' ∉ "/osm/all/0/0/0.mvt".toList ∧
        '?' ∉ "/osm/all/0/0/0.mvt".toList ∧ '#' ∉ "/osm/all/0/0/0.mvt".toList) ∧
      ('?' ∉ "param=val".toList ∧ '#' ∉ "param=val".toList) ∧
      '#' ∉ "api_key=mapsRcool".toList) ∧
    (Url.ofString
        "https://vector.mapzen.com/osm/all/0/0/0.mvt;param=val?api_key=mapsRcool#yolo".toList).isAbsolute
      = true ∧
    (Url.ofString
        "https://vector.mapzen.com/osm/all/0/0/0.mvt;param=val?api_key=mapsRcool#yolo".toList).scheme
      = "https".toList ∧
    (Url.ofString
        "https://vector.mapzen.com/osm/all/0/0/0.mvt;param=val?api_key=mapsRcool#yolo".toList).netLocation
      = "vector.mapzen.com".toList ∧
    (Url.ofString
        "https://vector.mapzen.com/osm/all/0/0/0.mvt;param=val?api_key=mapsRcool#yolo".toList).path
      = "/osm/all/0/0/0.mvt".toList ∧
    (Url.ofString
        "https://vector.mapzen.com/osm/all/0/0/0.mvt;param=val?api_key=mapsRcool#yolo".toList).parameters
      = "param=val".toList ∧
    (Url.ofString
        "https://vector.mapzen.com/osm/all/0/0/0.mvt;param=val?api_key=mapsRcool#yolo".toList).query
      = "api_key=mapsRcool".toList ∧
    (Url.ofString
        "https://vector.mapzen.com/osm/all/0/0/0.mvt;param=val?api_key=mapsRcool#yolo".toList).fragment
      = "yolo".toList ∧
    (Url.ofString
        "https://vector.mapzen.com/osm/all/0/0/0.mvt;param=val?api_key=mapsRcool#yolo".toList).hasMediaType
      = false ∧
    (Url.ofString
        "https://vector.mapzen.com/osm/all/0/0/0.mvt;param=val?api_key=mapsRcool#yolo".toList).hasData
      = false :=
  ⟨by decide,
    ofString_url_components "https".toList "vector.mapzen.com".toList "/osm/all/0/0/0.mvt".toList
      "param=val".toList "api_key=mapsRcool".toList "yolo".toList (by decide) (by decide)
      (by decide) (by decide) (by decide)⟩

/-- Claim C2: a data URI assembled from a media type, an optional `;base64`
marker, a comma and a payload is parsed into the scheme `data`, that media type
and that payload, and `hasBase64Data` tells whether the marker is there. -/
theorem ofString_data_uri_components (m d : List Char) (b : Bool)
    (hm : ',' ∉ m ∧ '#' ∉ m ∧ ¬ ";base64".toList <:+: m) (hd : '#' ∉ d) :
    (Url.ofString ("data:".toList ++ m ++ (if b then ";base64".toList else []) ++ ",".toList ++ d)).hasDataScheme = true ∧
    (Url.ofString ("data:".toList ++ m ++ (if b then ";base64".toList else []) ++ ",".toList ++ d)).scheme = "data".toList ∧
    (Url.ofString ("data:".toList ++ m ++ (if b then ";base64".toList else []) ++ ",".toList ++ d)).mediaType = m ∧
    (Url.ofString ("data:".toList ++ m ++ (if b then ";base64".toList else []) ++ ",".toList ++ d)).data = d ∧
    (Url.ofString ("data:".toList ++ m ++ (if b then ";base64".toList else []) ++ ",".toList ++ d)).hasBase64Data = b := by
  obtain ⟨hm1, hm2, hm3⟩ := hm
  generalize hB : (if b then ";base64".toList else []) = B
  have hBc : ',' ∉ B := by rw [← hB]; cases b <;> decide
  have hBh : '#' ∉ B := by rw [← hB]; cases b <;> decide
  generalize hs : "data:".toList ++ m ++ B ++ ",".toList ++ d = s
  generalize hr : m ++ (B ++ ',' :: d) = r
  have hS : s = "data:".toList ++ r := by rw [← hs, ← hr]; simp
  have hrlen : r.length = m.length + B.length + 1 + d.length := by rw [← hr]; simp; omega
  have hlen : s.length = 5 + r.length := by rw [hS]; simp; omega
  have hpound : poundOf s = s.length := by
    apply poundOf_of_not_mem
    rw [← hs]
    simp [hm2, hBh, hd]
  have hat : charAt s 4 = ':' := by rw [hS]; rfl
  have hstop : schemeStop s = 4 := by
    unfold schemeStop
    rw [hpound]
    apply scanScheme_eq
    · exact Nat.zero_le _
    · omega
    · omega
    · intro j _ hj
      rw [hS]
      have : j = 0 ∨ j = 1 ∨ j = 2 ∨ j = 3 := by omega
      rcases this with h | h | h | h <;> rw [h] <;> rfl
    · right; rw [hat]; rfl
  have hcolon : hasColon s := by unfold hasColon; rw [hstop]; exact hat
  have hscheme : schemeOf s = { start := 0, count := 4 } := by
    unfold schemeOf
    rw [if_pos hcolon, hstop, sizeSub_zero]
  have htext : schemeText s = "data".toList := by
    unfold schemeText
    rw [hscheme, hS]
    rfl
  have hafter : afterScheme s = 5 := by
    unfold afterScheme
    rw [if_pos hcolon, hstop]
  have hcomma : commaOf s = 5 + m.length + B.length := by
    unfold commaOf
    rw [hafter, hpound]
    have h1 : findChar s ',' 5 = some (m.length + B.length + 5) := by
      have := findChar_append_right "data:".toList r ',' 0
      rw [← hS] at this
      have e : r = (m ++ B) ++ ',' :: d := by rw [← hr]; simp
      have hn : ',' ∉ m ++ B := by simp [hm1, hBc]
      rw [show (5 : Nat) = "data:".toList.length + 0 from rfl, this, e, findChar_zero_append_cons _ _ _ hn]
      simp
    rw [h1, minNpos_some]
    omega
  -- the base 64 indicator: found right after `m`, or not before the comma
  have hbase : (b = true → base64Of s = 5 + m.length) ∧ (b = false → commaOf s ≤ base64Of s) := by
    have hfs : findStr s ";base64".toList 5 = (findSub ";base64".toList r).map (· + 5) := by
      have := findStr_append_right "data:".toList r ";base64".toList 0 (Nat.zero_le _)
      rw [← hS] at this
      exact this
    unfold base64Of
    rw [hafter, hpound, hfs]
    refine ⟨?_, ?_⟩
    · intro hb
      subst hb
      simp only [if_true] at hB
      have hsome : findSub ";base64".toList r = some m.length := by
        apply findSub_eq_some
        · omega
        · rw [← hr, List.drop_left, ← hB]
          rfl
        · intro j hj
          rw [← hr, ← hB]
          exact isPrefixOf_drop_append_cons _ m _ ';' hm3 (by decide) j hj
      rw [hsome]
      simp only [Option.map_some', minNpos_some]
      omega
    · intro hb
      subst hb
      simp only [Bool.false_eq_true, if_false] at hB
      rw [hcomma]
      have hspec := findSub_spec ";base64".toList r
      cases hf : findSub ";base64".toList r with
      | none =>
        simp only [Option.map_none', minNpos]
        omega
      | some i =>
        rw [hf] at hspec
        simp only [Option.map_some', minNpos_some]
        have hi : m.length ≤ i := by
          by_contra hlt
          have := isPrefixOf_drop_append_cons ";base64".toList m d ',' hm3 (by decide) i (by omega)
          rw [← hr, ← hB] at hspec
          simp only [List.nil_append] at hspec
          rw [this] at hspec
          exact absurd hspec.2.1 (by decide)
        rw [← hB]
        simp only [List.length_nil]
        omega
  have hd' : schemeText s = "data".toList := htext
  rw [ofString_eq, if_pos hd']
  refine ⟨?_, htext, ?_, ?_, ?_⟩
  · have := (ofString_hasDataScheme s).mpr htext
    rw [ofString_eq, if_pos hd'] at this
    exact this
  · -- mediaType
    unfold Url.mediaType dataUrl
    simp only []
    have hmin : min (base64Of s) (commaOf s) = 5 + m.length := by
      cases b with
      | true =>
        rw [hbase.1 rfl, hcomma]; omega
      | false =>
        have := hbase.2 rfl
        rw [← hB] at hcomma
        simp only [Bool.false_eq_true, if_false, List.length_nil] at hcomma
        omega
    rw [hmin, hafter, sizeSub_of_le (by omega)]
    have := substr_append_right "data:".toList r 0 m.length
    rw [← hS] at this
    rw [show (5 : Nat) = "data:".toList.length + 0 from rfl,
      show "data:".toList.length + 0 + m.length - ("data:".toList.length + 0) = m.length by omega, this, ← hr]
    exact substr_zero_append _ _
  · -- data
    unfold Url.data dataUrl
    simp only []
    rw [hcomma, hpound]
    have hmin : min (5 + m.length + B.length + 1) s.length = 5 + m.length + B.length + 1 := by omega
    rw [hmin, sizeSub_of_le (by omega)]
    have e : s = ("data:".toList ++ m ++ B ++ [',']) ++ d := by rw [← hs]; simp
    have h1 := substr_append_right ("data:".toList ++ m ++ B ++ [',']) d 0 d.length
    rw [← e] at h1
    simp only [List.length_append, List.length_cons, List.length_nil, Nat.add_zero] at h1
    have h2 : substr d 0 d.length = d := by simp [substr]
    rw [h2] at h1
    rw [← h1]
    congr 1
    omega
  · -- hasBase64Data
    unfold Url.hasBase64Data dataUrl schemeFlags
    simp only []
    rw [if_pos hcolon]
    cases b with
    | true =>
      have h1 := hbase.1 rfl
      rw [← hB] at hcomma
      simp only [if_true] at hcomma
      rw [if_pos (by rw [h1, hcomma]; simp)]
      decide
    | false =>
      have h1 := hbase.2 rfl
      rw [if_neg (by omega)]
      decide

theorem ofString_data_uri_components_witness :
    ((',' ∉ "text/html;charset=utf-8".toList ∧ '#' ∉ "text/html;charset=utf-8".toList ∧
        ¬ ";base64".toList <:+: "text/html;charset=utf-8".toList) ∧
      '#' ∉ "YmFzZTY0".toList) ∧
    (Url.ofString "data:text/html;charset=utf-8;base64,YmFzZTY0".toList).hasDataScheme = true ∧
    (Url.ofString "data:text/html;charset=utf-8;base64,YmFzZTY0".toList).scheme = "data".toList ∧
    (Url.ofString "data:text/html;charset=utf-8;base64,YmFzZTY0".toList).mediaType
      = "text/html;charset=utf-8".toList ∧
    (Url.ofString "data:text/html;charset=utf-8;base64,YmFzZTY0".toList).data = "YmFzZTY0".toList ∧
    (Url.ofString "data:text/html;charset=utf-8;base64,YmFzZTY0".toList).hasBase64Data = true :=
  ⟨by decide,
    ofString_data_uri_components "text/html;charset=utf-8".toList "YmFzZTY0".toList true
      (by decide) (by decide)⟩

/-- Claim C3: for a string `s` without `#`, parsing `s ++ "#" ++ f` and parsing
`s` give the same flags and the same scheme, network location, path,
parameters, query, media type and data; the fragment is empty for `s` and is
`f` for `s ++ "#" ++ f`. -/
theorem ofString_fragment_only (s f : List Char) (h : '#' ∉ s) :
    (Url.ofString (s ++ "#".toList ++ f)).isAbsolute = (Url.ofString s).isAbsolute ∧
    (Url.ofString (s ++ "#".toList ++ f)).hasHttpScheme = (Url.ofString s).hasHttpScheme ∧
    (Url.ofString (s ++ "#".toList ++ f)).hasFileScheme = (Url.ofString s).hasFileScheme ∧
    (Url.ofString (s ++ "#".toList ++ f)).hasDataScheme = (Url.ofString s).hasDataScheme ∧
    (Url.ofString (s ++ "#".toList ++ f)).hasBase64Data = (Url.ofString s).hasBase64Data ∧
    (Url.ofString (s ++ "#".toList ++ f)).scheme = (Url.ofString s).scheme ∧
    (Url.ofString (s ++ "#".toList ++ f)).netLocation = (Url.ofString s).netLocation ∧
    (Url.ofString (s ++ "#".toList ++ f)).path = (Url.ofString s).path ∧
    (Url.ofString (s ++ "#".toList ++ f)).parameters = (Url.ofString s).parameters ∧
    (Url.ofString (s ++ "#".toList ++ f)).query = (Url.ofString s).query ∧
    (Url.ofString (s ++ "#".toList ++ f)).mediaType = (Url.ofString s).mediaType ∧
    (Url.ofString (s ++ "#".toList ++ f)).data = (Url.ofString s).data ∧
    (Url.ofString s).fragment = [] ∧
    (Url.ofString (s ++ "#".toList ++ f)).fragment = f := by
  have e : s ++ "#".toList ++ f = s ++ '#' :: f := by simp
  rw [e, ofString_append_pound s f h]
  obtain ⟨h1, h2, h3, h4, h5, _, h7, h8⟩ := ofString_within s
  have hm := ofString_m_string s
  refine ⟨rfl, rfl, rfl, rfl, rfl, ?_, ?_, ?_, ?_, ?_, ?_, ?_, ?_, ?_⟩
  · unfold Url.scheme; rw [hm]; exact substr_append_left _ _ _ _ h1
  · unfold Url.netLocation; rw [hm]; exact substr_append_left _ _ _ _ h2
  · unfold Url.path; rw [hm]; exact substr_append_left _ _ _ _ h3
  · unfold Url.parameters; rw [hm]; exact substr_append_left _ _ _ _ h4
  · unfold Url.query; rw [hm]; exact substr_append_left _ _ _ _ h5
  · unfold Url.mediaType; rw [hm]; exact substr_append_left _ _ _ _ h7
  · unfold Url.data; rw [hm]; exact substr_append_left _ _ _ _ h8
  · unfold Url.fragment
    have : (Url.ofString s).m_parts.fragment = { start := s.length, count := 0 } := by
      rw [ofString_eq]
      split
      · exact fragmentOf_of_not_mem s h
      · exact fragmentOf_of_not_mem s h
    rw [this]
    simp [substr]
  · unfold Url.fragment
    simp only []
    have := substr_append_right (s ++ ['#']) f 0 f.length
    simp only [List.length_append, List.length_cons, List.length_nil, Nat.add_zero,
      List.append_assoc, List.singleton_append] at this
    rw [this]
    simp [substr]

theorem ofString_fragment_only_witness :
    '#' ∉ "http://a/b;p?q".toList ∧
    (Url.ofString "http://a/b;p?q#x#y?z".toList).isAbsolute = (Url.ofString "http://a/b;p?q".toList).isAbsolute ∧
    (Url.ofString "http://a/b;p?q#x#y?z".toList).hasHttpScheme = (Url.ofString "http://a/b;p?q".toList).hasHttpScheme ∧
    (Url.ofString "http://a/b;p?q#x#y?z".toList).hasFileScheme = (Url.ofString "http://a/b;p?q".toList).hasFileScheme ∧
    (Url.ofString "http://a/b;p?q#x#y?z".toList).hasDataScheme = (Url.ofString "http://a/b;p?q".toList).hasDataScheme ∧
    (Url.ofString "http://a/b;p?q#x#y?z".toList).hasBase64Data = (Url.ofString "http://a/b;p?q".toList).hasBase64Data ∧
    (Url.ofString "http://a/b;p?q#x#y?z".toList).scheme = (Url.ofString "http://a/b;p?q".toList).scheme ∧
    (Url.ofString "http://a/b;p?q#x#y?z".toList).netLocation = (Url.ofString "http://a/b;p?q".toList).netLocation ∧
    (Url.ofString "http://a/b;p?q#x#y?z".toList).path = (Url.ofString "http://a/b;p?q".toList).path ∧
    (Url.ofString "http://a/b;p?q#x#y?z".toList).parameters = (Url.ofString "http://a/b;p?q".toList).parameters ∧
    (Url.ofString "http://a/b;p?q#x#y?z".toList).query = (Url.ofString "http://a/b;p?q".toList).query ∧
    (Url.ofString "http://a/b;p?q#x#y?z".toList).mediaType = (Url.ofString "http://a/b;p?q".toList).mediaType ∧
    (Url.ofString "http://a/b;p?q#x#y?z".toList).data = (Url.ofString "http://a/b;p?q".toList).data ∧
    (Url.ofString "http://a/b;p?q".toList).fragment = [] ∧
    (Url.ofString "http://a/b;p?q#x#y?z".toList).fragment = "x#y?z".toList :=
  ⟨by decide, ofString_fragment_only "http://a/b;p?q".toList "x#y?z".toList (by decide)⟩

/-- Claim C4: a URL that has the data scheme has no network location, path,
parameters or query. -/
theorem data_scheme_has_no_hierarchical_parts (s : List Char) (h : (Url.ofString s).hasDataScheme = true) :
    (Url.ofString s).hasNetLocation = false ∧ (Url.ofString s).hasPath = false ∧
    (Url.ofString s).hasParameters = false ∧ (Url.ofString s).hasQuery = false := by
  rw [ofString_hasDataScheme] at h
  rw [ofString_eq, if_pos h]
  exact ⟨rfl, rfl, rfl, rfl⟩

theorem data_scheme_has_no_hierarchical_parts_witness :
    (Url.ofString "data:text/html;charset=utf-8,a/b;c?d".toList).hasDataScheme = true ∧
    (Url.ofString "data:text/html;charset=utf-8,a/b;c?d".toList).hasNetLocation = false ∧
    (Url.ofString "data:text/html;charset=utf-8,a/b;c?d".toList).hasPath = false ∧
    (Url.ofString "data:text/html;charset=utf-8,a/b;c?d".toList).hasParameters = false ∧
    (Url.ofString "data:text/html;charset=utf-8,a/b;c?d".toList).hasQuery = false :=
  ⟨by decide,
    data_scheme_has_no_hierarchical_parts "data:text/html;charset=utf-8,a/b;c?d".toList (by decide)⟩

/-- Claim C5: the data, http and file flags are set exactly when the scheme is
`data`, is `http` or `https`, and is `file`; no two of them are set together. -/
theorem scheme_flags_iff (s : List Char) :
    ((Url.ofString s).hasDataScheme = true ↔ (Url.ofString s).scheme = "data".toList) ∧
    ((Url.ofString s).hasHttpScheme = true ↔
      ((Url.ofString s).scheme = "http".toList ∨ (Url.ofString s).scheme = "https".toList)) ∧
    ((Url.ofString s).hasFileScheme = true ↔ (Url.ofString s).scheme = "file".toList) ∧
    ¬ ((Url.ofString s).hasDataScheme = true ∧ (Url.ofString s).hasHttpScheme = true) ∧
    ¬ ((Url.ofString s).hasDataScheme = true ∧ (Url.ofString s).hasFileScheme = true) ∧
    ¬ ((Url.ofString s).hasHttpScheme = true ∧ (Url.ofString s).hasFileScheme = true) := by
  rw [ofString_hasDataScheme, ofString_hasHttpScheme, ofString_hasFileScheme, ofString_scheme]
  refine ⟨Iff.rfl, Iff.rfl, Iff.rfl, ?_, ?_, ?_⟩
  · rintro ⟨h1, h2 | h2⟩ <;> rw [h1] at h2 <;> exact absurd h2 (by decide)
  · rintro ⟨h1, h2⟩
    rw [h1] at h2
    exact absurd h2 (by decide)
  · rintro ⟨h1 | h1, h2⟩ <;> rw [h1] at h2 <;> exact absurd h2 (by decide)

/-- The URL `http://a/b?` has no `#`, is not a data URI, and its path `/b` is
followed by a `?` with nothing after it; `hasQuery` is false for it. -/
theorem empty_query_counterexample :
    '#' ∉ "http://a/b?".toList ∧ (Url.ofString "http://a/b?".toList).hasDataScheme = false ∧
      (Url.ofString "http://a/b?".toList).path = "/b".toList ∧
      ¬ ((Url.ofString "http://a/b?".toList).hasQuery = true ∧
          (Url.ofString "http://a/b?".toList).query = []) := by
  decide

/-- Claim C6, amended: when the only `?` of a source string without `#` is its
last character, `hasQuery` is false and the query is empty. An empty query is
not told apart from a missing one. -/
theorem empty_query_not_reported (t : List Char) (h1 : '#' ∉ t) (h2 : '?' ∉ t) :
    (Url.ofString (t ++ "?".toList)).hasQuery = false ∧
      (Url.ofString (t ++ "?".toList)).query = [] := by
  have e : t ++ "?".toList = t ++ ['?'] := rfl
  rw [e]
  generalize hs : t ++ ['?'] = s
  have hlen : s.length = t.length + 1 := by rw [← hs]; simp
  have hpound : poundOf s = t.length + 1 := by
    rw [poundOf_of_not_mem s (by rw [← hs]; simp [h1]), hlen]
  have hq : t.length ≤ qmarkOf s := by
    unfold qmarkOf
    rw [hpound]
    have hspec := findChar_spec s '?' (pathStartOf s)
    cases hf : findChar s '?' (pathStartOf s) with
    | none => simp only [minNpos]; omega
    | some i =>
      rw [hf] at hspec
      rw [minNpos_some]
      have : t.length ≤ i := by
        by_contra hlt
        have hlt : i < t.length := by omega
        have h3 := hspec.2.2.1
        rw [← hs, charAt_append_left _ _ _ hlt] at h3
        exact charAt_ne_of_not_mem h2 i hlt h3
      omega
  have hcount : (Url.ofString s).m_parts.query.count = 0 := by
    rw [ofString_eq]
    split
    · rfl
    · unfold plainUrl
      simp only []
      rw [hpound, Nat.min_eq_right (by omega), sizeSub_self]
  refine ⟨?_, ?_⟩
  · unfold Url.hasQuery
    rw [hcount]
    rfl
  · unfold Url.query
    rw [hcount]
    simp [substr]

theorem empty_query_not_reported_witness :
    ('#' ∉ "http://a/b".toList ∧ '?' ∉ "http://a/b".toList) ∧
      ((Url.ofString ("http://a/b".toList ++ "?".toList)).hasQuery = false ∧
        (Url.ofString ("http://a/b".toList ++ "?".toList)).query = []) :=
  ⟨by decide, empty_query_not_reported "http://a/b".toList (by decide) (by decide)⟩

/-! ## Ranges of a buffer -/

theorem window_of_le (buf : List Char) (b e : Nat) (h : e ≤ b) : window buf b e = [] := by
  unfold window
  rw [Nat.sub_eq_zero_of_le h, List.take_zero]

theorem window_cons (buf : List Char) (b e : Nat) (h1 : b < e) (h2 : e ≤ buf.length) :
    window buf b e = charAt buf b :: window buf (b + 1) e := by
  unfold window charAt
  have hb : b < buf.length := by omega
  rw [List.drop_eq_getElem_cons hb, List.getD_eq_getElem _ _ hb,
    show e - b = (e - (b + 1)) + 1 by omega, List.take_succ_cons]

theorem length_window (buf : List Char) (b e : Nat) (h2 : e ≤ buf.length) :
    (window buf b e).length = e - b := by
  unfold window
  rw [List.length_take, List.length_drop]
  omega

theorem window_append (buf : List Char) (b m e : Nat) (h1 : b ≤ m) (h2 : m ≤ e) :
    window buf b e = window buf b m ++ window buf m e := by
  unfold window
  rw [show e - b = (m - b) + (e - m) by omega, List.take_add, List.drop_drop,
    show b + (m - b) = m by omega]

theorem window_snoc (buf : List Char) (b e : Nat) (h1 : b ≤ e) (h2 : e < buf.length) :
    window buf b (e + 1) = window buf b e ++ [charAt buf e] := by
  rw [window_append buf b e (e + 1) h1 (Nat.le_succ e), window_cons buf e (e + 1) (Nat.lt_succ_self e) h2,
    window_of_le buf (e + 1) (e + 1) (Nat.le_refl _)]

theorem window_drop (buf : List Char) (b e k : Nat) :
    window buf (b + k) e = (window buf b e).drop k := by
  unfold window
  rw [List.drop_take, List.drop_drop, Nat.sub_add_eq]

theorem window_zero_length (buf : List Char) : window buf 0 buf.length = buf := by
  unfold window
  simp

theorem window_eq_substr (buf : List Char) (b n : Nat) : window buf b (b + n) = substr buf b n := by
  unfold window substr
  rw [Nat.add_sub_cancel_left]

theorem charAt_set_ne (buf : List Char) (i j : Nat) (c : Char) (h : i ≠ j) :
    charAt (buf.set i c) j = charAt buf j := by
  unfold charAt
  rw [List.getD_eq_getElem?_getD, List.getD_eq_getElem?_getD, List.getElem?_set_ne h]

theorem charAt_set_self (buf : List Char) (i : Nat) (c : Char) (h : i < buf.length) :
    charAt (buf.set i c) i = c := by
  unfold charAt
  rw [List.getD_eq_getElem?_getD, List.getElem?_set_self h]
  rfl

theorem window_set_lt (buf : List Char) (b e i : Nat) (c : Char) (h : i < b) :
    window (buf.set i c) b e = window buf b e := by
  unfold window
  rw [List.drop_set_of_lt c buf h]

theorem window_set_ge (buf : List Char) (b e i : Nat) (c : Char) (h : e ≤ i) :
    window (buf.set i c) b e = window buf b e := by
  unfold window
  by_cases hb : b ≤ e
  · rw [List.take_drop, List.take_drop, show b + (e - b) = e by omega]
    congr 1
    rcases Nat.eq_or_lt_of_le h with heq | hlt
    · subst heq
      rw [List.set_eq_take_append_cons_drop]
      split
      · rw [List.take_append_of_le_length (by rw [List.length_take]; omega), List.take_take,
          Nat.min_self]
      · rfl
    · exact List.take_set_of_lt c buf hlt
  · rw [Nat.sub_eq_zero_of_le (by omega), List.take_zero, List.take_zero]

theorem take_set_ge (buf : List Char) (b i : Nat) (c : Char) (h : b ≤ i) :
    (buf.set i c).take b = buf.take b := by
  have := window_set_ge buf 0 b i c h
  unfold window at this
  simpa using this

theorem drop_set_lt (buf : List Char) (e i : Nat) (c : Char) (h : i < e) :
    (buf.set i c).drop e = buf.drop e := List.drop_set_of_lt c buf h

/-- Writing at the end of the output extends it by the character written. -/
theorem window_set_snoc (buf : List Char) (b out : Nat) (c : Char) (h1 : b ≤ out)
    (h2 : out < buf.length) :
    window (buf.set out c) b (out + 1) = window buf b out ++ [c] := by
  rw [window_snoc _ b out h1 (by rw [List.length_set]; exact h2),
    window_set_ge buf b out out c (Nat.le_refl _), charAt_set_self buf out c h2]

/-! ### The range helpers -/

theorem rangeStartsWith_eq (buf : List Char) (e : Nat) (he : e ≤ buf.length) :
    ∀ (pat : List Char) (b : Nat), rangeStartsWith buf b e pat = pat.isPrefixOf (window buf b e) := by
  intro pat
  induction pat with
  | nil => intro b; simp [rangeStartsWith]
  | cons p ps ih =>
    intro b
    simp only [rangeStartsWith]
    by_cases hb : b < e
    · rw [window_cons buf b e hb he, List.isPrefixOf, ih (b + 1)]
      by_cases hc : charAt buf b = p
      · simp [hb, hc]
      · have : (p == charAt buf b) = false := by
          simp only [beq_eq_false_iff_ne, ne_eq]
          exact fun h => hc h.symm
        simp [hc, this]
    · rw [window_of_le buf b e (by omega), if_neg (fun h => hb h.1)]
      rfl

theorem rangeEquals_eq (buf : List Char) (e : Nat) (he : e ≤ buf.length) :
    ∀ (pat : List Char) (b : Nat), b ≤ e →
      rangeEquals buf b e pat = decide (window buf b e = pat) := by
  intro pat
  induction pat with
  | nil =>
    intro b hb
    simp only [rangeEquals]
    by_cases h : b = e
    · subst h
      simp [window_of_le]
    · have hlt : b < e := by omega
      rw [window_cons buf b e hlt he]
      simp [h]
  | cons p ps ih =>
    intro b hb
    simp only [rangeEquals]
    by_cases hlt : b < e
    · rw [window_cons buf b e hlt he, ih (b + 1) hlt]
      by_cases hc : charAt buf b = p
      · simp [hlt, hc]
      · simp [hc]
    · rw [window_of_le buf b e (by omega), if_neg (fun h => hlt h.1)]
      simp

theorem rangeIsAllLoop_spec (buf : List Char) (e : Nat) (he : e ≤ buf.length) (v : Char) :
    ∀ fuel b, b ≤ e → e - b ≤ fuel →
      (rangeIsAllLoop buf e v fuel b = e ↔ (window buf b e).all (· == v) = true) := by
  intro fuel
  induction fuel with
  | zero =>
    intro b h1 h2
    have : b = e := by omega
    subst this
    simp [rangeIsAllLoop, window_of_le]
  | succ fuel ih =>
    intro b h1 h2
    simp only [rangeIsAllLoop]
    by_cases hlt : b < e
    · rw [window_cons buf b e hlt he]
      by_cases hc : charAt buf b = v
      · rw [if_pos ⟨hlt, hc⟩, ih (b + 1) hlt (by omega)]
        simp [hc]
      · rw [if_neg (fun h => hc h.2)]
        simp only [List.all_cons, Bool.and_eq_true, beq_iff_eq]
        constructor
        · intro h; omega
        · intro h; exact absurd h.1 hc
    · have : b = e := by omega
      subst this
      rw [if_neg (fun h => hlt h.1)]
      simp [window_of_le]

theorem rangeIsAll_eq (buf : List Char) (b e : Nat) (he : e ≤ buf.length) (hb : b ≤ e) (v : Char) :
    rangeIsAll buf b e v = (window buf b e).all (· == v) := by
  unfold rangeIsAll
  have := rangeIsAllLoop_spec buf e he v (e - b) b hb (Nat.le_refl _)
  by_cases h : rangeIsAllLoop buf e v (e - b) b = e
  · rw [(this.mp h)]
    simp [h]
  · have h2 : ¬ (window buf b e).all (· == v) = true := fun h' => h (this.mpr h')
    rw [Bool.not_eq_true] at h2
    rw [h2]
    simp [h]

/-! ### Removing the last segment -/

theorem cutLast_cons_of_not_mem (c : Char) (cs : List Char) (h : '/' ∉ cs) :
    cutLast (c :: cs) = [] := by
  simp [cutLast, h]

theorem cutLast_append_slash (x y : List Char) (hx : x ≠ []) (hy : '/' ∉ y) :
    cutLast (x ++ '/' :: y) = x := by
  induction x with
  | nil => exact absurd rfl hx
  | cons c x ih =>
    by_cases hx' : x = []
    · subst hx'
      simp [cutLast, hy]
    · rw [List.cons_append, cutLast, if_pos (by simp), ih hx']

/-- The result of `cutLast` is empty or is what stands before a `/`. -/
theorem cutLast_spec (l : List Char) : cutLast l = [] ∨ ∃ y, l = cutLast l ++ '/' :: y := by
  induction l with
  | nil => left; rfl
  | cons c cs ih =>
    by_cases h : '/' ∈ cs
    · right
      rw [cutLast, if_pos h]
      rcases ih with h0 | ⟨y, hy⟩
      · -- the `/` of `cs` is its first character
        cases cs with
        | nil => simp at h
        | cons d ds =>
          rw [cutLast] at h0
          by_cases h' : '/' ∈ ds
          · rw [if_pos h'] at h0; exact absurd h0 (by simp)
          · have hd : d = '/' := by
              rcases List.mem_cons.mp h with h1 | h1
              · exact h1.symm
              · exact absurd h1 h'
            subst hd
            exact ⟨ds, by rw [cutLast, if_neg h']; rfl⟩
      · exact ⟨y, by rw [List.cons_append, ← hy]⟩
    · left
      exact cutLast_cons_of_not_mem c cs h

theorem removeLastSegmentLoop_spec (buf : List Char) (b e : Nat) (he : e ≤ buf.length) :
    ∀ fuel pos, b ≤ pos → pos < e → pos - b ≤ fuel → '/' ∉ window buf (pos + 1) e →
      b ≤ removeLastSegmentLoop buf b fuel pos ∧ removeLastSegmentLoop buf b fuel pos ≤ pos ∧
      window buf b (removeLastSegmentLoop buf b fuel pos) = cutLast (window buf b e) := by
  have hstop : ∀ pos, b ≤ pos → pos < e → '/' ∉ window buf (pos + 1) e →
      (pos = b ∨ charAt buf pos = '/') → window buf b pos = cutLast (window buf b e) := by
    intro pos h1 h2 h3 h4
    by_cases hpb : pos = b
    · subst hpb
      rw [window_of_le buf pos pos (Nat.le_refl _), window_cons buf pos e h2 he,
        cutLast_cons_of_not_mem _ _ h3]
    · have hc : charAt buf pos = '/' := by
        rcases h4 with h4 | h4
        · exact absurd h4 hpb
        · exact h4
      rw [window_append buf b pos e h1 (Nat.le_of_lt h2), window_cons buf pos e h2 he, hc,
        cutLast_append_slash _ _ _ h3]
      intro hnil
      have := congrArg List.length hnil
      rw [length_window buf b pos (by omega)] at this
      simp at this
      omega
  intro fuel
  induction fuel with
  | zero =>
    intro pos h1 h2 h3 h4
    simp only [removeLastSegmentLoop]
    exact ⟨h1, Nat.le_refl _, hstop pos h1 h2 h4 (Or.inl (by omega))⟩
  | succ fuel ih =>
    intro pos h1 h2 h3 h4
    simp only [removeLastSegmentLoop]
    by_cases hc : pos > b ∧ charAt buf pos ≠ '/'
    · rw [if_pos hc]
      have h5 : '/' ∉ window buf (pos - 1 + 1) e := by
        rw [show pos - 1 + 1 = pos by omega, window_cons buf pos e h2 he]
        simp only [List.mem_cons, not_or]
        exact ⟨fun h => hc.2 h.symm, h4⟩
      obtain ⟨k1, k2, k3⟩ := ih (pos - 1) (by omega) (by omega) (by omega) h5
      exact ⟨k1, by omega, k3⟩
    · rw [if_neg hc]
      refine ⟨h1, Nat.le_refl _, hstop pos h1 h2 h4 ?_⟩
      by_cases hpb : pos = b
      · exact Or.inl hpb
      · right
        by_contra hne
        exact hc ⟨by omega, hne⟩

theorem removeLastSegmentFromRange_spec (buf : List Char) (b e : Nat) (hb : b ≤ e)
    (he : e ≤ buf.length) :
    b ≤ removeLastSegmentFromRange buf b e ∧ removeLastSegmentFromRange buf b e ≤ e ∧
      window buf b (removeLastSegmentFromRange buf b e) = cutLast (window buf b e) := by
  unfold removeLastSegmentFromRange
  by_cases h : b ≥ e
  · rw [if_pos h]
    have : b = e := by omega
    subst this
    rw [window_of_le buf b b (Nat.le_refl _)]
    exact ⟨Nat.le_refl _, Nat.le_refl _, rfl⟩
  · rw [if_neg h]
    have h4 : '/' ∉ window buf (e - 1 + 1) e := by
      rw [window_of_le buf _ e (by omega)]
      simp
    obtain ⟨k1, k2, k3⟩ :=
      removeLastSegmentLoop_spec buf b e he (e - 1 - b) (e - 1) (by omega) (by omega)
        (Nat.le_refl _) h4
    exact ⟨k1, by omega, k3⟩

/-! ### Copying a segment -/

theorem copyChar_sim (b e : Nat) (st : Cursors) (inp outp : List Char) (hs : Sim b e st inp outp)
    (hlt : st.pos < e) :
    Sim b e (copyChar st) (window st.buf (st.pos + 1) e) (outp ++ [charAt st.buf st.pos]) ∧
      Frame b e st.buf (copyChar st) := by
  have hout : st.out < st.buf.length := by have := hs.ho; have := hs.he; omega
  refine ⟨⟨?_, ?_, ?_, ?_, ?_, ?_⟩, ⟨?_, ?_, ?_⟩⟩
  · show b ≤ st.out + 1
    have := hs.hb; omega
  · show st.out + 1 ≤ st.pos + 1
    have := hs.ho; omega
  · show st.pos + 1 ≤ e
    omega
  · show e ≤ (st.buf.set st.out _).length
    rw [List.length_set]; exact hs.he
  · show window (st.buf.set st.out _) (st.pos + 1) e = _
    exact window_set_lt _ _ _ _ _ (by have := hs.ho; omega)
  · show window (st.buf.set st.out _) b (st.out + 1) = _
    rw [window_set_snoc _ _ _ _ hs.hb hout, hs.hout]
  · exact List.length_set _ _ _
  · exact take_set_ge _ _ _ _ hs.hb
  · exact drop_set_lt _ _ _ _ (by have := hs.ho; omega)

theorem Frame.trans {b e : Nat} {buf0 : List Char} {st1 st2 : Cursors} (h1 : Frame b e buf0 st1)
    (h2 : Frame b e st1.buf st2) : Frame b e buf0 st2 :=
  ⟨h2.hlen.trans h1.hlen, h2.htake.trans h1.htake, h2.hdrop.trans h1.hdrop⟩

theorem Frame.refl (b e : Nat) (st : Cursors) : Frame b e st.buf st := ⟨rfl, rfl, rfl⟩

theorem copySegmentLoop_spec (b e : Nat) :
    ∀ fuel (st : Cursors) (inp outp : List Char), Sim b e st inp outp → e - st.pos ≤ fuel →
      Sim b e (copySegmentLoop e fuel st) (inp.dropWhile (· != '/'))
        (outp ++ inp.takeWhile (· != '/')) ∧
      Frame b e st.buf (copySegmentLoop e fuel st) ∧
      st.pos ≤ (copySegmentLoop e fuel st).pos ∧
      (st.pos < e → charAt st.buf st.pos ≠ '/' → st.pos < (copySegmentLoop e fuel st).pos) := by
  intro fuel
  induction fuel with
  | zero =>
    intro st inp outp hs hf
    simp only [copySegmentLoop]
    have hpe : st.pos = e := by have := hs.hp; omega
    have hi : inp = [] := by rw [← hs.hinp, window_of_le _ _ _ (by omega)]
    subst hi
    refine ⟨?_, Frame.refl b e st, Nat.le_refl _, fun h => by omega⟩
    simpa using hs
  | succ fuel ih =>
    intro st inp outp hs hf
    simp only [copySegmentLoop]
    by_cases hc : st.pos < e ∧ charAt st.buf st.pos ≠ '/'
    · rw [if_pos hc]
      have hw := window_cons st.buf st.pos e hc.1 hs.he
      obtain ⟨hs1, hf1⟩ := copyChar_sim b e st inp outp hs hc.1
      obtain ⟨k1, k2, k3, _⟩ := ih (copyChar st) _ _ hs1 (by show e - (st.pos + 1) ≤ fuel; omega)
      have hne : (charAt st.buf st.pos != '/') = true := by
        simp only [bne_iff_ne, ne_eq]; exact hc.2
      have hd : inp.dropWhile (· != '/') = (window st.buf (st.pos + 1) e).dropWhile (· != '/') := by
        rw [← hs.hinp, hw, List.dropWhile_cons, if_pos hne]
      have ht : inp.takeWhile (· != '/') =
          charAt st.buf st.pos :: (window st.buf (st.pos + 1) e).takeWhile (· != '/') := by
        rw [← hs.hinp, hw, List.takeWhile_cons, if_pos hne]
      rw [hd, ht]
      have hp1 : (copyChar st).pos = st.pos + 1 := rfl
      refine ⟨?_, hf1.trans k2, by omega, fun _ _ => by omega⟩
      have e1 : outp ++ charAt st.buf st.pos :: (window st.buf (st.pos + 1) e).takeWhile (· != '/')
          = outp ++ [charAt st.buf st.pos] ++ (window st.buf (st.pos + 1) e).takeWhile (· != '/') := by
        simp
      rw [e1]
      exact k1
    · rw [if_neg hc]
      refine ⟨?_, Frame.refl b e st, Nat.le_refl _, fun h1 h2 => absurd ⟨h1, h2⟩ hc⟩
      by_cases hlt : st.pos < e
      · have hch : charAt st.buf st.pos = '/' := by
          by_contra hne
          exact hc ⟨hlt, hne⟩
        have hw := window_cons st.buf st.pos e hlt hs.he
        rw [hch, hs.hinp] at hw
        rw [hw]
        simp only [List.dropWhile_cons, List.takeWhile_cons, bne_self_eq_false, Bool.false_eq_true,
          if_false, List.append_nil]
        rw [← hw]
        exact hs
      · have hi : inp = [] := by rw [← hs.hinp, window_of_le _ _ _ (by omega)]
        subst hi
        simpa using hs

/-! ### One pass of the loop -/

theorem length_le_of_isPrefixOf {pat l : List Char} (h : pat.isPrefixOf l = true) :
    pat.length ≤ l.length :=
  (List.isPrefixOf_iff_prefix.mp h).length_le

theorem removeDotSegmentsStep_sim (b e : Nat) (st : Cursors) (inp outp : List Char)
    (hs : Sim b e st inp outp) (hlt : st.pos < e) :
    Sim b e (removeDotSegmentsStep b e st) (pureStep inp outp).1 (pureStep inp outp).2 ∧
      Frame b e st.buf (removeDotSegmentsStep b e st) ∧
      st.pos < (removeDotSegmentsStep b e st).pos := by
  obtain ⟨hb, ho, hp, he, hinp, hout⟩ := hs
  have hlen : inp.length = e - st.pos := by rw [← hinp, length_window _ _ _ he]
  have hskip : ∀ k, k ≤ inp.length → 0 < k →
      Sim b e { st with pos := st.pos + k } (inp.drop k) outp ∧
        Frame b e st.buf { st with pos := st.pos + k } ∧ st.pos < st.pos + k := by
    intro k hk hk0
    refine ⟨⟨hb, ?_, ?_, he, ?_, hout⟩, ⟨rfl, rfl, rfl⟩, by omega⟩
    · show st.out ≤ st.pos + k
      omega
    · show st.pos + k ≤ e
      omega
    · show window st.buf (st.pos + k) e = _
      rw [window_drop, hinp]
  have hcut : ∀ k, k ≤ inp.length → 0 < k →
      Sim b e { st with pos := st.pos + k, out := removeLastSegmentFromRange st.buf b st.out }
          (inp.drop k) (cutLast outp) ∧
        Frame b e st.buf
          { st with pos := st.pos + k, out := removeLastSegmentFromRange st.buf b st.out } ∧
        st.pos < st.pos + k := by
    intro k hk hk0
    obtain ⟨r1, r2, r3⟩ := removeLastSegmentFromRange_spec st.buf b st.out hb (by omega)
    refine ⟨⟨r1, ?_, ?_, he, ?_, ?_⟩, ⟨rfl, rfl, rfl⟩, by omega⟩
    · show removeLastSegmentFromRange st.buf b st.out ≤ st.pos + k
      omega
    · show st.pos + k ≤ e
      omega
    · show window st.buf (st.pos + k) e = _
      rw [window_drop, hinp]
    · show window st.buf b (removeLastSegmentFromRange st.buf b st.out) = _
      rw [r3, hout]
  unfold removeDotSegmentsStep pureStep
  rw [rangeStartsWith_eq _ _ he, rangeStartsWith_eq _ _ he, rangeStartsWith_eq _ _ he,
    rangeStartsWith_eq _ _ he, rangeEquals_eq _ _ he _ _ hp, rangeEquals_eq _ _ he _ _ hp,
    rangeIsAll_eq _ _ _ he hp, hinp]
  by_cases c1 : "../".toList.isPrefixOf inp = true
  · rw [if_pos c1, if_pos c1]
    exact hskip 3 (length_le_of_isPrefixOf c1) (by decide)
  rw [if_neg c1, if_neg c1]
  by_cases c2 : "./".toList.isPrefixOf inp = true
  · rw [if_pos c2, if_pos c2]
    exact hskip 2 (length_le_of_isPrefixOf c2) (by decide)
  rw [if_neg c2, if_neg c2]
  by_cases c3 : "/./".toList.isPrefixOf inp = true
  · rw [if_pos c3, if_pos c3]
    exact hskip 2 (Nat.le_trans (by decide) (length_le_of_isPrefixOf c3)) (by decide)
  rw [if_neg c3, if_neg c3]
  by_cases c4 : inp = "/.".toList
  · rw [if_pos (decide_eq_true c4), if_pos c4]
    have hl2 : e = st.pos + 2 := by
      have := congrArg List.length c4
      rw [hlen] at this
      simp at this
      omega
    have hpl : st.pos + 1 < st.buf.length := by omega
    refine ⟨⟨hb, ?_, ?_, ?_, ?_, ?_⟩, ⟨?_, ?_, ?_⟩, ?_⟩
    · show st.out ≤ st.pos + 1
      omega
    · show st.pos + 1 ≤ e
      omega
    · show e ≤ (st.buf.set (st.pos + 1) '/').length
      rw [List.length_set]; exact he
    · show window (st.buf.set (st.pos + 1) '/') (st.pos + 1) e = ['/']
      rw [window_cons _ _ _ (by omega) (by rw [List.length_set]; exact he),
        charAt_set_self _ _ _ hpl, window_of_le _ _ _ (by omega)]
    · show window (st.buf.set (st.pos + 1) '/') b st.out = outp
      rw [window_set_ge _ _ _ _ _ (by omega), hout]
    · exact List.length_set _ _ _
    · exact take_set_ge _ _ _ _ (by omega)
    · exact drop_set_lt _ _ _ _ (by omega)
    · show st.pos < st.pos + 1
      omega
  rw [if_neg (by simpa using c4), if_neg c4]
  by_cases c5 : "/../".toList.isPrefixOf inp = true
  · rw [if_pos c5, if_pos c5]
    exact hcut 3 (Nat.le_trans (by decide) (length_le_of_isPrefixOf c5)) (by decide)
  rw [if_neg c5, if_neg c5]
  by_cases c6 : inp = "/..".toList
  · rw [if_pos (decide_eq_true c6), if_pos c6]
    exact hcut 2 (by rw [c6]; decide) (by decide)
  rw [if_neg (by simpa using c6), if_neg c6]
  by_cases c7 : inp.all (· == '.') = true
  · rw [if_pos c7, if_pos c7]
    refine ⟨⟨hb, ?_, Nat.le_refl _, he, ?_, hout⟩, ⟨rfl, rfl, rfl⟩, hlt⟩
    · show st.out ≤ e
      omega
    · show window st.buf e e = []
      exact window_of_le _ _ _ (Nat.le_refl _)
  rw [if_neg c7, if_neg c7]
  have hw := window_cons st.buf st.pos e hlt he
  rw [hinp] at hw
  have hs0 : Sim b e st inp outp := ⟨hb, ho, hp, he, hinp, hout⟩
  by_cases c8 : charAt st.buf st.pos = '/'
  · have hh : inp.head? = some '/' := by rw [hw, c8]; rfl
    rw [if_pos hh]
    simp only [c8, if_true]
    obtain ⟨hs1, hf1⟩ := copyChar_sim b e st inp outp hs0 hlt
    have hd1 : inp.drop 1 = window st.buf (st.pos + 1) e := by rw [hw]; rfl
    rw [c8] at hs1
    rw [← hd1] at hs1
    obtain ⟨k1, k2, k3, _⟩ := copySegmentLoop_spec b e (e - (copyChar st).pos) (copyChar st) _ _ hs1
      (Nat.le_refl _)
    have hp1 : (copyChar st).pos = st.pos + 1 := rfl
    refine ⟨?_, hf1.trans k2, by omega⟩
    have e1 : outp ++ '/' :: (inp.drop 1).takeWhile (· != '/')
        = outp ++ ['/'] ++ (inp.drop 1).takeWhile (· != '/') := by simp
    rw [e1]
    exact k1
  · have hh : ¬ inp.head? = some '/' := by
      rw [hw]
      simp only [List.head?_cons, Option.some.injEq]
      exact c8
    rw [if_neg hh]
    simp only [c8, if_false]
    obtain ⟨k1, k2, _, k4⟩ := copySegmentLoop_spec b e (e - st.pos) st _ _ hs0 (Nat.le_refl _)
    exact ⟨k1, k2, k4 hlt c8⟩

/-! ### The whole loop -/

/-- The loop ends with the input used up, and its output is that of `pureLoop`. -/
theorem removeDotSegmentsLoop_sim (b e : Nat) :
    ∀ fuel (st : Cursors) (inp outp : List Char), Sim b e st inp outp → e - st.pos ≤ fuel →
      (removeDotSegmentsLoop b e fuel st).pos = e ∧
      Sim b e (removeDotSegmentsLoop b e fuel st) [] (pureLoop fuel inp outp) ∧
      Frame b e st.buf (removeDotSegmentsLoop b e fuel st) := by
  intro fuel
  induction fuel with
  | zero =>
    intro st inp outp hs hf
    have hpe : st.pos = e := by have := hs.hp; omega
    have hi : inp = [] := by rw [← hs.hinp, window_of_le _ _ _ (by omega)]
    subst hi
    exact ⟨hpe, hs, Frame.refl b e st⟩
  | succ fuel ih =>
    intro st inp outp hs hf
    simp only [removeDotSegmentsLoop, pureLoop]
    by_cases hlt : st.pos < e
    · rw [if_pos hlt]
      have hne : inp ≠ [] := by
        intro h0
        have := congrArg List.length hs.hinp
        rw [length_window _ _ _ hs.he, h0] at this
        simp at this
        omega
      rw [if_neg hne]
      obtain ⟨k1, k2, k3⟩ := removeDotSegmentsStep_sim b e st inp outp hs hlt
      obtain ⟨m1, m2, m3⟩ := ih _ _ _ k1 (by omega)
      exact ⟨m1, m2, k2.trans m3⟩
    · rw [if_neg hlt]
      have hpe : st.pos = e := by have := hs.hp; omega
      have hi : inp = [] := by rw [← hs.hinp, window_of_le _ _ _ (by omega)]
      subst hi
      rw [if_pos rfl]
      exact ⟨hpe, hs, Frame.refl b e st⟩

/-- What `removeDotSegmentsFromRange` returns and leaves in the buffer. -/
theorem removeDotSegmentsFromRange_spec (buf : List Char) (b e : Nat) (hb : b ≤ e)
    (he : e ≤ buf.length) :
    b ≤ (removeDotSegmentsFromRange buf b e).2 ∧ (removeDotSegmentsFromRange buf b e).2 ≤ e ∧
    window (removeDotSegmentsFromRange buf b e).1 b (removeDotSegmentsFromRange buf b e).2 =
      pureLoop (e - b) (window buf b e) [] ∧
    (removeDotSegmentsFromRange buf b e).1.length = buf.length ∧
    (removeDotSegmentsFromRange buf b e).1.take b = buf.take b ∧
    (removeDotSegmentsFromRange buf b e).1.drop e = buf.drop e := by
  have hs : Sim b e { buf := buf, pos := b, out := b } (window buf b e) [] :=
    ⟨Nat.le_refl _, Nat.le_refl _, hb, he, rfl, window_of_le _ _ _ (Nat.le_refl _)⟩
  obtain ⟨k1, k2, k3⟩ := removeDotSegmentsLoop_sim b e (e - b) _ _ _ hs (Nat.le_refl _)
  unfold removeDotSegmentsFromRange
  simp only []
  have := k2.ho
  exact ⟨k2.hb, by omega, k2.hout, k3.hlen, k3.htake, k3.hdrop⟩

/-- The function on strings computes `pureLoop` on the whole string. -/
theorem removeDotSegmentsFromString_eq (p : List Char) :
    removeDotSegmentsFromString p = pureLoop p.length p [] := by
  obtain ⟨h1, h2, h3, h4, _, _⟩ :=
    removeDotSegmentsFromRange_spec p 0 p.length (Nat.zero_le _) (Nat.le_refl _)
  unfold removeDotSegmentsFromString resize
  simp only []
  rw [sizeSub_zero, Nat.sub_eq_zero_of_le (by omega)]
  rw [Nat.sub_zero, window_zero_length] at h3
  rw [← h3]
  unfold window
  simp

/-! ## The output has no dot segment -/

theorem splitOn_append_slash (x y : List Char) :
    (x ++ '/' :: y).splitOn '/' = x.splitOn '/' ++ y.splitOn '/' := by
  unfold List.splitOn
  induction x with
  | nil => simp [List.splitOnP_cons, List.splitOnP_nil]
  | cons c x ih =>
    rw [List.cons_append, List.splitOnP_cons, List.splitOnP_cons, ih]
    by_cases hc : (c == '/') = true
    · simp [hc]
    · simp only [hc, Bool.false_eq_true, if_false]
      cases hx : List.splitOnP (· == '/') x with
      | nil => exact absurd hx (List.splitOnP_ne_nil _ _)
      | cons s ss => rfl

theorem splitOn_of_not_mem (x : List Char) (h : '/' ∉ x) : x.splitOn '/' = [x] := by
  unfold List.splitOn
  apply List.splitOnP_eq_single
  intro c hc hbeq
  have : c = '/' := by simpa using hbeq
  exact h (this ▸ hc)

theorem noDotSegments_nil : NoDotSegments [] := by decide

theorem noDotSegments_append_slash (x y : List Char) :
    NoDotSegments (x ++ '/' :: y) ↔ NoDotSegments x ∧ NoDotSegments y := by
  unfold NoDotSegments
  rw [splitOn_append_slash]
  simp only [List.mem_append]
  constructor
  · intro h
    exact ⟨fun s hs => h s (Or.inl hs), fun s hs => h s (Or.inr hs)⟩
  · rintro ⟨h1, h2⟩ s (hs | hs)
    · exact h1 s hs
    · exact h2 s hs

theorem noDotSegments_of_not_mem (x : List Char) (h : '/' ∉ x) :
    NoDotSegments x ↔ (x ≠ ".".toList ∧ x ≠ "..".toList) := by
  unfold NoDotSegments
  rw [splitOn_of_not_mem x h]
  simp

theorem noDotSegments_cutLast (l : List Char) (h : NoDotSegments l) : NoDotSegments (cutLast l) := by
  rcases cutLast_spec l with h0 | ⟨y, hy⟩
  · rw [h0]; exact noDotSegments_nil
  · rw [hy] at h
    exact ((noDotSegments_append_slash _ _).mp h).1

theorem not_mem_takeWhile (l : List Char) : '/' ∉ l.takeWhile (· != '/') := by
  intro h
  have := List.mem_takeWhile_imp h
  simp at this

theorem dropWhile_cases (l : List Char) :
    l.dropWhile (· != '/') = [] ∨ ∃ r, l.dropWhile (· != '/') = '/' :: r := by
  induction l with
  | nil => left; rfl
  | cons c l ih =>
    by_cases hc : c = '/'
    · right
      subst hc
      exact ⟨l, by simp⟩
    · have : (c != '/') = true := by simpa using hc
      rw [List.dropWhile_cons, if_pos this]
      exact ih

/-- A segment is followed by nothing or by a `/`. -/
theorem segment_cases (l : List Char) :
    l = l.takeWhile (· != '/') ∨ ∃ r, l = l.takeWhile (· != '/') ++ '/' :: r := by
  have h := (List.takeWhile_append_dropWhile (· != '/') l).symm
  rcases dropWhile_cases l with h0 | ⟨r, hr⟩
  · left
    rw [h0, List.append_nil] at h
    exact h
  · right
    rw [hr] at h
    exact ⟨r, h⟩

theorem pureStep_inv (inp outp : List Char) (hinv : PureInv inp outp) (hne : inp ≠ []) :
    PureInv (pureStep inp outp).1 (pureStep inp outp).2 := by
  obtain ⟨hnd, hpos⟩ := hinv
  unfold pureStep
  -- a non-empty output leaves only an input that starts with `/`, or the input `.`
  have hout : outp ≠ [] → inp.head? = some '/' ∨ inp = ['.'] := by
    intro ho
    rcases hpos with h | h | h | h
    · exact absurd h ho
    · exact absurd h hne
    · exact Or.inl h
    · exact Or.inr h
  by_cases c1 : "../".toList.isPrefixOf inp = true
  · rw [if_pos c1]
    refine ⟨hnd, ?_⟩
    by_cases ho : outp = []
    · exact Or.inl ho
    · rcases hout ho with h | h
      · cases inp with
        | nil => simp at h
        | cons c r =>
          simp only [List.head?_cons, Option.some.injEq] at h
          subst h
          exact absurd c1 (by simp [List.isPrefixOf])
      · subst h
        exact absurd c1 (by decide)
  rw [if_neg c1]
  by_cases c2 : "./".toList.isPrefixOf inp = true
  · rw [if_pos c2]
    refine ⟨hnd, ?_⟩
    by_cases ho : outp = []
    · exact Or.inl ho
    · rcases hout ho with h | h
      · cases inp with
        | nil => simp at h
        | cons c r =>
          simp only [List.head?_cons, Option.some.injEq] at h
          subst h
          exact absurd c2 (by simp [List.isPrefixOf])
      · subst h
        exact absurd c2 (by decide)
  rw [if_neg c2]
  by_cases c3 : "/./".toList.isPrefixOf inp = true
  · rw [if_pos c3]
    refine ⟨hnd, Or.inr (Or.inr (Or.inl ?_))⟩
    obtain ⟨r, hr⟩ := List.isPrefixOf_iff_prefix.mp c3
    rw [← hr]
    rfl
  rw [if_neg c3]
  by_cases c4 : inp = "/.".toList
  · rw [if_pos c4]
    exact ⟨hnd, Or.inr (Or.inr (Or.inl rfl))⟩
  rw [if_neg c4]
  by_cases c5 : "/../".toList.isPrefixOf inp = true
  · rw [if_pos c5]
    refine ⟨noDotSegments_cutLast _ hnd, Or.inr (Or.inr (Or.inl ?_))⟩
    obtain ⟨r, hr⟩ := List.isPrefixOf_iff_prefix.mp c5
    rw [← hr]
    rfl
  rw [if_neg c5]
  by_cases c6 : inp = "/..".toList
  · rw [if_pos c6]
    refine ⟨noDotSegments_cutLast _ hnd, Or.inr (Or.inr (Or.inr ?_))⟩
    rw [c6]
    rfl
  rw [if_neg c6]
  by_cases c7 : inp.all (· == '.') = true
  · rw [if_pos c7]
    exact ⟨hnd, Or.inr (Or.inl rfl)⟩
  rw [if_neg c7]
  by_cases c8 : inp.head? = some '/'
  · rw [if_pos c8]
    obtain ⟨rest, rfl⟩ : ∃ rest, inp = '/' :: rest := by
      cases inp with
      | nil => simp at c8
      | cons c r =>
        simp only [List.head?_cons, Option.some.injEq] at c8
        exact ⟨r, by rw [c8]⟩
    simp only [List.drop_succ_cons, List.drop_zero]
    refine ⟨?_, ?_⟩
    · rw [noDotSegments_append_slash, noDotSegments_of_not_mem _ (not_mem_takeWhile rest)]
      refine ⟨hnd, ?_, ?_⟩
      · intro hseg
        rcases segment_cases rest with h | ⟨r, h⟩
        · rw [hseg] at h
          exact c4 (by rw [h]; rfl)
        · rw [hseg] at h
          exact c3 (by rw [h]; simp [List.isPrefixOf])
      · intro hseg
        rcases segment_cases rest with h | ⟨r, h⟩
        · rw [hseg] at h
          exact c6 (by rw [h]; rfl)
        · rw [hseg] at h
          exact c5 (by rw [h]; simp [List.isPrefixOf])
    · rcases dropWhile_cases rest with h | ⟨r, h⟩
      · exact Or.inr (Or.inl h)
      · exact Or.inr (Or.inr (Or.inl (by rw [h]; rfl)))
  · rw [if_neg c8]
    have ho : outp = [] := by
      by_contra ho
      rcases hout ho with h | h
      · exact c8 h
      · subst h
        exact absurd c7 (by decide)
    subst ho
    refine ⟨?_, ?_⟩
    · rw [List.nil_append, noDotSegments_of_not_mem _ (not_mem_takeWhile inp)]
      refine ⟨?_, ?_⟩
      · intro hseg
        rcases segment_cases inp with h | ⟨r, h⟩
        · rw [hseg] at h
          exact c7 (by rw [h]; rfl)
        · rw [hseg] at h
          exact c2 (by rw [h]; simp [List.isPrefixOf])
      · intro hseg
        rcases segment_cases inp with h | ⟨r, h⟩
        · rw [hseg] at h
          exact c7 (by rw [h]; rfl)
        · rw [hseg] at h
          exact c1 (by rw [h]; simp [List.isPrefixOf])
    · rcases dropWhile_cases inp with h | ⟨r, h⟩
      · exact Or.inr (Or.inl h)
      · exact Or.inr (Or.inr (Or.inl (by rw [h]; rfl)))

theorem pureLoop_noDotSegments :
    ∀ fuel (inp outp : List Char), PureInv inp outp → NoDotSegments (pureLoop fuel inp outp) := by
  intro fuel
  induction fuel with
  | zero => intro inp outp h; exact h.1
  | succ fuel ih =>
    intro inp outp h
    simp only [pureLoop]
    by_cases hne : inp = []
    · rw [if_pos hne]; exact h.1
    · rw [if_neg hne]
      exact ih _ _ (pureStep_inv inp outp h hne)

theorem pureInv_start (p : List Char) : PureInv p [] := ⟨noDotSegments_nil, Or.inl rfl⟩

/-! ## `standardized` -/

theorem window_take_append (l x : List Char) (b n : Nat) (hn : n ≤ l.length) :
    window (l.take n ++ x) b n = window l b n := by
  unfold window
  by_cases hb : b ≤ n
  · rw [List.drop_append_of_le_length (by rw [List.length_take]; omega),
      List.take_append_of_le_length (by rw [List.length_drop, List.length_take]; omega),
      List.drop_take, List.take_take, Nat.min_self]
  · rw [Nat.sub_eq_zero_of_le (by omega), List.take_zero, List.take_zero]

/-- The path of the standardized URL is the path with its dot segments removed. -/
theorem standardized_path (u : Url) (h1 : u.isStandardized = false) (h2 : u.hasDataScheme = false)
    (hr : u.m_parts.path.within u.m_string.length) :
    u.standardized.path = removeDotSegmentsFromString u.path := by
  unfold Range.within at hr
  obtain ⟨k1, k2, k3, k4, _, _⟩ :=
    removeDotSegmentsFromRange_spec u.m_string u.m_parts.path.start
      (u.m_parts.path.start + u.m_parts.path.count) (Nat.le_add_right _ _) hr
  have hpath : u.path = window u.m_string u.m_parts.path.start
      (u.m_parts.path.start + u.m_parts.path.count) := by
    rw [window_eq_substr]; rfl
  have hlen : u.path.length = u.m_parts.path.count := by
    rw [hpath, length_window _ _ _ hr]; omega
  rw [removeDotSegmentsFromString_eq, hlen, hpath]
  rw [Nat.add_sub_cancel_left] at k3
  rw [← k3]
  unfold Url.standardized
  rw [h1, h2]
  simp only [Bool.false_eq_true, if_false]
  split
  · rename_i hne
    unfold Url.path
    simp only []
    have e1 : sizeSub (u.m_parts.path.start + u.m_parts.path.count)
        (removeDotSegmentsFromRange u.m_string u.m_parts.path.start
          (u.m_parts.path.start + u.m_parts.path.count)).2 =
        u.m_parts.path.start + u.m_parts.path.count -
        (removeDotSegmentsFromRange u.m_string u.m_parts.path.start
          (u.m_parts.path.start + u.m_parts.path.count)).2 := sizeSub_of_le k2
    rw [e1, sizeSub_of_le (by omega), ← window_eq_substr]
    unfold erase
    have e2 : u.m_parts.path.start + (u.m_parts.path.count -
        (u.m_parts.path.start + u.m_parts.path.count -
        (removeDotSegmentsFromRange u.m_string u.m_parts.path.start
          (u.m_parts.path.start + u.m_parts.path.count)).2)) =
        (removeDotSegmentsFromRange u.m_string u.m_parts.path.start
          (u.m_parts.path.start + u.m_parts.path.count)).2 := by omega
    rw [e2]
    exact window_take_append _ _ _ _ (by omega)
  · rename_i heq
    unfold Url.path
    simp only []
    rw [← window_eq_substr]
    simp only [ne_eq, Decidable.not_not] at heq
    rw [heq]

theorem ofString_isStandardized (s : List Char) : (Url.ofString s).isStandardized = false := by
  rw [ofString_eq]
  split
  · unfold Url.isStandardized dataUrl
    simp only []
    rcases schemeFlags_cases s with h0 | h0 <;> rw [h0] <;> split <;> decide
  · unfold Url.isStandardized plainUrl plainFlags
    simp only []
    rcases schemeFlags_cases s with h0 | h0 <;> rw [h0] <;> split_ifs <;> decide

/-- The flags of a parsed URL, one of finitely many values. -/
theorem ofString_flags_cases (s : List Char) :
    (Url.ofString s).m_flags ∈ [0, 2, 8, 10, 16, 18, 32, 34, 96, 98] := by
  rw [ofString_eq]
  split
  · unfold dataUrl
    simp only []
    rcases schemeFlags_cases s with h0 | h0 <;> rw [h0] <;> split <;> decide
  · unfold plainUrl plainFlags
    simp only []
    rcases schemeFlags_cases s with h0 | h0 <;> rw [h0] <;> split_ifs <;> decide

theorem standardized_of_isStandardized (u : Url) (h : u.isStandardized = true) :
    u.standardized = u := by
  unfold Url.standardized
  rw [if_pos h]

theorem standardized_of_hasDataScheme (u : Url) (h : u.hasDataScheme = true) :
    u.standardized = u := by
  unfold Url.standardized
  by_cases hs : u.isStandardized = true
  · rw [if_pos hs]
  · rw [if_neg hs, if_pos h]

theorem standardized_flags (u : Url) (h1 : u.isStandardized = false) (h2 : u.hasDataScheme = false) :
    u.standardized.m_flags = u.m_flags ||| IS_STANDARDIZED := by
  unfold Url.standardized
  rw [h1, h2]
  simp only [Bool.false_eq_true, if_false]
  split <;> rfl

theorem ofString_standardized_flags (s : List Char)
    (h : (Url.ofString s).hasDataScheme = false) :
    (Url.ofString s).standardized.isStandardized = true ∧
      (Url.ofString s).standardized.hasDataScheme = false := by
  have hf := standardized_flags _ (ofString_isStandardized s) h
  have hc := ofString_flags_cases s
  unfold Url.isStandardized Url.hasDataScheme at *
  rw [hf]
  simp only [List.mem_cons, List.mem_singleton, List.not_mem_nil, or_false] at hc
  rcases hc with hc | hc | hc | hc | hc | hc | hc | hc | hc | hc <;> rw [hc] at h ⊢ <;>
    first
    | exact ⟨by decide, by decide⟩
    | exact absurd h (by decide)

/-- Every value a caller can obtain is a parsed URL or the standardized form of
one. -/
theorem constructible_cases (u : Url) (h : Constructible u) :
    ∃ s, u = Url.ofString s ∨ u = (Url.ofString s).standardized := by
  induction h with
  | ofString s => exact ⟨s, Or.inl rfl⟩
  | empty => exact ⟨[], Or.inl (by decide)⟩
  | withBase s base => exact ⟨s, Or.inl rfl⟩
  | standardized u _ ih =>
    obtain ⟨s, hs | hs⟩ := ih
    · exact ⟨s, Or.inr (by rw [hs])⟩
    · refine ⟨s, Or.inr ?_⟩
      rw [hs]
      by_cases hd : (Url.ofString s).hasDataScheme = true
      · rw [standardized_of_hasDataScheme _ hd, standardized_of_hasDataScheme _ hd]
      · rw [Bool.not_eq_true] at hd
        exact standardized_of_isStandardized _ (ofString_standardized_flags s hd).1
  | madeRelative u base _ ih => exact ih
  | resolved u base _ ih => exact ih

/-! ## Comparison with the algorithm of the RFC -/

theorem rfcRemoveLastSegment_eq_cutLast (out : List Char) : rfcRemoveLastSegment out = cutLast out := by
  unfold rfcRemoveLastSegment
  induction out with
  | nil => rfl
  | cons c cs ih =>
    by_cases h : '/' ∈ cs
    · rw [cutLast, if_pos h, ← ih, List.reverse_cons]
      have h1 : ∀ (a b : List Char), '/' ∈ a →
          (a ++ b).dropWhile (· != '/') = a.dropWhile (· != '/') ++ b := by
        intro a b ha
        induction a with
        | nil => simp at ha
        | cons d a iha =>
          by_cases hd : d = '/'
          · subst hd; simp
          · have hd' : (d != '/') = true := by simpa using hd
            have ha' : '/' ∈ a := by
              rcases List.mem_cons.mp ha with h | h
              · exact absurd h.symm hd
              · exact h
            rw [List.cons_append, List.dropWhile_cons, if_pos hd', List.dropWhile_cons, if_pos hd',
              iha ha']
      have h2 : cs.reverse.dropWhile (· != '/') ≠ [] := by
        intro h0
        have hmem : '/' ∈ cs.reverse := List.mem_reverse.mpr h
        rcases dropWhile_cases cs.reverse with h3 | ⟨r, h3⟩
        · have := List.takeWhile_append_dropWhile (· != '/') cs.reverse
          rw [h3, List.append_nil] at this
          rw [← this] at hmem
          exact not_mem_takeWhile _ hmem
        · rw [h3] at h0; exact absurd h0 (by simp)
      rw [h1 _ _ (List.mem_reverse.mpr h)]
      cases hd : cs.reverse.dropWhile (· != '/') with
      | nil => exact absurd hd h2
      | cons x xs => simp
    · rw [cutLast, if_neg h, List.reverse_cons]
      have h1 : ∀ (a : List Char), '/' ∉ a → a.dropWhile (· != '/') = [] := by
        intro a ha
        induction a with
        | nil => rfl
        | cons d a iha =>
          simp only [List.mem_cons, not_or] at ha
          have hd' : (d != '/') = true := by simpa using fun h => ha.1 h.symm
          rw [List.dropWhile_cons, if_pos hd']
          exact iha ha.2
      by_cases hc : c = '/'
      · subst hc
        have : (cs.reverse ++ ['/']).dropWhile (· != '/') = ['/'] := by
          have ha : '/' ∉ cs.reverse := fun hm => h (List.mem_reverse.mp hm)
          clear ih
          generalize cs.reverse = a at ha
          induction a with
          | nil => simp
          | cons d a iha =>
            simp only [List.mem_cons, not_or] at ha
            have hd' : (d != '/') = true := by simpa using fun h => ha.1 h.symm
            rw [List.cons_append, List.dropWhile_cons, if_pos hd']
            exact iha ha.2
        rw [this]
        rfl
      · have : '/' ∉ cs.reverse ++ [c] := by
          simp only [List.mem_append, List.mem_reverse, List.mem_singleton, not_or]
          exact ⟨h, fun h => hc h.symm⟩
        rw [h1 _ this]
        rfl

theorem length_dropWhile_le (l : List Char) : (l.dropWhile (· != '/')).length ≤ l.length := by
  induction l with
  | nil => exact Nat.le_refl _
  | cons c l ih =>
    rw [List.dropWhile_cons]
    split
    · exact Nat.le_succ_of_le ih
    · exact Nat.le_refl _

theorem drop_length_takeWhile (l : List Char) :
    l.drop (l.takeWhile (· != '/')).length = l.dropWhile (· != '/') := by
  induction l with
  | nil => rfl
  | cons c l ih =>
    rw [List.takeWhile_cons, List.dropWhile_cons]
    split
    · exact ih
    · rfl

/-- Every pass of the loop of the source shortens the input. -/
theorem pureStep_length_lt (inp outp : List Char) (hne : inp ≠ []) :
    (pureStep inp outp).1.length < inp.length := by
  have hpos : 0 < inp.length := List.length_pos.mpr hne
  unfold pureStep
  split
  · rename_i h
    have := length_le_of_isPrefixOf h
    simp only [List.length_drop]
    have : 3 ≤ inp.length := this
    omega
  split
  · rename_i h
    have := length_le_of_isPrefixOf h
    simp only [List.length_drop]
    have : 2 ≤ inp.length := this
    omega
  split
  · rename_i h
    have := length_le_of_isPrefixOf h
    simp only [List.length_drop]
    have : 3 ≤ inp.length := this
    omega
  split
  · rename_i h
    rw [h]
    simp
  split
  · rename_i h
    have := length_le_of_isPrefixOf h
    simp only [List.length_drop]
    have : 4 ≤ inp.length := this
    omega
  split
  · rename_i h
    rw [h]
    simp
  split
  · exact hpos
  split
  · have := length_dropWhile_le (inp.drop 1)
    rw [List.length_drop] at this
    show (List.dropWhile (· != '/') (inp.drop 1)).length < inp.length
    omega
  · rename_i h
    cases inp with
    | nil => exact absurd rfl hne
    | cons c r =>
      have hc : (c != '/') = true := by
        simp only [List.head?_cons, Option.some.injEq] at h
        simpa using h
      show (List.dropWhile (· != '/') (c :: r)).length < (c :: r).length
      rw [List.dropWhile_cons, if_pos hc]
      have := length_dropWhile_le r
      simp only [List.length_cons]
      omega

/-- Every pass of the loop of the RFC shortens the input buffer. -/
theorem rfcStep_length_lt (inp out : List Char) (hne : inp ≠ []) :
    (rfcStep inp out).1.length < inp.length := by
  have hpos : 0 < inp.length := List.length_pos.mpr hne
  unfold rfcStep
  split
  · rename_i h
    have := length_le_of_isPrefixOf h
    simp only [List.length_drop]
    have : 3 ≤ inp.length := this
    omega
  split
  · rename_i h
    have := length_le_of_isPrefixOf h
    simp only [List.length_drop]
    have : 2 ≤ inp.length := this
    omega
  split
  · rename_i h
    have := length_le_of_isPrefixOf h
    simp only [List.length_drop, List.length_cons]
    have : 3 ≤ inp.length := this
    omega
  split
  · rename_i h
    rw [h]
    simp
  split
  · rename_i h
    have := length_le_of_isPrefixOf h
    simp only [List.length_drop, List.length_cons]
    have : 4 ≤ inp.length := this
    omega
  split
  · rename_i h
    rw [h]
    simp
  split
  · exact hpos
  · cases inp with
    | nil => exact absurd rfl hne
    | cons c r =>
      simp only [rfcFirstSegment, List.take_succ_cons, List.take_zero, List.length_append,
        List.length_cons, List.length_nil, List.length_drop]
      omega

/-! ### Paths that end with `/..` -/

theorem not_suffix_of_length_lt (t : List Char) (h : t.length < 3) : ¬ "/..".toList <:+ t := by
  intro hs
  have := hs.length_le
  simp at this
  omega

theorem suffix_append_of_length (x t : List Char) (h3 : 3 ≤ t.length) :
    "/..".toList <:+ x ++ t ↔ "/..".toList <:+ t := by
  constructor
  · intro h
    exact List.suffix_of_suffix_length_le h (List.suffix_append x t) (by simpa using h3)
  · intro h
    exact h.trans (List.suffix_append x t)

/-- Whether a path ends with `/..` is decided by what follows any of its `/`. -/
theorem suffix_append_slash (x t : List Char) :
    "/..".toList <:+ x ++ '/' :: t ↔ "/..".toList <:+ '/' :: t := by
  by_cases h3 : 3 ≤ ('/' :: t).length
  · exact suffix_append_of_length x _ h3
  · have hr : ¬ "/..".toList <:+ '/' :: t := not_suffix_of_length_lt _ (by omega)
    have hl : ¬ "/..".toList <:+ x ++ '/' :: t := by
      intro hs
      rw [← List.reverse_prefix] at hs
      simp only [List.length_cons] at h3
      cases t with
      | nil =>
        have e : (x ++ ['/']).reverse = '/' :: x.reverse := by simp
        rw [e] at hs
        have := List.cons_prefix_cons.mp hs
        exact absurd this.1 (by decide)
      | cons y t =>
        cases t with
        | nil =>
          have e : (x ++ ['/', y]).reverse = y :: '/' :: x.reverse := by simp
          rw [e] at hs
          have h1 := (List.cons_prefix_cons.mp hs).2
          have h2 := List.cons_prefix_cons.mp h1
          exact absurd h2.1 (by decide)
        | cons z t => simp at h3
    exact ⟨fun h => absurd h hl, fun h => absurd h hr⟩

theorem not_suffix_of_not_mem (x : List Char) (h : '/' ∉ x) : ¬ "/..".toList <:+ x := by
  intro hs
  exact h (hs.subset (by decide))

theorem not_suffix_segment (c : Char) (x : List Char) (h : '/' ∉ x) (hne : c :: x ≠ "/..".toList) :
    ¬ "/..".toList <:+ c :: x := by
  intro hs
  rcases List.suffix_cons_iff.mp hs with h1 | h1
  · exact hne h1.symm
  · exact not_suffix_of_not_mem x h h1

/-! ### The two loops side by side -/

theorem rfcLoop_nil (fuel : Nat) (out : List Char) : rfcLoop fuel [] out = out := by
  cases fuel <;> simp [rfcLoop]

theorem pureLoop_nil (fuel : Nat) (outp : List Char) : pureLoop fuel [] outp = outp := by
  cases fuel <;> simp [pureLoop]

theorem rfcLoop_slash (fuel : Nat) (out : List Char) :
    rfcLoop (fuel + 1) ['/'] out = out ++ ['/'] := by
  have : rfcStep ['/'] out = ([], out ++ ['/']) := by
    simp [rfcStep, rfcFirstSegment, List.isPrefixOf]
  rw [rfcLoop, if_neg (by simp), this, rfcLoop_nil]

theorem pureLoop_dot (fuel : Nat) (outp : List Char) : pureLoop (fuel + 1) ['.'] outp = outp := by
  have : pureStep ['.'] outp = ([], outp) := by
    simp [pureStep, List.isPrefixOf]
  rw [pureLoop, if_neg (by simp), this, pureLoop_nil]

/-- From an input that starts with `/`, the RFC and the source produce the same
output, but that the source leaves out the `/` which the RFC puts in place of a
final `/..`. -/
theorem rfcLoop_eq_pureLoop_slash :
    ∀ (n : Nat) (inp out : List Char) (f1 f2 : Nat), inp.length ≤ n → inp.length ≤ f1 →
      inp.length ≤ f2 → (inp = [] ∨ inp.head? = some '/') →
      rfcLoop f1 inp out =
        pureLoop f2 inp out ++ (if "/..".toList <:+ inp then ['/'] else []) := by
  intro n
  induction n with
  | zero =>
    intro inp out f1 f2 hn _ _ _
    have : inp = [] := List.length_eq_zero.mp (Nat.le_zero.mp hn)
    subst this
    rw [rfcLoop_nil, pureLoop_nil, if_neg (not_suffix_of_length_lt [] (by decide)), List.append_nil]
  | succ n ih =>
    intro inp out f1 f2 hn h1 h2 hph
    rcases hph with h0 | hh
    · subst h0
      rw [rfcLoop_nil, pureLoop_nil, if_neg (not_suffix_of_length_lt [] (by decide)),
        List.append_nil]
    obtain ⟨rest, rfl⟩ : ∃ rest, inp = '/' :: rest := by
      cases inp with
      | nil => simp at hh
      | cons c r =>
        simp only [List.head?_cons, Option.some.injEq] at hh
        exact ⟨r, by rw [hh]⟩
    obtain ⟨g1, rfl⟩ : ∃ g1, f1 = g1 + 1 := ⟨f1 - 1, by simp at h1; omega⟩
    obtain ⟨g2, rfl⟩ : ∃ g2, f2 = g2 + 1 := ⟨f2 - 1, by simp at h2; omega⟩
    simp only [List.length_cons] at hn h1 h2
    rw [rfcLoop, pureLoop, if_neg (by simp), if_neg (by simp)]
    have c1 : ¬ "../".toList.isPrefixOf ('/' :: rest) = true := by simp [List.isPrefixOf]
    have c2 : ¬ "./".toList.isPrefixOf ('/' :: rest) = true := by simp [List.isPrefixOf]
    unfold rfcStep pureStep
    rw [if_neg c1, if_neg c1, if_neg c2, if_neg c2]
    by_cases c3 : "/./".toList.isPrefixOf ('/' :: rest) = true
    · rw [if_pos c3, if_pos c3]
      obtain ⟨r, hr⟩ := List.isPrefixOf_iff_prefix.mp c3
      have e : '/' :: rest = "/.".toList ++ '/' :: r := by rw [← hr]; rfl
      rw [e]
      have e1 : ("/.".toList ++ '/' :: r).drop 3 = r := rfl
      have e2 : ("/.".toList ++ '/' :: r).drop 2 = '/' :: r := rfl
      simp only [e1, e2]
      have hrl : rest.length = r.length + 2 := by
        have := congrArg List.length e
        simp at this
        omega
      have hlen : ('/' :: r).length = r.length + 1 := rfl
      rw [ih ('/' :: r) out g1 g2 (by omega) (by omega) (by omega) (Or.inr rfl)]
      congr 1
      exact if_congr (suffix_append_slash _ _).symm rfl rfl
    rw [if_neg c3, if_neg c3]
    by_cases c4 : '/' :: rest = "/.".toList
    · rw [if_pos c4, if_pos c4, c4]
      have hrl : rest.length = 1 := by
        have := congrArg List.length c4
        simpa using this
      have hlen : (['/'] : List Char).length = 1 := rfl
      rw [ih ['/'] out g1 g2 (by omega) (by omega) (by omega) (Or.inr rfl)]
      congr 1
    rw [if_neg c4, if_neg c4]
    by_cases c5 : "/../".toList.isPrefixOf ('/' :: rest) = true
    · rw [if_pos c5, if_pos c5]
      obtain ⟨r, hr⟩ := List.isPrefixOf_iff_prefix.mp c5
      have e : '/' :: rest = "/..".toList ++ '/' :: r := by rw [← hr]; rfl
      rw [e]
      have e1 : ("/..".toList ++ '/' :: r).drop 4 = r := rfl
      have e2 : ("/..".toList ++ '/' :: r).drop 3 = '/' :: r := rfl
      simp only [e1, e2]
      have hrl : rest.length = r.length + 3 := by
        have := congrArg List.length e
        simp at this
        omega
      have hlen : ('/' :: r).length = r.length + 1 := rfl
      rw [ih ('/' :: r) _ g1 g2 (by omega) (by omega) (by omega) (Or.inr rfl),
        rfcRemoveLastSegment_eq_cutLast]
      congr 1
      exact if_congr (suffix_append_slash _ _).symm rfl rfl
    rw [if_neg c5, if_neg c5]
    by_cases c6 : '/' :: rest = "/..".toList
    · rw [if_pos c6, if_pos c6, c6]
      have hlen : rest.length = 2 := by
        have := congrArg List.length c6
        simpa using this
      obtain ⟨k1, rfl⟩ : ∃ k1, g1 = k1 + 1 := ⟨g1 - 1, by omega⟩
      obtain ⟨k2, rfl⟩ : ∃ k2, g2 = k2 + 1 := ⟨g2 - 1, by omega⟩
      have e2 : ("/..".toList).drop 2 = ['.'] := rfl
      simp only [e2]
      rw [rfcLoop_slash, pureLoop_dot, rfcRemoveLastSegment_eq_cutLast,
        if_pos (List.suffix_refl _)]
    rw [if_neg c6, if_neg c6]
    have c7 : ¬ ('/' :: rest = ".".toList ∨ '/' :: rest = "..".toList) := by
      rintro (h | h) <;> exact absurd (List.cons.inj h).1 (by decide)
    have c7' : ¬ ('/' :: rest).all (· == '.') = true := by simp
    rw [if_neg c7, if_neg c7', if_pos hh]
    have eseg : rfcFirstSegment ('/' :: rest) = '/' :: rest.takeWhile (· != '/') := rfl
    have edrop : ('/' :: rest).drop ('/' :: rest.takeWhile (· != '/')).length =
        rest.dropWhile (· != '/') := by
      rw [List.length_cons, List.drop_succ_cons, drop_length_takeWhile]
    have ed1 : ('/' :: rest).drop 1 = rest := rfl
    simp only [eseg, edrop, ed1]
    have hdl := length_dropWhile_le rest
    have hlen : (rest.dropWhile (· != '/')).length ≤ n := by omega
    have hsplit : '/' :: rest = ('/' :: rest.takeWhile (· != '/')) ++ rest.dropWhile (· != '/') := by
      rw [List.cons_append, List.takeWhile_append_dropWhile]
    rcases dropWhile_cases rest with h0 | ⟨r, hr⟩
    · rw [ih _ _ g1 g2 hlen (by omega) (by omega) (Or.inl h0)]
      congr 1
      rw [h0, List.append_nil] at hsplit
      rw [h0, if_neg (not_suffix_of_length_lt [] (by decide)), if_neg]
      rw [hsplit]
      refine not_suffix_segment _ _ (not_mem_takeWhile rest) ?_
      rw [← hsplit]
      exact c6
    · rw [ih _ _ g1 g2 hlen (by omega) (by omega) (Or.inr (by rw [hr]; rfl))]
      congr 1
      rw [hr] at hsplit ⊢
      rw [hsplit]
      exact if_congr (suffix_append_slash _ _).symm rfl rfl

theorem stripDotPrefixes_eq_self (l : List Char)
    (h1 : ¬ "../".toList.isPrefixOf l = true) (h2 : ¬ "./".toList.isPrefixOf l = true) :
    stripDotPrefixes l = l := by
  rw [stripDotPrefixes]
  · intro r hr; subst hr; simp [List.isPrefixOf] at h1
  · intro r hr; subst hr; simp [List.isPrefixOf] at h2

theorem takeWhile_of_head_ne (c : Char) (r : List Char) (hc : c ≠ '/') :
    (c :: r).takeWhile (· != '/') = c :: r.takeWhile (· != '/') := by
  have : (c != '/') = true := by simpa using hc
  rw [List.takeWhile_cons, if_pos this]

theorem dropWhile_of_head_ne (c : Char) (r : List Char) (hc : c ≠ '/') :
    (c :: r).dropWhile (· != '/') = r.dropWhile (· != '/') := by
  have : (c != '/') = true := by simpa using hc
  rw [List.dropWhile_cons, if_pos this]

/-- The RFC and the source side by side, from the start of a path. -/
theorem rfcLoop_eq_pureLoop (p : List Char) :
    ∀ (f1 f2 : Nat), p.length ≤ f1 → p.length ≤ f2 →
      ¬ (3 ≤ (stripDotPrefixes p).length ∧ (stripDotPrefixes p).all (· == '.') = true) →
      rfcLoop f1 p [] =
        pureLoop f2 p [] ++ (if "/..".toList <:+ stripDotPrefixes p then ['/'] else []) := by
  induction p using stripDotPrefixes.induct with
  | case1 r ih =>
    intro f1 f2 h1 h2 hd
    simp only [List.length_cons] at h1 h2
    obtain ⟨g1, rfl⟩ : ∃ g1, f1 = g1 + 1 := ⟨f1 - 1, by omega⟩
    obtain ⟨g2, rfl⟩ : ∃ g2, f2 = g2 + 1 := ⟨f2 - 1, by omega⟩
    have e1 : rfcStep ('.' :: '.' :: '/' :: r) [] = (r, []) := by
      simp [rfcStep, List.isPrefixOf]
    have e2 : pureStep ('.' :: '.' :: '/' :: r) [] = (r, []) := by
      simp [pureStep, List.isPrefixOf]
    rw [rfcLoop, pureLoop, if_neg (by simp), if_neg (by simp), e1, e2]
    rw [stripDotPrefixes] at hd ⊢
    exact ih g1 g2 (by omega) (by omega) hd
  | case2 r ih =>
    intro f1 f2 h1 h2 hd
    simp only [List.length_cons] at h1 h2
    obtain ⟨g1, rfl⟩ : ∃ g1, f1 = g1 + 1 := ⟨f1 - 1, by omega⟩
    obtain ⟨g2, rfl⟩ : ∃ g2, f2 = g2 + 1 := ⟨f2 - 1, by omega⟩
    have e1 : rfcStep ('.' :: '/' :: r) [] = (r, []) := by
      simp [rfcStep, List.isPrefixOf]
    have e2 : pureStep ('.' :: '/' :: r) [] = (r, []) := by
      simp [pureStep, List.isPrefixOf]
    rw [rfcLoop, pureLoop, if_neg (by simp), if_neg (by simp), e1, e2]
    rw [stripDotPrefixes] at hd ⊢
    exact ih g1 g2 (by omega) (by omega) hd
  | case3 l hn1 hn2 =>
    intro f1 f2 h1 h2 hd
    have c1 : ¬ "../".toList.isPrefixOf l = true := by
      intro h
      obtain ⟨r, hr⟩ := List.isPrefixOf_iff_prefix.mp h
      exact hn1 r hr.symm
    have c2 : ¬ "./".toList.isPrefixOf l = true := by
      intro h
      obtain ⟨r, hr⟩ := List.isPrefixOf_iff_prefix.mp h
      exact hn2 r hr.symm
    rw [stripDotPrefixes_eq_self l c1 c2] at hd ⊢
    cases hl : l with
    | nil =>
      rw [rfcLoop_nil, pureLoop_nil, if_neg (not_suffix_of_length_lt [] (by decide)),
        List.append_nil]
    | cons c r =>
      by_cases hc : c = '/'
      · subst hc
        exact rfcLoop_eq_pureLoop_slash _ _ _ f1 f2 (Nat.le_refl _) (by rw [← hl]; exact h1)
          (by rw [← hl]; exact h2) (Or.inr rfl)
      · rw [hl] at h1 h2 c1 c2 hd
        simp only [List.length_cons] at h1 h2
        obtain ⟨g1, rfl⟩ : ∃ g1, f1 = g1 + 1 := ⟨f1 - 1, by omega⟩
        obtain ⟨g2, rfl⟩ : ∃ g2, f2 = g2 + 1 := ⟨f2 - 1, by omega⟩
        rw [rfcLoop, pureLoop, if_neg (by simp), if_neg (by simp)]
        have c3 : ¬ "/./".toList.isPrefixOf (c :: r) = true := by
          simp only [String.toList, List.isPrefixOf, Bool.and_eq_true, beq_iff_eq, not_and]
          intro h; exact absurd h.symm hc
        have c4 : ¬ c :: r = "/.".toList := fun h => hc (List.cons.inj h).1
        have c5 : ¬ "/../".toList.isPrefixOf (c :: r) = true := by
          simp only [String.toList, List.isPrefixOf, Bool.and_eq_true, beq_iff_eq, not_and]
          intro h; exact absurd h.symm hc
        have c6 : ¬ c :: r = "/..".toList := fun h => hc (List.cons.inj h).1
        have c8 : ¬ (c :: r).head? = some '/' := by
          simp only [List.head?_cons, Option.some.injEq]; exact hc
        unfold rfcStep pureStep
        rw [if_neg c1, if_neg c1, if_neg c2, if_neg c2, if_neg c3, if_neg c3, if_neg c4, if_neg c4,
          if_neg c5, if_neg c5, if_neg c6, if_neg c6]
        by_cases c7 : (c :: r).all (· == '.') = true
        · -- one or two dots
          have hlen : (c :: r).length < 3 := by
            by_contra hge
            exact hd ⟨by omega, c7⟩
          have hcr : c :: r = ".".toList ∨ c :: r = "..".toList := by
            simp only [List.all_cons, Bool.and_eq_true, beq_iff_eq] at c7
            cases r with
            | nil => left; rw [c7.1]; rfl
            | cons d r =>
              cases r with
              | nil =>
                simp only [List.all_cons, Bool.and_eq_true, beq_iff_eq] at c7
                right; rw [c7.1, c7.2.1]; rfl
              | cons e r => simp at hlen; omega
          rw [if_pos hcr, if_pos c7, rfcLoop_nil, pureLoop_nil,
            if_neg (not_suffix_of_length_lt _ hlen), List.append_nil]
        · have hcr : ¬ (c :: r = ".".toList ∨ c :: r = "..".toList) := by
            rintro (h | h) <;> rw [h] at c7 <;> exact c7 (by decide)
          rw [if_neg hcr, if_neg c7, if_neg c8]
          have eseg : rfcFirstSegment (c :: r) = (c :: r).takeWhile (· != '/') := by
            rw [takeWhile_of_head_ne c r hc]; rfl
          have edrop : (c :: r).drop ((c :: r).takeWhile (· != '/')).length =
              (c :: r).dropWhile (· != '/') := drop_length_takeWhile _
          simp only [eseg, edrop]
          have hdl := length_dropWhile_le r
          have hdw := dropWhile_of_head_ne c r hc
          have hsplit := (List.takeWhile_append_dropWhile (· != '/') (c :: r)).symm
          rcases dropWhile_cases (c :: r) with h0 | ⟨t, ht⟩
          · rw [rfcLoop_eq_pureLoop_slash _ _ _ g1 g2 (Nat.le_refl _)
              (by rw [hdw]; omega) (by rw [hdw]; omega) (Or.inl h0)]
            congr 1
            rw [h0, List.append_nil] at hsplit
            rw [h0, if_neg (not_suffix_of_length_lt [] (by decide)), if_neg]
            rw [hsplit]
            exact not_suffix_of_not_mem _ (not_mem_takeWhile _)
          · rw [rfcLoop_eq_pureLoop_slash _ _ _ g1 g2 (Nat.le_refl _)
              (by rw [hdw]; omega) (by rw [hdw]; omega) (Or.inr (by rw [ht]; rfl))]
            congr 1
            rw [ht] at hsplit ⊢
            rw [hsplit]
            exact if_congr (suffix_append_slash _ _).symm rfl rfl

/-! ### The loops end before their bounds -/

/-- The bound on the passes of the loop of the RFC is not reached: a larger
one gives the same result. -/
theorem rfcLoop_fuel :
    ∀ (n : Nat) (inp out : List Char) (f1 f2 : Nat), inp.length ≤ n → inp.length ≤ f1 →
      inp.length ≤ f2 → rfcLoop f1 inp out = rfcLoop f2 inp out := by
  intro n
  induction n with
  | zero =>
    intro inp out f1 f2 hn _ _
    have : inp = [] := List.length_eq_zero.mp (Nat.le_zero.mp hn)
    subst this
    rw [rfcLoop_nil, rfcLoop_nil]
  | succ n ih =>
    intro inp out f1 f2 hn h1 h2
    by_cases hne : inp = []
    · subst hne
      rw [rfcLoop_nil, rfcLoop_nil]
    · have hpos : 0 < inp.length := List.length_pos.mpr hne
      obtain ⟨g1, rfl⟩ : ∃ g1, f1 = g1 + 1 := ⟨f1 - 1, by omega⟩
      obtain ⟨g2, rfl⟩ : ∃ g2, f2 = g2 + 1 := ⟨f2 - 1, by omega⟩
      have hlt := rfcStep_length_lt inp out hne
      rw [rfcLoop, rfcLoop, if_neg hne, if_neg hne]
      exact ih _ _ g1 g2 (by omega) (by omega) (by omega)

/-- The same for the loop of the source. -/
theorem pureLoop_fuel :
    ∀ (n : Nat) (inp out : List Char) (f1 f2 : Nat), inp.length ≤ n → inp.length ≤ f1 →
      inp.length ≤ f2 → pureLoop f1 inp out = pureLoop f2 inp out := by
  intro n
  induction n with
  | zero =>
    intro inp out f1 f2 hn _ _
    have : inp = [] := List.length_eq_zero.mp (Nat.le_zero.mp hn)
    subst this
    rw [pureLoop_nil, pureLoop_nil]
  | succ n ih =>
    intro inp out f1 f2 hn h1 h2
    by_cases hne : inp = []
    · subst hne
      rw [pureLoop_nil, pureLoop_nil]
    · have hpos : 0 < inp.length := List.length_pos.mpr hne
      obtain ⟨g1, rfl⟩ : ∃ g1, f1 = g1 + 1 := ⟨f1 - 1, by omega⟩
      obtain ⟨g2, rfl⟩ : ∃ g2, f2 = g2 + 1 := ⟨f2 - 1, by omega⟩
      have hlt := pureStep_length_lt inp out hne
      rw [pureLoop, pureLoop, if_neg hne, if_neg hne]
      exact ih _ _ g1 g2 (by omega) (by omega) (by omega)

/-! ## Paths without dot segments -/

theorem not_noDotSegments_dot_slash (r : List Char) : ¬ NoDotSegments ('.' :: '/' :: r) := by
  intro h
  have e : '.' :: '/' :: r = ".".toList ++ '/' :: r := rfl
  rw [e, noDotSegments_append_slash] at h
  exact absurd h.1 (by decide)

theorem not_noDotSegments_dotdot_slash (r : List Char) :
    ¬ NoDotSegments ('.' :: '.' :: '/' :: r) := by
  intro h
  have e : '.' :: '.' :: '/' :: r = "..".toList ++ '/' :: r := rfl
  rw [e, noDotSegments_append_slash] at h
  exact absurd h.1 (by decide)

theorem noDotSegments_of_slash_cons (r : List Char) (h : NoDotSegments ('/' :: r)) :
    NoDotSegments r := by
  have e : '/' :: r = [] ++ '/' :: r := rfl
  rw [e, noDotSegments_append_slash] at h
  exact h.2

theorem noDotSegments_slash_cons (r : List Char) (h : NoDotSegments r) :
    NoDotSegments ('/' :: r) := by
  have e : '/' :: r = [] ++ '/' :: r := rfl
  rw [e, noDotSegments_append_slash]
  exact ⟨noDotSegments_nil, h⟩

/-- From an input that starts with `/` and has no dot segment, the loop copies
the input to the output. -/
theorem pureLoop_of_noDotSegments_slash :
    ∀ (n : Nat) (inp out : List Char) (f : Nat), inp.length ≤ n → inp.length ≤ f →
      (inp = [] ∨ inp.head? = some '/') → NoDotSegments inp →
      pureLoop f inp out = out ++ inp := by
  intro n
  induction n with
  | zero =>
    intro inp out f hn _ _ _
    have : inp = [] := List.length_eq_zero.mp (Nat.le_zero.mp hn)
    subst this
    rw [pureLoop_nil, List.append_nil]
  | succ n ih =>
    intro inp out f hn hf hph hnd
    rcases hph with h0 | hh
    · subst h0
      rw [pureLoop_nil, List.append_nil]
    obtain ⟨rest, rfl⟩ : ∃ rest, inp = '/' :: rest := by
      cases inp with
      | nil => simp at hh
      | cons c r =>
        simp only [List.head?_cons, Option.some.injEq] at hh
        exact ⟨r, by rw [hh]⟩
    simp only [List.length_cons] at hn hf
    obtain ⟨g, rfl⟩ : ∃ g, f = g + 1 := ⟨f - 1, by omega⟩
    have hrest := noDotSegments_of_slash_cons rest hnd
    have c1 : ¬ "../".toList.isPrefixOf ('/' :: rest) = true := by simp [List.isPrefixOf]
    have c2 : ¬ "./".toList.isPrefixOf ('/' :: rest) = true := by simp [List.isPrefixOf]
    have c3 : ¬ "/./".toList.isPrefixOf ('/' :: rest) = true := by
      intro h
      obtain ⟨r, hr⟩ := List.isPrefixOf_iff_prefix.mp h
      have e : rest = '.' :: '/' :: r := (List.cons.inj hr).2.symm
      rw [e] at hrest
      exact not_noDotSegments_dot_slash r hrest
    have c4 : ¬ '/' :: rest = "/.".toList := by
      intro h
      have e : rest = ".".toList := (List.cons.inj h).2
      rw [e] at hrest
      exact absurd hrest (by decide)
    have c5 : ¬ "/../".toList.isPrefixOf ('/' :: rest) = true := by
      intro h
      obtain ⟨r, hr⟩ := List.isPrefixOf_iff_prefix.mp h
      have e : rest = '.' :: '.' :: '/' :: r := (List.cons.inj hr).2.symm
      rw [e] at hrest
      exact not_noDotSegments_dotdot_slash r hrest
    have c6 : ¬ '/' :: rest = "/..".toList := by
      intro h
      have e : rest = "..".toList := (List.cons.inj h).2
      rw [e] at hrest
      exact absurd hrest (by decide)
    have c7 : ¬ ('/' :: rest).all (· == '.') = true := by simp
    rw [pureLoop, if_neg (by simp)]
    unfold pureStep
    rw [if_neg c1, if_neg c2, if_neg c3, if_neg c4, if_neg c5, if_neg c6, if_neg c7, if_pos hh]
    have ed1 : ('/' :: rest).drop 1 = rest := rfl
    simp only [ed1]
    have hdl := length_dropWhile_le rest
    have hsplit := List.takeWhile_append_dropWhile (· != '/') rest
    have hnd' : NoDotSegments (rest.dropWhile (· != '/')) := by
      rcases dropWhile_cases rest with h0 | ⟨r, hr⟩
      · rw [h0]; exact noDotSegments_nil
      · rw [hr]
        rw [hr] at hsplit
        rw [← hsplit, noDotSegments_append_slash] at hrest
        exact noDotSegments_slash_cons r hrest.2
    have hph' : rest.dropWhile (· != '/') = [] ∨ (rest.dropWhile (· != '/')).head? = some '/' := by
      rcases dropWhile_cases rest with h0 | ⟨r, hr⟩
      · exact Or.inl h0
      · exact Or.inr (by rw [hr]; rfl)
    rw [ih _ _ g (by omega) (by omega) hph' hnd', List.append_assoc, List.cons_append, hsplit]

/-- A path without dot segments that is not a run of three or more dots is
returned unchanged. -/
theorem removeDotSegments_of_noDotSegments (p : List Char) (h1 : NoDotSegments p)
    (h2 : ¬ (3 ≤ p.length ∧ p.all (· == '.') = true)) : removeDotSegmentsFromString p = p := by
  rw [removeDotSegmentsFromString_eq]
  cases hp : p with
  | nil => rfl
  | cons c r =>
    by_cases hc : c = '/'
    · subst hc
      rw [← hp]
      exact pureLoop_of_noDotSegments_slash _ _ _ _ (Nat.le_refl _) (Nat.le_refl _)
        (Or.inr (by rw [hp]; rfl)) h1
    · rw [hp] at h1 h2
      have c1 : ¬ "../".toList.isPrefixOf (c :: r) = true := by
        intro h
        obtain ⟨t, ht⟩ := List.isPrefixOf_iff_prefix.mp h
        rw [← ht] at h1
        exact not_noDotSegments_dotdot_slash t h1
      have c2 : ¬ "./".toList.isPrefixOf (c :: r) = true := by
        intro h
        obtain ⟨t, ht⟩ := List.isPrefixOf_iff_prefix.mp h
        rw [← ht] at h1
        exact not_noDotSegments_dot_slash t h1
      have c3 : ¬ "/./".toList.isPrefixOf (c :: r) = true := by
        simp only [String.toList, List.isPrefixOf, Bool.and_eq_true, beq_iff_eq, not_and]
        intro h; exact absurd h.symm hc
      have c4 : ¬ c :: r = "/.".toList := fun h => hc (List.cons.inj h).1
      have c5 : ¬ "/../".toList.isPrefixOf (c :: r) = true := by
        simp only [String.toList, List.isPrefixOf, Bool.and_eq_true, beq_iff_eq, not_and]
        intro h; exact absurd h.symm hc
      have c6 : ¬ c :: r = "/..".toList := fun h => hc (List.cons.inj h).1
      have c7 : ¬ (c :: r).all (· == '.') = true := by
        intro hall
        have hlen : (c :: r).length < 3 := by
          by_contra hge
          exact h2 ⟨by omega, hall⟩
        simp only [List.all_cons, Bool.and_eq_true, beq_iff_eq] at hall
        cases r with
        | nil => rw [hall.1] at h1; exact absurd h1 (by decide)
        | cons d r =>
          cases r with
          | nil =>
            simp only [List.all_cons, Bool.and_eq_true, beq_iff_eq] at hall
            rw [hall.1, hall.2.1] at h1
            exact absurd h1 (by decide)
          | cons e r => simp at hlen; omega
      have c8 : ¬ (c :: r).head? = some '/' := by
        simp only [List.head?_cons, Option.some.injEq]; exact hc
      rw [List.length_cons, pureLoop, if_neg (by simp)]
      unfold pureStep
      rw [if_neg c1, if_neg c2, if_neg c3, if_neg c4, if_neg c5, if_neg c6, if_neg c7, if_neg c8]
      simp only [List.nil_append]
      have hdl := length_dropWhile_le r
      have hdw := dropWhile_of_head_ne c r hc
      have hsplit := List.takeWhile_append_dropWhile (· != '/') (c :: r)
      have hnd' : NoDotSegments ((c :: r).dropWhile (· != '/')) := by
        rcases dropWhile_cases (c :: r) with h0 | ⟨t, ht⟩
        · rw [h0]; exact noDotSegments_nil
        · rw [ht]
          rw [ht] at hsplit
          rw [← hsplit, noDotSegments_append_slash] at h1
          exact noDotSegments_slash_cons t h1.2
      have hph' : (c :: r).dropWhile (· != '/') = [] ∨
          ((c :: r).dropWhile (· != '/')).head? = some '/' := by
        rcases dropWhile_cases (c :: r) with h0 | ⟨t, ht⟩
        · exact Or.inl h0
        · exact Or.inr (by rw [ht]; rfl)
      rw [pureLoop_of_noDotSegments_slash _ _ _ _ (Nat.le_refl _) (by rw [hdw]; omega) hph' hnd',
        hsplit]

/-- Removing dot segments a second time changes nothing, unless the first
result is a run of three or more dots. -/
theorem removeDotSegments_idempotent_of_not_dots (p : List Char)
    (h : ¬ (3 ≤ (removeDotSegmentsFromString p).length ∧
        (removeDotSegmentsFromString p).all (· == '.') = true)) :
    removeDotSegmentsFromString (removeDotSegmentsFromString p) = removeDotSegmentsFromString p := by
  apply removeDotSegments_of_noDotSegments _ _ h
  rw [removeDotSegmentsFromString_eq]
  exact pureLoop_noDotSegments _ _ _ (pureInv_start p)

/-! ## Claims about dot-segment removal -/

/-- Claim C8: no segment of `removeDotSegmentsFromString p` is `.` or `..`, and
so the path of `u.standardized` has no such segment for every URL `u` that a
caller can obtain and that is not a data URI. -/
theorem removeDotSegments_noDotSegments :
    (∀ p : List Char, NoDotSegments (removeDotSegmentsFromString p)) ∧
    (∀ u : Url, Constructible u → u.hasDataScheme = false → NoDotSegments u.standardized.path) := by
  have hp : ∀ p : List Char, NoDotSegments (removeDotSegmentsFromString p) := by
    intro p
    rw [removeDotSegmentsFromString_eq]
    exact pureLoop_noDotSegments _ _ _ (pureInv_start p)
  have hs : ∀ s, (Url.ofString s).hasDataScheme = false →
      NoDotSegments (Url.ofString s).standardized.path := by
    intro s hd
    have hw := (ofString_within s).2.2.1
    have hw' : (Url.ofString s).m_parts.path.within (Url.ofString s).m_string.length := by
      rw [ofString_m_string s]; exact hw
    rw [standardized_path _ (ofString_isStandardized s) hd hw']
    exact hp _
  refine ⟨hp, ?_⟩
  intro u hc hd
  obtain ⟨s, h | h⟩ := constructible_cases u hc
  · rw [h] at hd ⊢
    exact hs s hd
  · by_cases hd' : (Url.ofString s).hasDataScheme = true
    · rw [standardized_of_hasDataScheme _ hd'] at h
      rw [h] at hd
      rw [hd'] at hd
      exact absurd hd (by decide)
    · rw [Bool.not_eq_true] at hd'
      rw [h, standardized_of_isStandardized _ (ofString_standardized_flags s hd').1]
      exact hs s hd'

theorem removeDotSegments_noDotSegments_witness :
    Constructible (Url.ofString "http://a/b/./c/../d/..".toList) ∧
      (Url.ofString "http://a/b/./c/../d/..".toList).hasDataScheme = false ∧
      NoDotSegments (removeDotSegmentsFromString "/b/./c/../d/..".toList) ∧
      NoDotSegments (Url.ofString "http://a/b/./c/../d/..".toList).standardized.path :=
  ⟨Constructible.ofString _, by decide, removeDotSegments_noDotSegments.1 _,
    removeDotSegments_noDotSegments.2 _ (Constructible.ofString _) (by decide)⟩

/-- The path `a/b/../../..` of the unit tests: the source returns the empty
path, as the test expects, and the algorithm of the RFC returns `/`. -/
theorem rfc_ne_removeDotSegments_counterexample :
    removeDotSegmentsFromString "a/b/../../..".toList = [] ∧
      rfcRemoveDotSegments "a/b/../../..".toList = "/".toList ∧
      ¬ (removeDotSegmentsFromString "a/b/../../..".toList =
          rfcRemoveDotSegments "a/b/../../..".toList) := by
  decide

/-- Claim C7, amended: let `q` be the path `p` without the `../` and `./` it
starts with. Unless `q` is a run of three or more dots, the algorithm of
RFC 3986, section 5.2.4, returns what `removeDotSegmentsFromString p` returns,
followed by a `/` when `q` ends with `/..`: for a final `/..` the source removes
the last segment and writes no `/` in its place. -/
theorem rfc_eq_removeDotSegments (p : List Char)
    (h : ¬ (3 ≤ (stripDotPrefixes p).length ∧ (stripDotPrefixes p).all (· == '.') = true)) :
    rfcRemoveDotSegments p =
      removeDotSegmentsFromString p ++
        (if "/..".toList <:+ stripDotPrefixes p then "/".toList else []) := by
  rw [removeDotSegmentsFromString_eq]
  exact rfcLoop_eq_pureLoop p _ _ (Nat.le_refl _) (Nat.le_refl _) h

theorem rfc_eq_removeDotSegments_witness :
    ¬ (3 ≤ (stripDotPrefixes "./a/b/../c/../d/./e/..".toList).length ∧
        (stripDotPrefixes "./a/b/../c/../d/./e/..".toList).all (· == '.') = true) ∧
      rfcRemoveDotSegments "./a/b/../c/../d/./e/..".toList =
        removeDotSegmentsFromString "./a/b/../c/../d/./e/..".toList ++
          (if "/..".toList <:+ stripDotPrefixes "./a/b/../c/../d/./e/..".toList then "/".toList
            else []) :=
  ⟨by decide, rfc_eq_removeDotSegments "./a/b/../c/../d/./e/..".toList (by decide)⟩

/-- Claim C9 at the path `...`: none of its segments is `.` or `..`, and the
source returns the empty path for it. -/
theorem removeDotSegments_three_dots :
    NoDotSegments "...".toList ∧ removeDotSegmentsFromString "...".toList = [] ∧
      removeDotSegmentsFromString "...".toList ≠ "...".toList := by
  decide

/-- Claim C10 at the path `.../x/..`: the source returns `...` for it, and the
empty path for `...`. -/
theorem removeDotSegments_twice :
    removeDotSegmentsFromString ".../x/..".toList = "...".toList ∧
      removeDotSegmentsFromString (removeDotSegmentsFromString ".../x/..".toList) = [] ∧
      removeDotSegmentsFromString (removeDotSegmentsFromString ".../x/..".toList) ≠
        removeDotSegmentsFromString ".../x/..".toList := by
  decide

/-! ### The standardized URL in closed form -/

theorem take_eq_take_append_window (l : List Char) (b n : Nat) (h : b ≤ n) :
    l.take n = l.take b ++ window l b n := by
  unfold window
  have : n = b + (n - b) := by omega
  conv => lhs; rw [this, List.take_add]

theorem eq_take_append_window_append_drop (l : List Char) (b e : Nat) (h : b ≤ e) :
    l = l.take b ++ window l b e ++ l.drop e := by
  rw [← take_eq_take_append_window l b e h, List.take_append_drop]

/-- What `standardized` returns for a URL that is neither standardized nor a
data URI and whose later ranges start after the path: the path is replaced with
the result of `removeDotSegmentsFromString`, which is not longer, and the later
ranges are moved left by the number of characters removed. -/
theorem standardized_eq (u : Url) (h1 : u.isStandardized = false) (h2 : u.hasDataScheme = false)
    (hr : u.m_parts.path.within u.m_string.length) :
    (removeDotSegmentsFromString u.path).length ≤ u.m_parts.path.count ∧
    u.standardized =
      { m_string := u.m_string.take u.m_parts.path.start ++ removeDotSegmentsFromString u.path ++
          u.m_string.drop (u.m_parts.path.start + u.m_parts.path.count),
        m_parts :=
          { u.m_parts with
            path := { start := u.m_parts.path.start,
                      count := (removeDotSegmentsFromString u.path).length },
            parameters :=
              { start := if (removeDotSegmentsFromString u.path).length = u.m_parts.path.count
                  then u.m_parts.parameters.start
                  else sizeSub u.m_parts.parameters.start
                    (u.m_parts.path.count - (removeDotSegmentsFromString u.path).length),
                count := u.m_parts.parameters.count },
            query :=
              { start := if (removeDotSegmentsFromString u.path).length = u.m_parts.path.count
                  then u.m_parts.query.start
                  else sizeSub u.m_parts.query.start
                    (u.m_parts.path.count - (removeDotSegmentsFromString u.path).length),
                count := u.m_parts.query.count },
            fragment :=
              { start := if (removeDotSegmentsFromString u.path).length = u.m_parts.path.count
                  then u.m_parts.fragment.start
                  else sizeSub u.m_parts.fragment.start
                    (u.m_parts.path.count - (removeDotSegmentsFromString u.path).length),
                count := u.m_parts.fragment.count } },
        m_flags := u.m_flags ||| IS_STANDARDIZED } := by
  unfold Range.within at hr
  obtain ⟨k1, k2, k3, k4, k5, k6⟩ :=
    removeDotSegmentsFromRange_spec u.m_string u.m_parts.path.start
      (u.m_parts.path.start + u.m_parts.path.count) (Nat.le_add_right _ _) hr
  have hpath : u.path = window u.m_string u.m_parts.path.start
      (u.m_parts.path.start + u.m_parts.path.count) := by
    rw [window_eq_substr]; rfl
  have hlen : u.path.length = u.m_parts.path.count := by
    rw [hpath, length_window _ _ _ hr]; omega
  have hN : removeDotSegmentsFromString u.path =
      window (removeDotSegmentsFromRange u.m_string u.m_parts.path.start
        (u.m_parts.path.start + u.m_parts.path.count)).1 u.m_parts.path.start
        (removeDotSegmentsFromRange u.m_string u.m_parts.path.start
        (u.m_parts.path.start + u.m_parts.path.count)).2 := by
    rw [removeDotSegmentsFromString_eq, hlen, hpath, k3, Nat.add_sub_cancel_left]
  unfold Url.standardized
  rw [h1, h2]
  simp only [Bool.false_eq_true, if_false]
  rw [hN]
  generalize removeDotSegmentsFromRange u.m_string u.m_parts.path.start
        (u.m_parts.path.start + u.m_parts.path.count) = r at *
  have hNl : (window r.1 u.m_parts.path.start r.2).length = r.2 - u.m_parts.path.start :=
    length_window _ _ _ (by omega)
  rw [hNl]
  refine ⟨by omega, ?_⟩
  split
  · rename_i hne
    have hne' : ¬ r.2 - u.m_parts.path.start = u.m_parts.path.count := by omega
    rw [if_neg hne', if_neg hne', if_neg hne']
    rw [sizeSub_of_le k2, sizeSub_of_le (by omega)]
    have e1 : u.m_parts.path.count - (u.m_parts.path.start + u.m_parts.path.count - r.2) =
        r.2 - u.m_parts.path.start := by omega
    have e2 : u.m_parts.path.count - (r.2 - u.m_parts.path.start) =
        u.m_parts.path.start + u.m_parts.path.count - r.2 := by omega
    rw [e1, e2]
    congr 1
    unfold erase
    rw [show u.m_parts.path.start + (r.2 - u.m_parts.path.start) = r.2 by omega,
      show r.2 + (u.m_parts.path.start + u.m_parts.path.count - r.2) =
        u.m_parts.path.start + u.m_parts.path.count by omega,
      take_eq_take_append_window r.1 _ _ k1, k5, k6]
  · rename_i heq
    simp only [ne_eq, Decidable.not_not] at heq
    have heq' : r.2 - u.m_parts.path.start = u.m_parts.path.count := by omega
    rw [if_pos heq', if_pos heq', if_pos heq']
    congr 1
    · have := eq_take_append_window_append_drop r.1 u.m_parts.path.start r.2 k1
      rw [k5] at this
      rw [heq] at this ⊢
      rw [k6] at this
      exact this
    · rw [heq']

/-! ### The order of the ranges of a parsed URL -/

theorem afterScheme_le_pathStartOf (s : List Char) : afterScheme s ≤ pathStartOf s := by
  unfold pathStartOf
  split
  · rename_i h
    have := slashOf_ge s h
    omega
  · exact Nat.le_refl _

theorem schemeOf_within_afterScheme (s : List Char) : (schemeOf s).within (afterScheme s) := by
  unfold schemeOf afterScheme Range.within
  split
  · simp only [sizeSub_zero, Nat.zero_add]; omega
  · exact Nat.le_refl _

/-- In a URL that is not a data URI the scheme and the network location lie
before the path, and the parameters, the query and the fragment start after
it. -/
theorem plainUrl_order (s : List Char) :
    (plainUrl s).m_parts.scheme.within (plainUrl s).m_parts.path.start ∧
    (plainUrl s).m_parts.location.within (plainUrl s).m_parts.path.start ∧
    (plainUrl s).m_parts.path.start + (plainUrl s).m_parts.path.count = semicolonOf s ∧
    semicolonOf s ≤ (plainUrl s).m_parts.parameters.start ∧
    semicolonOf s ≤ (plainUrl s).m_parts.query.start ∧
    semicolonOf s ≤ (plainUrl s).m_parts.fragment.start := by
  have q1 := qmarkOf_le s
  have q2 := qmarkOf_ge s
  have s1 := semicolonOf_le s
  have s2 := semicolonOf_ge s
  have p1 := poundOf_le s
  refine ⟨?_, ?_, ?_, ?_, ?_, ?_⟩
  · have h1 := schemeOf_within_afterScheme s
    have h2 := afterScheme_le_pathStartOf s
    unfold Range.within at h1 ⊢
    show (schemeOf s).start + (schemeOf s).count ≤ pathStartOf s
    omega
  · unfold plainUrl Range.within
    simp only []
    split
    · rename_i h
      simp only []
      have h1 := slashOf_ge s h
      rw [sizeSub_of_le h1]
      unfold pathStartOf
      rw [if_pos h]
      omega
    · exact Nat.zero_le _
  · show pathStartOf s + sizeSub (semicolonOf s) (pathStartOf s) = semicolonOf s
    rw [sizeSub_of_le s2]
    omega
  · show semicolonOf s ≤ min (semicolonOf s + 1) (qmarkOf s)
    omega
  · show semicolonOf s ≤ min (qmarkOf s + 1) (poundOf s)
    omega
  · show semicolonOf s ≤ (fragmentOf s).start
    unfold fragmentOf
    simp only []
    omega

theorem plainUrl_m_string (s : List Char) : (plainUrl s).m_string = s := rfl

theorem ofString_of_not_data (s : List Char) (h : (Url.ofString s).hasDataScheme = false) :
    Url.ofString s = plainUrl s := by
  have hd : ¬ schemeText s = "data".toList := by
    intro hd
    rw [(ofString_hasDataScheme s).mpr hd] at h
    exact absurd h (by decide)
  rw [ofString_eq, if_neg hd]

/-! ### Substrings of the standardized string -/

theorem substr_take (s : List Char) (a n b : Nat) (h : a + n ≤ b) :
    substr (s.take b) a n = substr s a n := by
  unfold substr
  rw [List.drop_take, List.take_take, Nat.min_eq_left (by omega)]

theorem substr_before (s x : List Char) (a n b : Nat) (h : a + n ≤ b) (hb : b ≤ s.length) :
    substr (s.take b ++ x) a n = substr s a n := by
  rw [substr_append_left _ _ _ _ (by rw [List.length_take]; omega), substr_take _ _ _ _ h]

theorem substr_drop (s : List Char) (e k n : Nat) : substr (s.drop e) k n = substr s (e + k) n := by
  unfold substr
  rw [List.drop_drop]

theorem substr_after (s x : List Char) (e st n m : Nat) (he : e ≤ st) (hm : m = x.length + (st - e)) :
    substr (x ++ s.drop e) m n = substr s st n := by
  rw [hm, substr_append_right, substr_drop, show e + (st - e) = st by omega]

/-- The standardized form of a parsed URL that is not a data URI, with the
offsets worked out. -/
theorem ofString_standardized_eq (s : List Char) (h : (Url.ofString s).hasDataScheme = false) :
    (removeDotSegmentsFromString (Url.ofString s).path).length ≤ (Url.ofString s).m_parts.path.count ∧
    (Url.ofString s).standardized =
      { m_string := s.take (Url.ofString s).m_parts.path.start ++
          removeDotSegmentsFromString (Url.ofString s).path ++
          s.drop ((Url.ofString s).m_parts.path.start + (Url.ofString s).m_parts.path.count),
        m_parts :=
          { (Url.ofString s).m_parts with
            path := { start := (Url.ofString s).m_parts.path.start,
                      count := (removeDotSegmentsFromString (Url.ofString s).path).length },
            parameters :=
              { start := (Url.ofString s).m_parts.parameters.start -
                  ((Url.ofString s).m_parts.path.count -
                    (removeDotSegmentsFromString (Url.ofString s).path).length),
                count := (Url.ofString s).m_parts.parameters.count },
            query :=
              { start := (Url.ofString s).m_parts.query.start -
                  ((Url.ofString s).m_parts.path.count -
                    (removeDotSegmentsFromString (Url.ofString s).path).length),
                count := (Url.ofString s).m_parts.query.count },
            fragment :=
              { start := (Url.ofString s).m_parts.fragment.start -
                  ((Url.ofString s).m_parts.path.count -
                    (removeDotSegmentsFromString (Url.ofString s).path).length),
                count := (Url.ofString s).m_parts.fragment.count } },
        m_flags := (Url.ofString s).m_flags ||| IS_STANDARDIZED } := by
  have hw : (Url.ofString s).m_parts.path.within (Url.ofString s).m_string.length := by
    rw [ofString_m_string s]; exact (ofString_within s).2.2.1
  obtain ⟨k1, k2⟩ := standardized_eq _ (ofString_isStandardized s) h hw
  refine ⟨k1, ?_⟩
  rw [k2, ofString_m_string s]
  have hord : (Url.ofString s).m_parts.path.start + (Url.ofString s).m_parts.path.count ≤
        (Url.ofString s).m_parts.parameters.start ∧
      (Url.ofString s).m_parts.path.start + (Url.ofString s).m_parts.path.count ≤
        (Url.ofString s).m_parts.query.start ∧
      (Url.ofString s).m_parts.path.start + (Url.ofString s).m_parts.path.count ≤
        (Url.ofString s).m_parts.fragment.start := by
    rw [ofString_of_not_data s h]
    obtain ⟨_, _, o3, o4, o5, o6⟩ := plainUrl_order s
    rw [o3]
    exact ⟨o4, o5, o6⟩
  have hfix : ∀ st, (Url.ofString s).m_parts.path.start + (Url.ofString s).m_parts.path.count ≤ st →
      (if (removeDotSegmentsFromString (Url.ofString s).path).length =
          (Url.ofString s).m_parts.path.count then st
        else sizeSub st ((Url.ofString s).m_parts.path.count -
          (removeDotSegmentsFromString (Url.ofString s).path).length)) =
      st - ((Url.ofString s).m_parts.path.count -
          (removeDotSegmentsFromString (Url.ofString s).path).length) := by
    intro st hst
    split
    · rename_i heq
      rw [heq, Nat.sub_self, Nat.sub_zero]
    · exact sizeSub_of_le (by omega)
  rw [hfix _ hord.1, hfix _ hord.2.1, hfix _ hord.2.2]

theorem ofString_rangesValid (s : List Char) : (Url.ofString s).rangesValid := by
  unfold Url.rangesValid
  rw [ofString_m_string s]
  exact ofString_within s

theorem ofString_standardized_rangesValid (s : List Char) :
    (Url.ofString s).standardized.rangesValid := by
  by_cases hd : (Url.ofString s).hasDataScheme = true
  · rw [standardized_of_hasDataScheme _ hd]
    exact ofString_rangesValid s
  · rw [Bool.not_eq_true] at hd
    obtain ⟨hN, hst⟩ := ofString_standardized_eq s hd
    obtain ⟨w1, w2, w3, w4, w5, w6, _, _⟩ := ofString_within s
    unfold Range.within at w1 w2 w3 w4 w5 w6
    have hord : (Url.ofString s).m_parts.scheme.within (Url.ofString s).m_parts.path.start ∧
        (Url.ofString s).m_parts.location.within (Url.ofString s).m_parts.path.start ∧
        (Url.ofString s).m_parts.path.start + (Url.ofString s).m_parts.path.count ≤
          (Url.ofString s).m_parts.parameters.start ∧
        (Url.ofString s).m_parts.path.start + (Url.ofString s).m_parts.path.count ≤
          (Url.ofString s).m_parts.query.start ∧
        (Url.ofString s).m_parts.path.start + (Url.ofString s).m_parts.path.count ≤
          (Url.ofString s).m_parts.fragment.start ∧
        (Url.ofString s).m_parts.media = {} ∧ (Url.ofString s).m_parts.data = {} := by
      rw [ofString_of_not_data s hd]
      obtain ⟨o1, o2, o3, o4, o5, o6⟩ := plainUrl_order s
      rw [o3]
      exact ⟨o1, o2, o4, o5, o6, rfl, rfl⟩
    obtain ⟨o1, o2, o4, o5, o6, o7, o8⟩ := hord
    unfold Range.within at o1 o2
    rw [hst]
    unfold Url.rangesValid Range.within
    dsimp only []
    rw [o7, o8]
    have hlen : (s.take (Url.ofString s).m_parts.path.start ++
        removeDotSegmentsFromString (Url.ofString s).path ++
        s.drop ((Url.ofString s).m_parts.path.start + (Url.ofString s).m_parts.path.count)).length =
        (Url.ofString s).m_parts.path.start +
          (removeDotSegmentsFromString (Url.ofString s).path).length +
          (s.length - ((Url.ofString s).m_parts.path.start + (Url.ofString s).m_parts.path.count)) := by
      rw [List.length_append, List.length_append, List.length_take, List.length_drop,
        Nat.min_eq_left (by omega)]
    rw [hlen]
    refine ⟨by omega, by omega, by omega, by omega, by omega, by omega, ?_, ?_⟩
    · show 0 + 0 ≤ _
      omega
    · show 0 + 0 ≤ _
      omega

/-! ### The scheme step -/

theorem ofString_isAbsolute (s : List Char) :
    (Url.ofString s).isAbsolute = true ↔ hasColon s := by
  rw [ofString_eq]
  by_cases hc : hasColon s
  · simp only [hc, iff_true]
    split
    · unfold Url.isAbsolute dataUrl schemeFlags
      simp only []
      rw [if_pos hc]
      split <;> decide
    · unfold Url.isAbsolute plainUrl plainFlags schemeFlags
      simp only []
      rw [if_pos hc]
      split_ifs <;> decide
  · simp only [hc, iff_false]
    split
    · unfold Url.isAbsolute dataUrl schemeFlags
      simp only []
      rw [if_neg hc]
      split <;> decide
    · unfold Url.isAbsolute plainUrl plainFlags schemeFlags
      simp only []
      rw [if_neg hc]
      split_ifs <;> decide

theorem ofString_scheme_range (s : List Char) : (Url.ofString s).m_parts.scheme = schemeOf s := by
  rw [ofString_eq]
  split <;> rfl

theorem ofString_hasScheme (s : List Char) :
    (Url.ofString s).hasScheme = true ↔ (hasColon s ∧ schemeStop s ≠ 0) := by
  unfold Url.hasScheme
  rw [ofString_scheme_range]
  unfold schemeOf
  by_cases hc : hasColon s
  · rw [if_pos hc]
    simp [hc, sizeSub_zero]
  · rw [if_neg hc]
    simp [hc]

/-- The `#` lies after a position up to which there is none. -/
theorem lt_poundOf (s : List Char) (k : Nat) (hk : k < s.length)
    (h : ∀ j, j ≤ k → charAt s j ≠ '#') : k < poundOf s := by
  unfold poundOf
  have hspec := findChar_spec s '#' 0
  cases hf : findChar s '#' 0 with
  | none => exact hk
  | some i =>
    rw [hf] at hspec
    rw [minNpos_some]
    have : k < i := by
      by_contra hle
      exact h i (by omega) hspec.2.2.1
    omega

/-- The scheme loop on a source that starts with scheme characters and a
colon. -/
theorem schemeStop_append_colon (p rest : List Char) (hp : ∀ c ∈ p, isSchemeChar c = true) :
    schemeStop (p ++ ':' :: rest) = p.length ∧ hasColon (p ++ ':' :: rest) := by
  have hat : charAt (p ++ ':' :: rest) p.length = ':' := by
    have := charAt_append_right p (':' :: rest) 0
    rw [Nat.add_zero] at this
    rw [this]
    rfl
  have hpound : p.length < poundOf (p ++ ':' :: rest) := by
    apply lt_poundOf
    · simp
    · intro j hj
      rcases Nat.lt_or_ge j p.length with hlt | hge
      · rw [charAt_append_left _ _ _ hlt]
        exact charAt_ne_of_not_mem (not_mem_of_isSchemeChar hp '#' (by decide)) j hlt
      · have : j = p.length := by omega
        rw [this, hat]
        decide
  have hstop : schemeStop (p ++ ':' :: rest) = p.length := by
    unfold schemeStop
    apply scanScheme_eq
    · exact Nat.zero_le _
    · omega
    · omega
    · intro j _ hj
      rw [charAt_append_left _ _ _ hj]
      exact hp _ (charAt_mem _ _ hj)
    · right
      rw [hat]
      rfl
  refine ⟨hstop, ?_⟩
  unfold hasColon
  rw [hstop]
  exact hat

/-- A source for which the colon test succeeds starts with scheme characters
and a colon. -/
theorem hasColon_decompose (s : List Char) (h : hasColon s) :
    s = s.take (schemeStop s) ++ ':' :: s.drop (schemeStop s + 1) ∧
      ∀ c ∈ s.take (schemeStop s), isSchemeChar c = true := by
  have hlt := schemeStop_lt s h
  have hle := poundOf_le s
  obtain ⟨_, _, k3, _⟩ :=
    scanScheme_spec s (poundOf s) (poundOf s - 0) 0 (Nat.zero_le _) (Nat.le_refl _)
  refine ⟨?_, ?_⟩
  · have h1 : s.drop (schemeStop s) = charAt s (schemeStop s) :: s.drop (schemeStop s + 1) := by
      unfold charAt
      rw [List.getD_eq_getElem _ _ (by omega)]
      exact List.drop_eq_getElem_cons (by omega)
    unfold hasColon at h
    rw [h] at h1
    rw [← h1, List.take_append_drop]
  · intro c hc
    obtain ⟨j, hj, hjc⟩ := List.getElem_of_mem hc
    rw [List.length_take] at hj
    have hj' : j < schemeStop s := by omega
    have : charAt s j = c := by
      unfold charAt
      rw [List.getD_eq_getElem _ _ (by omega), ← hjc, List.getElem_take]
    rw [← this]
    exact k3 j (Nat.zero_le _) hj'

/-! ### The network location step -/

theorem afterScheme_append_colon (p rest : List Char) (hp : ∀ c ∈ p, isSchemeChar c = true) :
    afterScheme (p ++ ':' :: rest) = p.length + 1 := by
  obtain ⟨h1, h2⟩ := schemeStop_append_colon p rest hp
  unfold afterScheme
  rw [if_pos h2, h1]

theorem not_hasColon_of_slash (r : List Char) : ¬ hasColon ('/' :: r) := by
  have hstop : schemeStop ('/' :: r) = 0 := by
    unfold schemeStop
    apply scanScheme_eq
    · exact Nat.le_refl _
    · exact Nat.zero_le _
    · omega
    · intro j h1 h2
      omega
    · right
      rw [charAt_cons_zero]
      decide
  unfold hasColon
  rw [hstop, charAt_cons_zero]
  decide

theorem afterScheme_of_slash (r : List Char) : afterScheme ('/' :: r) = 0 := by
  unfold afterScheme
  rw [if_neg (not_hasColon_of_slash r)]

/-- A source in which two characters are found at a position splits there. -/
theorem substr_two_split {s : List Char} {a : Nat} {c d : Char} (h : substr s a 2 = [c, d]) :
    s = s.take a ++ c :: d :: s.drop (a + 2) := by
  unfold substr at h
  have h1 : s.drop a = (s.drop a).take 2 ++ (s.drop a).drop 2 := (List.take_append_drop _ _).symm
  rw [h, List.drop_drop] at h1
  have h2 : s = s.take a ++ s.drop a := (List.take_append_drop _ _).symm
  rw [h1] at h2
  exact h2

/-- The values the network location step computes on a source in which `//`
stands at the position `afterScheme`, followed by a text `loc` without `/`
and `#`, followed by nothing or by a text that starts with `/` or `#`. -/
theorem location_step (pre loc tail : List Char)
    (ha : afterScheme (pre ++ '/' :: '/' :: (loc ++ tail)) = pre.length)
    (hpre : '#' ∉ pre) (hl1 : '/' ∉ loc) (hl2 : '#' ∉ loc)
    (ht : tail = [] ∨ tail.head? = some '/' ∨ tail.head? = some '#') :
    hasLocation (pre ++ '/' :: '/' :: (loc ++ tail)) = true ∧
    slashOf (pre ++ '/' :: '/' :: (loc ++ tail)) = pre.length + 2 + loc.length ∧
    pre.length + 2 + loc.length ≤ poundOf (pre ++ '/' :: '/' :: (loc ++ tail)) ∧
    (tail.head? ≠ some '/' →
      poundOf (pre ++ '/' :: '/' :: (loc ++ tail)) = pre.length + 2 + loc.length) := by
  have es : pre ++ '/' :: '/' :: (loc ++ tail) = (pre ++ '/' :: '/' :: loc) ++ tail := by simp
  have es2 : pre ++ '/' :: '/' :: (loc ++ tail) = (pre ++ ['/', '/']) ++ (loc ++ tail) := by simp
  have hw : '#' ∉ pre ++ '/' :: '/' :: loc := by
    simp only [List.mem_append, List.mem_cons, not_or]
    exact ⟨hpre, by decide, by decide, hl2⟩
  have hwl : (pre ++ '/' :: '/' :: loc).length = pre.length + 2 + loc.length := by
    simp; omega
  have hloc : hasLocation (pre ++ '/' :: '/' :: (loc ++ tail)) = true := by
    unfold hasLocation
    rw [ha]
    have := substr_append_right pre ('/' :: '/' :: (loc ++ tail)) 0 2
    rw [Nat.add_zero] at this
    rw [this]
    simp [substr]
  -- the position of `#`
  have hpound : pre.length + 2 + loc.length ≤ poundOf (pre ++ '/' :: '/' :: (loc ++ tail)) ∧
      (tail.head? ≠ some '/' →
        poundOf (pre ++ '/' :: '/' :: (loc ++ tail)) = pre.length + 2 + loc.length) := by
    rw [es]
    cases tail with
    | nil =>
      rw [List.append_nil, poundOf_of_not_mem _ hw, hwl]
      exact ⟨Nat.le_refl _, fun _ => rfl⟩
    | cons t ts =>
      by_cases htc : t = '#'
      · subst htc
        unfold poundOf
        rw [findChar_zero_append_cons _ _ _ hw, minNpos_some, hwl]
        have : pre.length + 2 + loc.length ≤ (pre ++ '/' :: '/' :: loc ++ '#' :: ts).length := by
          simp; omega
        rw [Nat.min_eq_left this]
        exact ⟨Nat.le_refl _, fun _ => rfl⟩
      · have htc2 : t = '/' := by
          rcases ht with h | h | h
          · exact absurd h (by simp)
          · simpa using h
          · exact absurd (by simpa using h) htc
        subst htc2
        refine ⟨?_, fun h => absurd rfl h⟩
        have hlt := lt_poundOf ((pre ++ '/' :: '/' :: loc) ++ '/' :: ts)
          (pre ++ '/' :: '/' :: loc).length (by simp) (by
            intro j hj
            rcases Nat.lt_or_ge j (pre ++ '/' :: '/' :: loc).length with hlt | hge
            · rw [charAt_append_left _ _ _ hlt]
              exact charAt_ne_of_not_mem hw j hlt
            · have : j = (pre ++ '/' :: '/' :: loc).length := by omega
              have h0 := charAt_append_right (pre ++ '/' :: '/' :: loc) ('/' :: ts) 0
              rw [Nat.add_zero] at h0
              rw [this, h0, charAt_cons_zero]
              decide)
        omega
  refine ⟨hloc, ?_, hpound.1, hpound.2⟩
  -- the position of the next `/`
  unfold slashOf
  rw [ha]
  have hfind : findChar (pre ++ '/' :: '/' :: (loc ++ tail)) '/' (pre.length + 2) =
      (findChar (loc ++ tail) '/' 0).map (· + (pre.length + 2)) := by
    rw [es2]
    have := findChar_append_right (pre ++ ['/', '/']) (loc ++ tail) '/' 0
    simp only [List.length_append, List.length_cons, List.length_nil, Nat.add_zero] at this
    simpa using this
  rw [hfind]
  by_cases hts : tail.head? = some '/'
  · obtain ⟨ts, rfl⟩ : ∃ ts, tail = '/' :: ts := by
      cases tail with
      | nil => simp at hts
      | cons t ts => exact ⟨ts, by simp at hts; rw [hts]⟩
    rw [findChar_zero_append_cons _ _ _ hl1]
    simp only [Option.map_some', minNpos_some]
    have := hpound.1
    omega
  · rw [hpound.2 hts]
    cases hf : findChar (loc ++ tail) '/' 0 with
    | none => rfl
    | some i =>
      have hspec := findChar_spec (loc ++ tail) '/' 0
      rw [hf] at hspec
      have hi : loc.length ≤ i := by
        by_contra hlt
        have hlt : i < loc.length := by omega
        have h3 := hspec.2.2.1
        rw [charAt_append_left _ _ _ hlt] at h3
        exact charAt_ne_of_not_mem hl1 i hlt h3
      simp only [Option.map_some', minNpos_some]
      omega

/-- The network location and the path of a source as in `location_step`. -/
theorem location_step_url (pre loc tail : List Char)
    (ha : afterScheme (pre ++ '/' :: '/' :: (loc ++ tail)) = pre.length)
    (hpre : '#' ∉ pre) (hl1 : '/' ∉ loc) (hl2 : '#' ∉ loc)
    (ht : tail = [] ∨ tail.head? = some '/' ∨ tail.head? = some '#')
    (hd : (Url.ofString (pre ++ '/' :: '/' :: (loc ++ tail))).hasDataScheme = false) :
    (Url.ofString (pre ++ '/' :: '/' :: (loc ++ tail))).netLocation = loc ∧
    ((Url.ofString (pre ++ '/' :: '/' :: (loc ++ tail))).path = [] ∨
      (Url.ofString (pre ++ '/' :: '/' :: (loc ++ tail))).path.head? = some '/') := by
  obtain ⟨h1, h2, h3, h4⟩ := location_step pre loc tail ha hpre hl1 hl2 ht
  have es2 : pre ++ '/' :: '/' :: (loc ++ tail) = (pre ++ ['/', '/']) ++ (loc ++ tail) := by simp
  have es : pre ++ '/' :: '/' :: (loc ++ tail) = (pre ++ '/' :: '/' :: loc) ++ tail := by simp
  have hwl : (pre ++ '/' :: '/' :: loc).length = pre.length + 2 + loc.length := by
    simp; omega
  rw [ofString_of_not_data _ hd]
  refine ⟨?_, ?_⟩
  · unfold Url.netLocation plainUrl
    simp only []
    rw [if_pos h1]
    simp only []
    rw [h2, ha, sizeSub_of_le (by omega)]
    have e : pre.length + 2 + loc.length - (pre.length + 2) = loc.length := by omega
    rw [e]
    have := substr_append_right (pre ++ ['/', '/']) (loc ++ tail) 0 loc.length
    simp only [List.length_append, List.length_cons, List.length_nil, Nat.add_zero] at this
    rw [es2, this]
    exact substr_zero_append _ _
  · unfold Url.path plainUrl
    simp only []
    have hps : pathStartOf (pre ++ '/' :: '/' :: (loc ++ tail)) = pre.length + 2 + loc.length := by
      unfold pathStartOf
      rw [if_pos h1, h2]
    rw [hps]
    have hsub : ∀ n, substr (pre ++ '/' :: '/' :: (loc ++ tail)) (pre.length + 2 + loc.length) n =
        tail.take n := by
      intro n
      have := substr_append_right (pre ++ '/' :: '/' :: loc) tail 0 n
      rw [hwl, Nat.add_zero] at this
      rw [es, this]
      rfl
    rw [hsub]
    by_cases hts : tail.head? = some '/'
    · cases tail with
      | nil => left; simp
      | cons t ts =>
        cases hn : sizeSub (semicolonOf (pre ++ '/' :: '/' :: (loc ++ t :: ts)))
            (pre.length + 2 + loc.length) with
        | zero => left; rfl
        | succ n => right; simpa using hts
    · left
      have h5 := h4 hts
      have h6 := semicolonOf_le (pre ++ '/' :: '/' :: (loc ++ tail))
      have h7 := qmarkOf_le (pre ++ '/' :: '/' :: (loc ++ tail))
      have h8 := semicolonOf_ge (pre ++ '/' :: '/' :: (loc ++ tail))
      rw [hps] at h8
      have h9 : semicolonOf (pre ++ '/' :: '/' :: (loc ++ tail)) = pre.length + 2 + loc.length := by
        omega
      rw [h9, sizeSub_self]
      rfl

/-- A source without `//` at the position `afterScheme` has no network
location. -/
theorem hasNetLocation_of_not_hasLocation (s : List Char) (h : hasLocation s = false) :
    (Url.ofString s).hasNetLocation = false := by
  rw [ofString_eq]
  split
  · rfl
  · unfold Url.hasNetLocation plainUrl
    simp only []
    rw [h]
    rfl

/-- A source that starts with scheme characters and a colon passes the colon
test. -/
theorem hasColon_of_split (s : List Char)
    (h : ∃ p rest : List Char, s = p ++ ":".toList ++ rest ∧ ∀ c ∈ p, isSchemeChar c = true) :
    hasColon s := by
  obtain ⟨p, rest, h1, h2⟩ := h
  have e : p ++ ":".toList ++ rest = p ++ ':' :: rest := by simp
  rw [h1, e]
  exact (schemeStop_append_colon p rest h2).2

/-! ### A segment and the `..` after it -/

theorem takeWhile_append_slash (p t : List Char) :
    (p ++ '/' :: t).takeWhile (· != '/') = p.takeWhile (· != '/') := by
  induction p with
  | nil => simp
  | cons c p ih =>
    by_cases hc : c = '/'
    · subst hc; simp
    · simp only [List.cons_append]
      rw [List.takeWhile_cons, List.takeWhile_cons, ih]

theorem dropWhile_append_slash (p t : List Char) :
    (p ++ '/' :: t).dropWhile (· != '/') = p.dropWhile (· != '/') ++ '/' :: t := by
  induction p with
  | nil => simp
  | cons c p ih =>
    by_cases hc : c = '/'
    · subst hc; simp
    · simp only [List.cons_append]
      rw [List.dropWhile_cons, List.dropWhile_cons, ih]
      split <;> rfl

/-- One pass of the loop on an input whose first two characters are not dots:
the segment is copied. -/
theorem pureStep_copy (c d : Char) (rest outp : List Char) (hc : c ≠ '.') (hd : d ≠ '.') :
    pureStep (c :: d :: rest) outp =
      if c = '/' then ((d :: rest).dropWhile (· != '/'),
        outp ++ '/' :: (d :: rest).takeWhile (· != '/'))
      else ((c :: d :: rest).dropWhile (· != '/'),
        outp ++ (c :: d :: rest).takeWhile (· != '/')) := by
  have hc' : ¬ '.' = c := fun h => hc h.symm
  have hd' : ¬ '.' = d := fun h => hd h.symm
  have c1 : ¬ "../".toList.isPrefixOf (c :: d :: rest) = true := by
    simp [List.isPrefixOf, hc']
  have c2 : ¬ "./".toList.isPrefixOf (c :: d :: rest) = true := by
    simp [List.isPrefixOf, hc']
  have c3 : ¬ "/./".toList.isPrefixOf (c :: d :: rest) = true := by
    simp [List.isPrefixOf, hd']
  have c4 : ¬ c :: d :: rest = "/.".toList := by
    intro h
    exact hd (List.cons.inj (List.cons.inj h).2).1
  have c5 : ¬ "/../".toList.isPrefixOf (c :: d :: rest) = true := by
    simp [List.isPrefixOf, hd']
  have c6 : ¬ c :: d :: rest = "/..".toList := by
    intro h
    exact hd (List.cons.inj (List.cons.inj h).2).1
  have c7 : ¬ (c :: d :: rest).all (· == '.') = true := by simp [hc]
  unfold pureStep
  rw [if_neg c1, if_neg c2, if_neg c3, if_neg c4, if_neg c5, if_neg c6, if_neg c7]
  by_cases h : c = '/'
  · subst h
    simp
  · simp [h]

/-- The loop copies a text without dots that stands before a `/`. -/
theorem pureLoop_copy :
    ∀ (n : Nat) (p t out : List Char) (f g : Nat), p.length ≤ n → '.' ∉ p →
      (p ++ '/' :: t).length ≤ f → ('/' :: t).length ≤ g →
      pureLoop f (p ++ '/' :: t) out = pureLoop g ('/' :: t) (out ++ p) := by
  intro n
  induction n with
  | zero =>
    intro p t out f g hn _ hf hg
    have : p = [] := List.length_eq_zero.mp (Nat.le_zero.mp hn)
    subst this
    rw [List.nil_append, List.append_nil]
    exact pureLoop_fuel _ _ _ _ _ (Nat.le_refl _) (by simpa using hf) hg
  | succ n ih =>
    intro p t out f g hn hp hf hg
    cases p with
    | nil =>
      rw [List.nil_append, List.append_nil]
      exact pureLoop_fuel _ _ _ _ _ (Nat.le_refl _) (by simpa using hf) hg
    | cons c p =>
      have hc : c ≠ '.' := fun h => hp (by rw [h]; exact List.mem_cons_self _ _)
      have hp2 : '.' ∉ p := fun h => hp (List.mem_cons_of_mem _ h)
      obtain ⟨d, rest, hd, hrest⟩ : ∃ d rest, d ≠ '.' ∧ p ++ '/' :: t = d :: rest := by
        cases p with
        | nil => exact ⟨'/', t, by decide, rfl⟩
        | cons d p2 =>
          exact ⟨d, p2 ++ '/' :: t,
            fun h => hp2 (by rw [h]; exact List.mem_cons_self _ _), rfl⟩
      simp only [List.length_cons, List.length_append] at hn hf hg
      obtain ⟨f1, rfl⟩ : ∃ f1, f = f1 + 1 := ⟨f - 1, by omega⟩
      rw [pureLoop, if_neg (by simp), List.cons_append, hrest, pureStep_copy c d rest out hc hd,
        ← hrest]
      have hsplit := List.takeWhile_append_dropWhile (· != '/') p
      have hdl := length_dropWhile_le p
      have hmem : '.' ∉ p.dropWhile (· != '/') := fun h =>
        hp2 ((List.dropWhile_sublist _).subset h)
      by_cases hcs : c = '/'
      · subst hcs
        rw [if_pos rfl]
        simp only []
        rw [takeWhile_append_slash, dropWhile_append_slash,
          ih _ t _ f1 g (by omega) hmem (by simp; omega) (by simpa using hg)]
        rw [List.append_assoc, List.cons_append, hsplit]
      · rw [if_neg hcs]
        simp only []
        have e : c :: (p ++ '/' :: t) = (c :: p) ++ '/' :: t := rfl
        have hcb : (c != '/') = true := by simpa using hcs
        rw [e, takeWhile_append_slash, dropWhile_append_slash,
          List.takeWhile_cons, List.dropWhile_cons, hcb]
        simp only [if_true]
        rw [ih _ t _ f1 g (by omega) hmem (by simp; omega) (by simpa using hg)]
        rw [List.append_assoc, List.cons_append, hsplit]

/-- The output with its last segment removed, when that segment follows a
text `p`. -/
theorem cutLast_segment (p x : List Char) (hx : '/' ∉ x) : cutLast (p ++ '/' :: x) = p := by
  cases p with
  | nil => exact cutLast_cons_of_not_mem _ _ hx
  | cons c p => exact cutLast_append_slash _ _ (by simp) hx

/-! ### Bounds of the cursors and of the accesses -/

theorem rangeStartsWith_bound (buf : List Char) (e : Nat) :
    ∀ (pat : List Char) (b : Nat), b ≤ e → rangeStartsWith buf b e pat = true →
      b + pat.length ≤ e := by
  intro pat
  induction pat with
  | nil => intro b hb _; exact hb
  | cons p ps ih =>
    intro b _ h
    rw [rangeStartsWith] at h
    split at h
    · rename_i hc
      have := ih (b + 1) (by omega) h
      simp only [List.length_cons]
      omega
    · exact absurd h (by decide)

theorem rangeEquals_bound (buf : List Char) (e : Nat) :
    ∀ (pat : List Char) (b : Nat), rangeEquals buf b e pat = true → b + pat.length = e := by
  intro pat
  induction pat with
  | nil =>
    intro b h
    rw [rangeEquals] at h
    simpa using h
  | cons p ps ih =>
    intro b h
    rw [rangeEquals] at h
    split at h
    · have := ih (b + 1) h
      simp only [List.length_cons]
      omega
    · exact absurd h (by decide)

theorem rangeStartsWithAccesses_bound (buf : List Char) (e : Nat) :
    ∀ (pat : List Char) (b : Nat), ∀ a ∈ rangeStartsWithAccesses buf b e pat,
      b ≤ a.index ∧ a.index < e := by
  intro pat
  induction pat with
  | nil => intro b a ha; simp [rangeStartsWithAccesses] at ha
  | cons p ps ih =>
    intro b a ha
    rw [rangeStartsWithAccesses] at ha
    split at ha
    · rename_i hlt
      rcases List.mem_cons.mp ha with h | h
      · subst h
        exact ⟨Nat.le_refl _, hlt⟩
      · split at h
        · have := ih (b + 1) a h
          omega
        · simp at h
    · simp at ha

theorem rangeEqualsAccesses_bound (buf : List Char) (e : Nat) :
    ∀ (pat : List Char) (b : Nat), ∀ a ∈ rangeEqualsAccesses buf b e pat,
      b ≤ a.index ∧ a.index < e := by
  intro pat
  induction pat with
  | nil => intro b a ha; simp [rangeEqualsAccesses] at ha
  | cons p ps ih =>
    intro b a ha
    rw [rangeEqualsAccesses] at ha
    split at ha
    · rename_i hlt
      rcases List.mem_cons.mp ha with h | h
      · subst h
        exact ⟨Nat.le_refl _, hlt⟩
      · split at h
        · have := ih (b + 1) a h
          omega
        · simp at h
    · simp at ha

theorem rangeIsAllLoopAccesses_bound (buf : List Char) (e : Nat) (value : Char) :
    ∀ (fuel b : Nat), ∀ a ∈ rangeIsAllLoopAccesses buf e value fuel b,
      b ≤ a.index ∧ a.index < e := by
  intro fuel
  induction fuel with
  | zero =>
    intro b a ha
    rw [rangeIsAllLoopAccesses] at ha
    split at ha
    · rename_i hlt
      rw [List.mem_singleton] at ha
      subst ha
      exact ⟨Nat.le_refl _, hlt⟩
    · simp at ha
  | succ fuel ih =>
    intro b a ha
    rw [rangeIsAllLoopAccesses] at ha
    split at ha
    · rename_i hlt
      rcases List.mem_cons.mp ha with h | h
      · subst h
        exact ⟨Nat.le_refl _, hlt⟩
      · split at h
        · have := ih (b + 1) a h
          omega
        · simp at h
    · simp at ha

theorem removeLastSegmentLoop_bound (buf : List Char) (b : Nat) :
    ∀ (fuel pos : Nat), b ≤ pos →
      b ≤ removeLastSegmentLoop buf b fuel pos ∧ removeLastSegmentLoop buf b fuel pos ≤ pos := by
  intro fuel
  induction fuel with
  | zero => intro pos h; exact ⟨h, Nat.le_refl _⟩
  | succ fuel ih =>
    intro pos h
    rw [removeLastSegmentLoop]
    split
    · rename_i hc
      have := ih (pos - 1) (by omega)
      omega
    · exact ⟨h, Nat.le_refl _⟩

theorem removeLastSegmentFromRange_bound (buf : List Char) (b e : Nat) (h : b ≤ e) :
    b ≤ removeLastSegmentFromRange buf b e ∧ removeLastSegmentFromRange buf b e ≤ e := by
  unfold removeLastSegmentFromRange
  split
  · exact ⟨Nat.le_refl _, h⟩
  · have := removeLastSegmentLoop_bound buf b (e - 1 - b) (e - 1) (by omega)
    omega

theorem removeLastSegmentLoopAccesses_bound (buf : List Char) (b : Nat) :
    ∀ (fuel pos : Nat), ∀ a ∈ removeLastSegmentLoopAccesses buf b fuel pos,
      b ≤ a.index ∧ a.index ≤ pos := by
  intro fuel
  induction fuel with
  | zero =>
    intro pos a ha
    rw [removeLastSegmentLoopAccesses] at ha
    split at ha
    · rename_i hlt
      rw [List.mem_singleton] at ha
      subst ha
      exact ⟨Nat.le_of_lt hlt, Nat.le_refl _⟩
    · simp at ha
  | succ fuel ih =>
    intro pos a ha
    rw [removeLastSegmentLoopAccesses] at ha
    split at ha
    · rename_i hlt
      rcases List.mem_cons.mp ha with h | h
      · subst h
        exact ⟨Nat.le_of_lt hlt, Nat.le_refl _⟩
      · split at h
        · have := ih (pos - 1) a h
          omega
        · simp at h
    · simp at ha

theorem removeLastSegmentFromRangeAccesses_bound (buf : List Char) (b e : Nat) :
    ∀ a ∈ removeLastSegmentFromRangeAccesses buf b e, b ≤ a.index ∧ a.index < e := by
  intro a ha
  unfold removeLastSegmentFromRangeAccesses at ha
  split at ha
  · simp at ha
  · have := removeLastSegmentLoopAccesses_bound buf b _ _ a ha
    omega

theorem copyChar_ok (b e : Nat) (st : Cursors) (h : CursorsOk b e st) (hlt : st.pos < e) :
    CursorsOk b e (copyChar st) := by
  obtain ⟨h1, h2, h3⟩ := h
  exact ⟨by unfold copyChar; dsimp only; omega, by unfold copyChar; dsimp only; omega,
    by unfold copyChar; dsimp only; omega⟩

theorem copySegmentLoop_ok (b e : Nat) :
    ∀ (fuel : Nat) (st : Cursors), CursorsOk b e st →
      CursorsOk b e (copySegmentLoop e fuel st) ∧ st.pos ≤ (copySegmentLoop e fuel st).pos := by
  intro fuel
  induction fuel with
  | zero => intro st h; exact ⟨h, Nat.le_refl _⟩
  | succ fuel ih =>
    intro st h
    rw [copySegmentLoop]
    split
    · rename_i hc
      have := ih (copyChar st) (copyChar_ok b e st h hc.1)
      refine ⟨this.1, ?_⟩
      have h2 : (copyChar st).pos = st.pos + 1 := rfl
      omega
    · exact ⟨h, Nat.le_refl _⟩

/-- With some fuel, the copying loop moves the read cursor when it stands on a
character other than `/`. -/
theorem copySegmentLoop_pos_lt (e : Nat) (fuel : Nat) (st : Cursors) (hlt : st.pos < e)
    (hc : charAt st.buf st.pos ≠ '/') (hf : 0 < fuel) (b : Nat) (h : CursorsOk b e st) :
    st.pos < (copySegmentLoop e fuel st).pos := by
  obtain ⟨g, rfl⟩ : ∃ g, fuel = g + 1 := ⟨fuel - 1, by omega⟩
  rw [copySegmentLoop, if_pos ⟨hlt, hc⟩]
  have := (copySegmentLoop_ok b e g (copyChar st) (copyChar_ok b e st h hlt)).2
  have h2 : (copyChar st).pos = st.pos + 1 := rfl
  omega

theorem copySegmentLoopAccesses_bound (b e : Nat) :
    ∀ (fuel : Nat) (st : Cursors), CursorsOk b e st →
      ∀ a ∈ copySegmentLoopAccesses e fuel st, b ≤ a.index ∧ a.index < e := by
  intro fuel
  induction fuel with
  | zero =>
    intro st h a ha
    rw [copySegmentLoopAccesses] at ha
    split at ha
    · rename_i hlt
      rw [List.mem_singleton] at ha
      subst ha
      exact ⟨Nat.le_trans h.hb h.ho, hlt⟩
    · simp at ha
  | succ fuel ih =>
    intro st h a ha
    rw [copySegmentLoopAccesses] at ha
    split at ha
    · rename_i hlt
      rcases List.mem_cons.mp ha with h1 | h1
      · subst h1
        exact ⟨Nat.le_trans h.hb h.ho, hlt⟩
      · split at h1
        · rcases List.mem_append.mp h1 with h2 | h2
          · unfold copyCharAccesses at h2
            simp only [List.mem_cons, List.mem_singleton, List.not_mem_nil, or_false] at h2
            have h3 := h.hb
            have h4 := h.ho
            rcases h2 with h2 | h2 <;> subst h2 <;> dsimp only [Access.index] <;> omega
          · exact ih (copyChar st) (copyChar_ok b e st h hlt) a h2
        · simp at h1
    · simp at ha

/-- One pass keeps the cursors in order and moves the read cursor. -/
theorem removeDotSegmentsStep_ok (b e : Nat) (st : Cursors) (h : CursorsOk b e st)
    (hlt : st.pos < e) :
    CursorsOk b e (removeDotSegmentsStep b e st) ∧ st.pos < (removeDotSegmentsStep b e st).pos := by
  obtain ⟨h1, h2, h3⟩ := h
  unfold removeDotSegmentsStep
  split
  · rename_i hc
    have := rangeStartsWith_bound _ _ _ _ h3 hc
    simp only [String.toList, List.length_cons, List.length_nil] at this
    exact ⟨⟨h1, by dsimp only; omega, by dsimp only; omega⟩, by dsimp only; omega⟩
  split
  · rename_i hc
    have := rangeStartsWith_bound _ _ _ _ h3 hc
    simp only [String.toList, List.length_cons, List.length_nil] at this
    exact ⟨⟨h1, by dsimp only; omega, by dsimp only; omega⟩, by dsimp only; omega⟩
  split
  · rename_i hc
    have := rangeStartsWith_bound _ _ _ _ h3 hc
    simp only [String.toList, List.length_cons, List.length_nil] at this
    exact ⟨⟨h1, by dsimp only; omega, by dsimp only; omega⟩, by dsimp only; omega⟩
  split
  · rename_i hc
    have := rangeEquals_bound _ _ _ _ hc
    simp only [String.toList, List.length_cons, List.length_nil] at this
    exact ⟨⟨h1, by dsimp only; omega, by dsimp only; omega⟩, by dsimp only; omega⟩
  split
  · rename_i hc
    have := rangeStartsWith_bound _ _ _ _ h3 hc
    simp only [String.toList, List.length_cons, List.length_nil] at this
    have hr := removeLastSegmentFromRange_bound st.buf b st.out h1
    exact ⟨⟨hr.1, by dsimp only; omega, by dsimp only; omega⟩, by dsimp only; omega⟩
  split
  · rename_i hc
    have := rangeEquals_bound _ _ _ _ hc
    simp only [String.toList, List.length_cons, List.length_nil] at this
    have hr := removeLastSegmentFromRange_bound st.buf b st.out h1
    exact ⟨⟨hr.1, by dsimp only; omega, by dsimp only; omega⟩, by dsimp only; omega⟩
  split
  · exact ⟨⟨h1, by dsimp only; omega, Nat.le_refl _⟩, hlt⟩
  · dsimp only
    by_cases hs : charAt st.buf st.pos = '/'
    · rw [if_pos hs]
      have hok := copyChar_ok b e st ⟨h1, h2, h3⟩ hlt
      have := copySegmentLoop_ok b e (e - (copyChar st).pos) (copyChar st) hok
      have hp : (copyChar st).pos = st.pos + 1 := rfl
      exact ⟨this.1, by omega⟩
    · rw [if_neg hs]
      have := copySegmentLoop_ok b e (e - st.pos) st ⟨h1, h2, h3⟩
      exact ⟨this.1, copySegmentLoop_pos_lt e _ st hlt hs (by omega) b ⟨h1, h2, h3⟩⟩

theorem removeDotSegmentsStepAccesses_bound (b e : Nat) (st : Cursors) (h : CursorsOk b e st)
    (hlt : st.pos < e) :
    ∀ a ∈ removeDotSegmentsStepAccesses b e st, b ≤ a.index ∧ a.index < e := by
  obtain ⟨h1, h2, h3⟩ := h
  have hsw : ∀ pat, ∀ a ∈ rangeStartsWithAccesses st.buf st.pos e pat,
      b ≤ a.index ∧ a.index < e := by
    intro pat a ha
    have := rangeStartsWithAccesses_bound st.buf e pat st.pos a ha
    omega
  have heq : ∀ pat, ∀ a ∈ rangeEqualsAccesses st.buf st.pos e pat,
      b ≤ a.index ∧ a.index < e := by
    intro pat a ha
    have := rangeEqualsAccesses_bound st.buf e pat st.pos a ha
    omega
  have hrl : ∀ a ∈ removeLastSegmentFromRangeAccesses st.buf b st.out,
      b ≤ a.index ∧ a.index < e := by
    intro a ha
    have := removeLastSegmentFromRangeAccesses_bound st.buf b st.out a ha
    omega
  intro a ha
  unfold removeDotSegmentsStepAccesses at ha
  rcases List.mem_append.mp ha with ha | ha
  · exact hsw _ a ha
  split at ha
  · simp at ha
  rcases List.mem_append.mp ha with ha | ha
  · exact hsw _ a ha
  split at ha
  · simp at ha
  rcases List.mem_append.mp ha with ha | ha
  · exact hsw _ a ha
  split at ha
  · simp at ha
  rcases List.mem_append.mp ha with ha | ha
  · exact heq _ a ha
  split at ha
  · rename_i hc
    have := rangeEquals_bound _ _ _ _ hc
    simp only [String.toList, List.length_cons, List.length_nil] at this
    rw [List.mem_singleton] at ha
    subst ha
    dsimp only [Access.index]
    omega
  rcases List.mem_append.mp ha with ha | ha
  · exact hsw _ a ha
  split at ha
  · exact hrl a ha
  rcases List.mem_append.mp ha with ha | ha
  · exact heq _ a ha
  split at ha
  · exact hrl a ha
  rcases List.mem_append.mp ha with ha | ha
  · have := rangeIsAllLoopAccesses_bound st.buf e '.' _ _ a ha
    omega
  split at ha
  · simp at ha
  dsimp only at ha
  rcases List.mem_cons.mp ha with ha | ha
  · subst ha
    dsimp only [Access.index]
    omega
  rcases List.mem_append.mp ha with ha | ha
  · split at ha
    · unfold copyCharAccesses at ha
      simp only [List.mem_cons, List.mem_singleton, List.not_mem_nil, or_false] at ha
      rcases ha with ha | ha <;> subst ha <;> dsimp only [Access.index] <;> omega
    · simp at ha
  · by_cases hs : charAt st.buf st.pos = '/'
    · rw [if_pos hs] at ha
      exact copySegmentLoopAccesses_bound b e _ _ (copyChar_ok b e st ⟨h1, h2, h3⟩ hlt) a ha
    · rw [if_neg hs] at ha
      exact copySegmentLoopAccesses_bound b e _ _ ⟨h1, h2, h3⟩ a ha

/-- After any number of passes the cursors are in order, and the read cursor
has moved by that number of positions at least, or has reached the end. -/
theorem removeDotSegmentsLoop_ok (b e : Nat) :
    ∀ (k : Nat) (st : Cursors), CursorsOk b e st →
      CursorsOk b e (removeDotSegmentsLoop b e k st) ∧
      ((removeDotSegmentsLoop b e k st).pos = e ∨
        st.pos + k ≤ (removeDotSegmentsLoop b e k st).pos) := by
  intro k
  induction k with
  | zero => intro st h; exact ⟨h, Or.inr (Nat.le_refl _)⟩
  | succ k ih =>
    intro st h
    rw [removeDotSegmentsLoop]
    split
    · rename_i hlt
      have hs := removeDotSegmentsStep_ok b e st h hlt
      have := ih _ hs.1
      refine ⟨this.1, ?_⟩
      rcases this.2 with h1 | h1
      · exact Or.inl h1
      · right; omega
    · have := h.hp
      exact ⟨h, Or.inl (by omega)⟩

theorem removeDotSegmentsLoopAccesses_bound (b e : Nat) :
    ∀ (k : Nat) (st : Cursors), CursorsOk b e st →
      ∀ a ∈ removeDotSegmentsLoopAccesses b e k st, b ≤ a.index ∧ a.index < e := by
  intro k
  induction k with
  | zero => intro st _ a ha; simp [removeDotSegmentsLoopAccesses] at ha
  | succ k ih =>
    intro st h a ha
    rw [removeDotSegmentsLoopAccesses] at ha
    split at ha
    · rename_i hlt
      rcases List.mem_append.mp ha with ha | ha
      · exact removeDotSegmentsStepAccesses_bound b e st h hlt a ha
      · exact ih _ (removeDotSegmentsStep_ok b e st h hlt).1 a ha
    · simp at ha

/-! ### The invalid flag -/

/-- The standardized form of a parsed URL has the flags of the parsed URL,
with the standardized flag or without it. -/
theorem ofString_standardized_m_flags (s : List Char) :
    (Url.ofString s).standardized.m_flags = (Url.ofString s).m_flags ∨
    (Url.ofString s).standardized.m_flags = (Url.ofString s).m_flags ||| IS_STANDARDIZED := by
  by_cases hd : (Url.ofString s).hasDataScheme = true
  · left
    rw [standardized_of_hasDataScheme _ hd]
  · right
    exact standardized_flags _ (ofString_isStandardized s) (by simpa using hd)

theorem ofString_isInvalid (s : List Char) : (Url.ofString s).isInvalid = false := by
  have hc := ofString_flags_cases s
  unfold Url.isInvalid
  simp only [List.mem_cons, List.mem_singleton, List.not_mem_nil, or_false] at hc
  rcases hc with hc | hc | hc | hc | hc | hc | hc | hc | hc | hc <;> rw [hc] <;> decide

theorem ofString_standardized_isInvalid (s : List Char) :
    (Url.ofString s).standardized.isInvalid = false := by
  have hc := ofString_flags_cases s
  unfold Url.isInvalid
  simp only [List.mem_cons, List.mem_singleton, List.not_mem_nil, or_false] at hc
  rcases ofString_standardized_m_flags s with hf | hf <;> rw [hf] <;>
    rcases hc with hc | hc | hc | hc | hc | hc | hc | hc | hc | hc <;> rw [hc] <;> decide

/-! ## Claims about `standardized` -/

/-- Claim C11: for a source string that is not a data URI, the standardized URL
has the standardized flag, its path is the path with the dot segments removed,
and its string is the source with the path replaced by that. -/
theorem standardized_string (s : List Char) (h : (Url.ofString s).hasDataScheme = false) :
    (Url.ofString s).standardized.isStandardized = true ∧
    (Url.ofString s).standardized.path = removeDotSegmentsFromString (Url.ofString s).path ∧
    (Url.ofString s).standardized.string =
      s.take (Url.ofString s).m_parts.path.start ++
        removeDotSegmentsFromString (Url.ofString s).path ++
        s.drop ((Url.ofString s).m_parts.path.start + (Url.ofString s).m_parts.path.count) := by
  have hw : (Url.ofString s).m_parts.path.within (Url.ofString s).m_string.length := by
    rw [ofString_m_string s]; exact (ofString_within s).2.2.1
  refine ⟨(ofString_standardized_flags s h).1,
    standardized_path _ (ofString_isStandardized s) h hw, ?_⟩
  rw [(ofString_standardized_eq s h).2]
  rfl

theorem standardized_string_witness :
    (Url.ofString "http://example.com/path/oops/not/here/../../../file.txt;p?q#f".toList).hasDataScheme
      = false ∧
    (Url.ofString
      "http://example.com/path/oops/not/here/../../../file.txt;p?q#f".toList).standardized.isStandardized
      = true ∧
    (Url.ofString "http://example.com/path/oops/not/here/../../../file.txt;p?q#f".toList).standardized.path
      = removeDotSegmentsFromString
        (Url.ofString "http://example.com/path/oops/not/here/../../../file.txt;p?q#f".toList).path ∧
    (Url.ofString "http://example.com/path/oops/not/here/../../../file.txt;p?q#f".toList).standardized.string
      = "http://example.com".toList ++
        removeDotSegmentsFromString "/path/oops/not/here/../../../file.txt".toList ++ ";p?q#f".toList :=
  ⟨by decide,
    standardized_string "http://example.com/path/oops/not/here/../../../file.txt;p?q#f".toList
      (by decide)⟩

/-- Claim C12: the standardized form of a parsed URL reports the same scheme,
network location, parameters, query and fragment as the URL itself, the same
presence of each of them, and the same scheme flags. -/
theorem standardized_keeps_components (s : List Char) :
    (Url.ofString s).standardized.scheme = (Url.ofString s).scheme ∧
    (Url.ofString s).standardized.netLocation = (Url.ofString s).netLocation ∧
    (Url.ofString s).standardized.parameters = (Url.ofString s).parameters ∧
    (Url.ofString s).standardized.query = (Url.ofString s).query ∧
    (Url.ofString s).standardized.fragment = (Url.ofString s).fragment ∧
    (Url.ofString s).standardized.hasScheme = (Url.ofString s).hasScheme ∧
    (Url.ofString s).standardized.hasNetLocation = (Url.ofString s).hasNetLocation ∧
    (Url.ofString s).standardized.hasParameters = (Url.ofString s).hasParameters ∧
    (Url.ofString s).standardized.hasQuery = (Url.ofString s).hasQuery ∧
    (Url.ofString s).standardized.hasFragment = (Url.ofString s).hasFragment ∧
    (Url.ofString s).standardized.isAbsolute = (Url.ofString s).isAbsolute ∧
    (Url.ofString s).standardized.hasHttpScheme = (Url.ofString s).hasHttpScheme ∧
    (Url.ofString s).standardized.hasFileScheme = (Url.ofString s).hasFileScheme ∧
    (Url.ofString s).standardized.hasDataScheme = (Url.ofString s).hasDataScheme ∧
    (Url.ofString s).standardized.hasBase64Data = (Url.ofString s).hasBase64Data := by
  by_cases hd : (Url.ofString s).hasDataScheme = true
  · rw [standardized_of_hasDataScheme _ hd]
    exact ⟨rfl, rfl, rfl, rfl, rfl, rfl, rfl, rfl, rfl, rfl, rfl, rfl, rfl, rfl, rfl⟩
  · rw [Bool.not_eq_true] at hd
    obtain ⟨hN, hst⟩ := ofString_standardized_eq s hd
    have hm := ofString_m_string s
    obtain ⟨w1, w2, w3, w4, w5, w6, _, _⟩ := ofString_within s
    unfold Range.within at w1 w2 w3 w4 w5 w6
    have hord : (Url.ofString s).m_parts.scheme.within (Url.ofString s).m_parts.path.start ∧
        (Url.ofString s).m_parts.location.within (Url.ofString s).m_parts.path.start ∧
        (Url.ofString s).m_parts.path.start + (Url.ofString s).m_parts.path.count ≤
          (Url.ofString s).m_parts.parameters.start ∧
        (Url.ofString s).m_parts.path.start + (Url.ofString s).m_parts.path.count ≤
          (Url.ofString s).m_parts.query.start ∧
        (Url.ofString s).m_parts.path.start + (Url.ofString s).m_parts.path.count ≤
          (Url.ofString s).m_parts.fragment.start := by
      rw [ofString_of_not_data s hd]
      obtain ⟨o1, o2, o3, o4, o5, o6⟩ := plainUrl_order s
      rw [o3]
      exact ⟨o1, o2, o4, o5, o6⟩
    obtain ⟨o1, o2, o4, o5, o6⟩ := hord
    unfold Range.within at o1 o2
    have hflag : ∀ m, m ∈ [IS_ABSOLUTE, HAS_HTTP_SCHEME, HAS_FILE_SCHEME, HAS_DATA_SCHEME,
        HAS_BASE64_DATA] →
        ((((Url.ofString s).m_flags ||| IS_STANDARDIZED) &&& m) != 0) =
          (((Url.ofString s).m_flags &&& m) != 0) := by
      intro m hmem
      have hc := ofString_flags_cases s
      simp only [List.mem_cons, List.mem_singleton, List.not_mem_nil, or_false] at hc hmem
      rcases hc with hc | hc | hc | hc | hc | hc | hc | hc | hc | hc <;> rw [hc] <;>
        rcases hmem with hm | hm | hm | hm | hm <;> rw [hm] <;> decide
    have hlenA : (s.take (Url.ofString s).m_parts.path.start ++
        removeDotSegmentsFromString (Url.ofString s).path).length =
        (Url.ofString s).m_parts.path.start +
          (removeDotSegmentsFromString (Url.ofString s).path).length := by
      rw [List.length_append, List.length_take, Nat.min_eq_left (by omega)]
    rw [hst]
    refine ⟨?_, ?_, ?_, ?_, ?_, rfl, rfl, rfl, rfl, rfl, ?_, ?_, ?_, ?_, ?_⟩
    · show substr _ _ _ = substr _ _ _
      rw [hm, List.append_assoc]
      exact substr_before _ _ _ _ _ o1 (by omega)
    · show substr _ _ _ = substr _ _ _
      rw [hm, List.append_assoc]
      exact substr_before _ _ _ _ _ o2 (by omega)
    · dsimp only [Url.parameters]
      rw [hm]
      exact substr_after _ _ _ _ _ _ o4 (by rw [hlenA]; omega)
    · dsimp only [Url.query]
      rw [hm]
      exact substr_after _ _ _ _ _ _ o5 (by rw [hlenA]; omega)
    · dsimp only [Url.fragment]
      rw [hm]
      exact substr_after _ _ _ _ _ _ o6 (by rw [hlenA]; omega)
    · exact hflag _ (by simp)
    · exact hflag _ (by simp)
    · exact hflag _ (by simp)
    · exact hflag _ (by simp)
    · exact hflag _ (by simp)

/-- Claim C13: the standardized form of a data URI is the URL itself: same
string, media type, data, fragment and flags. -/
theorem standardized_data_uri (s : List Char) (h : (Url.ofString s).hasDataScheme = true) :
    (Url.ofString s).standardized = Url.ofString s ∧
    (Url.ofString s).standardized.string = s ∧
    (Url.ofString s).standardized.mediaType = (Url.ofString s).mediaType ∧
    (Url.ofString s).standardized.data = (Url.ofString s).data ∧
    (Url.ofString s).standardized.fragment = (Url.ofString s).fragment ∧
    (Url.ofString s).standardized.m_flags = (Url.ofString s).m_flags := by
  rw [standardized_of_hasDataScheme _ h]
  exact ⟨rfl, ofString_m_string s, rfl, rfl, rfl, rfl⟩

theorem standardized_data_uri_witness :
    (Url.ofString "data:text/html,a/../b/./c#x/../y".toList).hasDataScheme = true ∧
    (Url.ofString "data:text/html,a/../b/./c#x/../y".toList).standardized =
      Url.ofString "data:text/html,a/../b/./c#x/../y".toList ∧
    (Url.ofString "data:text/html,a/../b/./c#x/../y".toList).standardized.string =
      "data:text/html,a/../b/./c#x/../y".toList ∧
    (Url.ofString "data:text/html,a/../b/./c#x/../y".toList).standardized.mediaType =
      (Url.ofString "data:text/html,a/../b/./c#x/../y".toList).mediaType ∧
    (Url.ofString "data:text/html,a/../b/./c#x/../y".toList).standardized.data =
      (Url.ofString "data:text/html,a/../b/./c#x/../y".toList).data ∧
    (Url.ofString "data:text/html,a/../b/./c#x/../y".toList).standardized.fragment =
      (Url.ofString "data:text/html,a/../b/./c#x/../y".toList).fragment ∧
    (Url.ofString "data:text/html,a/../b/./c#x/../y".toList).standardized.m_flags =
      (Url.ofString "data:text/html,a/../b/./c#x/../y".toList).m_flags :=
  ⟨by decide, standardized_data_uri "data:text/html,a/../b/./c#x/../y".toList (by decide)⟩

/-- Claim C14: every range of a parsed URL lies inside its string, and so does
every range of its standardized form inside the string of that; in each
`size_t` subtraction of the parser and of `standardized` the value that is
subtracted is not the larger one. -/
theorem ranges_valid (s : List Char) :
    (Url.ofString s).rangesValid ∧ (Url.ofString s).standardized.rangesValid ∧
    -- `end - m_parts.fragment.start` and `i - start`
    (fragmentOf s).start ≤ s.length ∧ 0 ≤ schemeStop s ∧
    -- the data URI branch: `min(base64Indicator, comma) - start` and `end - start`
    afterScheme s ≤ min (base64Of s) (commaOf s) ∧ min (commaOf s + 1) (poundOf s) ≤ poundOf s ∧
    -- `slash - start`, `end - m_parts.query.start`, `end - m_parts.parameters.start`, `end - start`
    (hasLocation s = true → afterScheme s + 2 ≤ slashOf s) ∧
    min (qmarkOf s + 1) (poundOf s) ≤ poundOf s ∧
    min (semicolonOf s + 1) (qmarkOf s) ≤ qmarkOf s ∧
    pathStartOf s ≤ semicolonOf s ∧
    -- `standardized`: `oldPathEnd - newPathEnd`, `parts.path.count -= offset` and the three
    -- `start -= offset`
    ((Url.ofString s).hasDataScheme = false →
      (removeDotSegmentsFromRange s (Url.ofString s).m_parts.path.start
          ((Url.ofString s).m_parts.path.start + (Url.ofString s).m_parts.path.count)).2 ≤
        (Url.ofString s).m_parts.path.start + (Url.ofString s).m_parts.path.count ∧
      (Url.ofString s).m_parts.path.start + (Url.ofString s).m_parts.path.count -
        (removeDotSegmentsFromRange s (Url.ofString s).m_parts.path.start
          ((Url.ofString s).m_parts.path.start + (Url.ofString s).m_parts.path.count)).2 ≤
        min (Url.ofString s).m_parts.path.count
          (min (Url.ofString s).m_parts.parameters.start
            (min (Url.ofString s).m_parts.query.start (Url.ofString s).m_parts.fragment.start))) := by
  refine ⟨ofString_rangesValid s, ofString_standardized_rangesValid s, ?_, Nat.zero_le _, ?_,
    Nat.min_le_right _ _, slashOf_ge s, Nat.min_le_right _ _, Nat.min_le_right _ _,
    semicolonOf_ge s, ?_⟩
  · have := fragmentOf_within s
    unfold Range.within at this
    omega
  · exact Nat.le_min.mpr ⟨base64Of_ge s, commaOf_ge s⟩
  · intro hd
    have hw := (ofString_within s).2.2.1
    unfold Range.within at hw
    obtain ⟨k1, k2, _⟩ := removeDotSegmentsFromRange_spec s (Url.ofString s).m_parts.path.start
      ((Url.ofString s).m_parts.path.start + (Url.ofString s).m_parts.path.count)
      (Nat.le_add_right _ _) hw
    refine ⟨k2, ?_⟩
    have hord : (Url.ofString s).m_parts.path.start + (Url.ofString s).m_parts.path.count ≤
          (Url.ofString s).m_parts.parameters.start ∧
        (Url.ofString s).m_parts.path.start + (Url.ofString s).m_parts.path.count ≤
          (Url.ofString s).m_parts.query.start ∧
        (Url.ofString s).m_parts.path.start + (Url.ofString s).m_parts.path.count ≤
          (Url.ofString s).m_parts.fragment.start := by
      rw [ofString_of_not_data s hd]
      obtain ⟨_, _, o3, o4, o5, o6⟩ := plainUrl_order s
      rw [o3]
      exact ⟨o4, o5, o6⟩
    omega

theorem ranges_valid_witness :
    (Url.ofString "http://a/b/../c/./d;p?q#f".toList).rangesValid ∧
      (Url.ofString "http://a/b/../c/./d;p?q#f".toList).standardized.rangesValid ∧
      (Url.ofString "http://a/b/../c/./d;p?q#f".toList).standardized.string =
        "http://a/c/d;p?q#f".toList :=
  ⟨(ranges_valid "http://a/b/../c/./d;p?q#f".toList).1,
    (ranges_valid "http://a/b/../c/./d;p?q#f".toList).2.1, by decide⟩

/-- Claim C16: `resolved` and `madeRelative` return the URL they are called on,
whatever the base, so a URL constructed from a string and a base is the URL
constructed from the string. -/
theorem resolved_madeRelative_identity (u base : Url) (s : List Char) :
    u.resolved base = u ∧ u.madeRelative base = u ∧
    Url.ofStringWithBase s base = Url.ofString s ∧
    (Url.ofStringWithBase s base).equals (Url.ofString s) = true := by
  refine ⟨rfl, rfl, rfl, ?_⟩
  unfold Url.equals Url.ofStringWithBase Url.resolved
  exact beq_self_eq_true _

/-- Claim C18: a `../` or `./` at the start of a path is dropped, and so is a
`..` segment right after the `/` a path starts with. -/
theorem removeDotSegments_leading (r : List Char) :
    removeDotSegmentsFromString ("../".toList ++ r) = removeDotSegmentsFromString r ∧
    removeDotSegmentsFromString ("./".toList ++ r) = removeDotSegmentsFromString r ∧
    removeDotSegmentsFromString ("/../".toList ++ r) =
      removeDotSegmentsFromString ("/".toList ++ r) := by
  rw [removeDotSegmentsFromString_eq, removeDotSegmentsFromString_eq,
    removeDotSegmentsFromString_eq, removeDotSegmentsFromString_eq,
    removeDotSegmentsFromString_eq]
  refine ⟨?_, ?_, ?_⟩
  · have e : pureStep ("../".toList ++ r) [] = (r, []) := by
      simp [pureStep, List.isPrefixOf]
    show pureLoop (r.length + 2 + 1) ("../".toList ++ r) [] = _
    rw [pureLoop, if_neg (by simp), e]
    exact pureLoop_fuel r.length r [] _ _ (Nat.le_refl _) (by omega) (Nat.le_refl _)
  · have e : pureStep ("./".toList ++ r) [] = (r, []) := by
      simp [pureStep, List.isPrefixOf]
    show pureLoop (r.length + 1 + 1) ("./".toList ++ r) [] = _
    rw [pureLoop, if_neg (by simp), e]
    exact pureLoop_fuel r.length r [] _ _ (Nat.le_refl _) (by omega) (Nat.le_refl _)
  · have e : pureStep ("/../".toList ++ r) [] = ("/".toList ++ r, []) := by
      simp [pureStep, List.isPrefixOf, cutLast]
    show pureLoop (r.length + 3 + 1) ("/../".toList ++ r) [] = _
    rw [pureLoop, if_neg (by simp), e]
    exact pureLoop_fuel (r.length + 1) _ _ _ _ (by simp) (by simp) (by simp)

/-- Claim C19: a source that starts with a run of scheme characters followed by
a colon is absolute and has that run as its scheme; every other source is not
absolute and has no scheme. A URL that has a scheme is absolute. -/
theorem scheme_step :
    (∀ p rest : List Char, (∀ c ∈ p, isSchemeChar c = true) →
      (Url.ofString (p ++ ":".toList ++ rest)).isAbsolute = true ∧
      (Url.ofString (p ++ ":".toList ++ rest)).scheme = p) ∧
    (∀ s : List Char,
      (¬ ∃ p rest : List Char, s = p ++ ":".toList ++ rest ∧ ∀ c ∈ p, isSchemeChar c = true) →
      (Url.ofString s).isAbsolute = false ∧ (Url.ofString s).hasScheme = false) ∧
    (∀ s : List Char, (Url.ofString s).hasScheme = true → (Url.ofString s).isAbsolute = true) := by
  refine ⟨?_, ?_, ?_⟩
  · intro p rest hp
    have e : p ++ ":".toList ++ rest = p ++ ':' :: rest := by simp
    rw [e]
    obtain ⟨hstop, hcolon⟩ := schemeStop_append_colon p rest hp
    refine ⟨(ofString_isAbsolute _).mpr hcolon, ?_⟩
    rw [ofString_scheme]
    unfold schemeText schemeOf
    rw [if_pos hcolon, hstop, sizeSub_zero]
    exact substr_zero_append _ _
  · intro s hno
    have hc : ¬ hasColon s := by
      intro hc
      obtain ⟨h1, h2⟩ := hasColon_decompose s hc
      exact hno ⟨s.take (schemeStop s), s.drop (schemeStop s + 1), by simpa using h1, h2⟩
    refine ⟨?_, ?_⟩
    · rw [← Bool.not_eq_true]
      exact fun h => hc ((ofString_isAbsolute s).mp h)
    · rw [← Bool.not_eq_true]
      exact fun h => hc ((ofString_hasScheme s).mp h).1
  · intro s h
    exact (ofString_isAbsolute s).mpr ((ofString_hasScheme s).mp h).1

theorem scheme_step_witness :
    (∀ c ∈ "file".toList, isSchemeChar c = true) ∧
    ((Url.ofString ("file".toList ++ ":".toList ++ "///a/b".toList)).isAbsolute = true ∧
      (Url.ofString ("file".toList ++ ":".toList ++ "///a/b".toList)).scheme = "file".toList) ∧
    ((¬ ∃ p rest : List Char, "a/b:c".toList = p ++ ":".toList ++ rest ∧
        ∀ c ∈ p, isSchemeChar c = true) ∧
      (Url.ofString "a/b:c".toList).isAbsolute = false ∧
      (Url.ofString "a/b:c".toList).hasScheme = false) ∧
    ((Url.ofString "http://a".toList).hasScheme = true ∧
      (Url.ofString "http://a".toList).isAbsolute = true) := by
  have hno : ¬ ∃ p rest : List Char, "a/b:c".toList = p ++ ":".toList ++ rest ∧
      ∀ c ∈ p, isSchemeChar c = true := by
    intro h
    obtain ⟨p, rest, h1, h2⟩ := h
    have h3 := (scheme_step.1 p rest h2).1
    rw [← h1] at h3
    exact absurd h3 (by decide)
  exact ⟨by decide, scheme_step.1 _ _ (by decide), ⟨hno, scheme_step.2.1 _ hno⟩,
    by decide, scheme_step.2.2 _ (by decide)⟩

/-- Claim C20: in a source that is not a data URI and in which `//` follows the
colon of the scheme, or starts the source, the network location is the text
between the `//` and the next `/` or `#` or the end of the source, and the path
is empty or starts with `/`; a source in which no `//` stands there has no
network location. -/
theorem authority_step :
    (∀ p loc tail : List Char, (∀ c ∈ p, isSchemeChar c = true) →
      '/' ∉ loc → '#' ∉ loc →
      (tail = [] ∨ tail.head? = some '/' ∨ tail.head? = some '#') →
      (Url.ofString (p ++ "://".toList ++ loc ++ tail)).hasDataScheme = false →
      (Url.ofString (p ++ "://".toList ++ loc ++ tail)).netLocation = loc ∧
      ((Url.ofString (p ++ "://".toList ++ loc ++ tail)).path = [] ∨
        (Url.ofString (p ++ "://".toList ++ loc ++ tail)).path.head? = some '/')) ∧
    (∀ loc tail : List Char, '/' ∉ loc → '#' ∉ loc →
      (tail = [] ∨ tail.head? = some '/' ∨ tail.head? = some '#') →
      (Url.ofString ("//".toList ++ loc ++ tail)).hasDataScheme = false ∧
      (Url.ofString ("//".toList ++ loc ++ tail)).hasScheme = false ∧
      (Url.ofString ("//".toList ++ loc ++ tail)).netLocation = loc ∧
      ((Url.ofString ("//".toList ++ loc ++ tail)).path = [] ∨
        (Url.ofString ("//".toList ++ loc ++ tail)).path.head? = some '/')) ∧
    (∀ p rest : List Char, (∀ c ∈ p, isSchemeChar c = true) →
      (∀ r, rest ≠ "//".toList ++ r) →
      (Url.ofString (p ++ ":".toList ++ rest)).hasNetLocation = false) ∧
    (∀ s : List Char,
      (¬ ∃ p rest : List Char, s = p ++ ":".toList ++ rest ∧ ∀ c ∈ p, isSchemeChar c = true) →
      (∀ r, s ≠ "//".toList ++ r) →
      (Url.ofString s).hasNetLocation = false) := by
  refine ⟨?_, ?_, ?_, ?_⟩
  · intro p loc tail hp hl1 hl2 ht
    have e : p ++ "://".toList ++ loc ++ tail = (p ++ [':']) ++ '/' :: '/' :: (loc ++ tail) := by
      simp
    rw [e]
    intro hd
    apply location_step_url _ _ _ _ _ hl1 hl2 ht hd
    · have := afterScheme_append_colon p ('/' :: '/' :: (loc ++ tail)) hp
      simpa using this
    · simp only [List.mem_append, List.mem_singleton, not_or]
      exact ⟨not_mem_of_isSchemeChar hp '#' (by decide), by decide⟩
  · intro loc tail hl1 hl2 ht
    have e : "//".toList ++ loc ++ tail = [] ++ '/' :: '/' :: (loc ++ tail) := by simp
    have hnc : ¬ hasColon ("//".toList ++ loc ++ tail) := by
      rw [e]
      exact not_hasColon_of_slash _
    have hd : (Url.ofString ("//".toList ++ loc ++ tail)).hasDataScheme = false := by
      rw [← Bool.not_eq_true, ofString_hasDataScheme]
      unfold schemeText schemeOf
      rw [if_neg hnc]
      simp [substr]
    have hs : (Url.ofString ("//".toList ++ loc ++ tail)).hasScheme = false := by
      rw [← Bool.not_eq_true, ofString_hasScheme]
      exact fun h => hnc h.1
    refine ⟨hd, hs, ?_⟩
    rw [e] at hd ⊢
    exact location_step_url [] loc tail (afterScheme_of_slash _) (by simp) hl1 hl2 ht hd
  · intro p rest hp hr
    apply hasNetLocation_of_not_hasLocation
    have e : p ++ ":".toList ++ rest = (p ++ [':']) ++ rest := by simp
    have ha : afterScheme (p ++ ":".toList ++ rest) = (p ++ [':']).length := by
      have := afterScheme_append_colon p rest hp
      simpa using this
    rw [← Bool.not_eq_true]
    intro h
    unfold hasLocation at h
    rw [ha, e] at h
    have h0 := substr_append_right (p ++ [':']) rest 0 2
    rw [Nat.add_zero] at h0
    rw [h0] at h
    have h1 := substr_two_split (of_decide_eq_true h)
    exact hr _ (by simpa using h1)
  · intro s hno hr
    apply hasNetLocation_of_not_hasLocation
    have hc : ¬ hasColon s := by
      intro hc
      obtain ⟨h1, h2⟩ := hasColon_decompose s hc
      exact hno ⟨s.take (schemeStop s), s.drop (schemeStop s + 1), by simpa using h1, h2⟩
    rw [← Bool.not_eq_true]
    intro h
    unfold hasLocation afterScheme at h
    rw [if_neg hc] at h
    have h1 := substr_two_split (of_decide_eq_true h)
    exact hr _ (by simpa using h1)

theorem authority_step_witness :
    ((Url.ofString ("http".toList ++ "://".toList ++ "example.com:80".toList ++
        "/a/b;p?q#f".toList)).netLocation = "example.com:80".toList ∧
      ((Url.ofString ("http".toList ++ "://".toList ++ "example.com:80".toList ++
        "/a/b;p?q#f".toList)).path = [] ∨
       (Url.ofString ("http".toList ++ "://".toList ++ "example.com:80".toList ++
        "/a/b;p?q#f".toList)).path.head? = some '/')) ∧
    ((Url.ofString ("//".toList ++ "host?x".toList ++ "#f/g".toList)).hasDataScheme = false ∧
      (Url.ofString ("//".toList ++ "host?x".toList ++ "#f/g".toList)).hasScheme = false ∧
      (Url.ofString ("//".toList ++ "host?x".toList ++ "#f/g".toList)).netLocation =
        "host?x".toList ∧
      ((Url.ofString ("//".toList ++ "host?x".toList ++ "#f/g".toList)).path = [] ∨
       (Url.ofString ("//".toList ++ "host?x".toList ++ "#f/g".toList)).path.head? = some '/')) ∧
    (Url.ofString ("file".toList ++ ":".toList ++ "/a//b".toList)).hasNetLocation = false ∧
    (Url.ofString "a/b://c".toList).hasNetLocation = false :=
  ⟨authority_step.1 "http".toList "example.com:80".toList "/a/b;p?q#f".toList
      (by decide) (by decide) (by decide) (by decide) (by decide),
    authority_step.2.1 "host?x".toList "#f/g".toList (by decide) (by decide) (by decide),
    authority_step.2.2.1 "file".toList "/a//b".toList (by decide)
      (fun r h => (by decide : ¬ List.take 2 "/a//b".toList = ['/', '/'])
        ((congrArg (List.take 2) h).trans rfl)),
    authority_step.2.2.2 "a/b://c".toList
      (fun h => absurd (hasColon_of_split _ h) (by decide))
      (fun r h => (by decide : ¬ List.take 2 "a/b://c".toList = ['/', '/'])
        ((congrArg (List.take 2) h).trans rfl))⟩

/-- Claim C17: a `..` segment cancels the segment before it: with no dot in
`p` and a segment `x` without dot and `/`, empty or not, the path `p/x/../r`
gives what the path `p/r` gives. -/
theorem removeDotSegments_cancel (p x r : List Char) (hp : '.' ∉ p)
    (hx1 : '.' ∉ x) (hx2 : '/' ∉ x) :
    removeDotSegmentsFromString (p ++ "/".toList ++ x ++ "/../".toList ++ r) =
      removeDotSegmentsFromString (p ++ "/".toList ++ r) := by
  rw [removeDotSegmentsFromString_eq, removeDotSegmentsFromString_eq]
  have e1 : p ++ "/".toList ++ x ++ "/../".toList ++ r =
      (p ++ '/' :: x) ++ '/' :: ("../".toList ++ r) := by simp
  have e2 : p ++ "/".toList ++ r = p ++ '/' :: r := by simp
  have hpx : '.' ∉ p ++ '/' :: x := by
    simp only [List.mem_append, List.mem_cons, not_or]
    exact ⟨hp, by decide, hx1⟩
  rw [e1, e2,
    pureLoop_copy _ (p ++ '/' :: x) _ [] _ (r.length + 4 + 1) (Nat.le_refl _) hpx (Nat.le_refl _)
      (by simp),
    pureLoop_copy _ p r [] _ (r.length + 1) (Nat.le_refl _) hp (Nat.le_refl _) (by simp)]
  have e : pureStep ('/' :: ("../".toList ++ r)) ([] ++ (p ++ '/' :: x)) =
      ('/' :: r, p) := by
    simp [pureStep, List.isPrefixOf, cutLast_segment p x hx2]
  rw [pureLoop, if_neg (by simp), e]
  exact pureLoop_fuel _ _ _ _ _ (Nat.le_refl _) (by simp) (by simp)

theorem removeDotSegments_cancel_witness :
    '.' ∉ "/a/b".toList ∧ '.' ∉ "c".toList ∧ '/' ∉ "c".toList ∧
    removeDotSegmentsFromString
        ("/a/b".toList ++ "/".toList ++ "c".toList ++ "/../".toList ++ "d/./e".toList) =
      removeDotSegmentsFromString ("/a/b".toList ++ "/".toList ++ "d/./e".toList) :=
  ⟨by decide, by decide, by decide,
    removeDotSegments_cancel "/a/b".toList "c".toList "d/./e".toList (by decide) (by decide)
      (by decide)⟩

/-- Claim C15: on a range `[b, e)` the function `removeDotSegmentsFromRange`
returns a position between `b` and `e`; after any number of passes, and inside
the loop that copies a segment, the cursors are in the order
`b ≤ out ≤ pos ≤ e`; every index that is read or written lies in `[b, e)`; the
passes allowed are enough for the loop to end; and a returned position other
than the old end of the path is below it, as `standardized` asserts. -/
theorem removeDotSegmentsFromRange_in_range (buf : List Char) (b e : Nat) (hbe : b ≤ e) :
    b ≤ (removeDotSegmentsFromRange buf b e).2 ∧
    (removeDotSegmentsFromRange buf b e).2 ≤ e ∧
    (removeDotSegmentsLoop b e (e - b) { buf := buf, pos := b, out := b }).pos = e ∧
    (∀ k : Nat,
      b ≤ (removeDotSegmentsLoop b e k { buf := buf, pos := b, out := b }).out ∧
      (removeDotSegmentsLoop b e k { buf := buf, pos := b, out := b }).out ≤
        (removeDotSegmentsLoop b e k { buf := buf, pos := b, out := b }).pos ∧
      (removeDotSegmentsLoop b e k { buf := buf, pos := b, out := b }).pos ≤ e) ∧
    (∀ (k j : Nat) (st : Cursors),
      st = removeDotSegmentsLoop b e k { buf := buf, pos := b, out := b } → st.pos < e →
      b ≤ (copySegmentLoop e j (if charAt st.buf st.pos = '/' then copyChar st else st)).out ∧
      (copySegmentLoop e j (if charAt st.buf st.pos = '/' then copyChar st else st)).out ≤
        (copySegmentLoop e j (if charAt st.buf st.pos = '/' then copyChar st else st)).pos ∧
      (copySegmentLoop e j (if charAt st.buf st.pos = '/' then copyChar st else st)).pos ≤ e) ∧
    (∀ k : Nat, ∀ a ∈ removeDotSegmentsLoopAccesses b e k { buf := buf, pos := b, out := b },
      b ≤ a.index ∧ a.index < e) ∧
    (∀ a ∈ removeDotSegmentsFromRangeAccesses buf b e, b ≤ a.index ∧ a.index < e) ∧
    ((removeDotSegmentsFromRange buf b e).2 ≠ e → e > (removeDotSegmentsFromRange buf b e).2) ∧
    (∀ u : Url,
      (removeDotSegmentsFromRange u.m_string u.m_parts.path.start
          (u.m_parts.path.start + u.m_parts.path.count)).2 ≠
        u.m_parts.path.start + u.m_parts.path.count →
      u.m_parts.path.start + u.m_parts.path.count >
        (removeDotSegmentsFromRange u.m_string u.m_parts.path.start
          (u.m_parts.path.start + u.m_parts.path.count)).2) := by
  have h0 : CursorsOk b e { buf := buf, pos := b, out := b } :=
    ⟨Nat.le_refl _, Nat.le_refl _, hbe⟩
  have hk := fun k => removeDotSegmentsLoop_ok b e k _ h0
  have hres : (removeDotSegmentsFromRange buf b e).2 =
      (removeDotSegmentsLoop b e (e - b) { buf := buf, pos := b, out := b }).out := rfl
  have hfin := hk (e - b)
  have hle : (removeDotSegmentsFromRange buf b e).2 ≤ e := by
    rw [hres]
    exact Nat.le_trans hfin.1.ho hfin.1.hp
  refine ⟨?_, hle, ?_, ?_, ?_, ?_, ?_, ?_, ?_⟩
  · rw [hres]
    exact hfin.1.hb
  · rcases hfin.2 with h | h
    · exact h
    · have := hfin.1.hp
      dsimp only at h
      omega
  · intro k
    exact ⟨(hk k).1.hb, (hk k).1.ho, (hk k).1.hp⟩
  · intro k j st hst hlt
    have hok : CursorsOk b e st := by rw [hst]; exact (hk k).1
    have hok1 : CursorsOk b e (if charAt st.buf st.pos = '/' then copyChar st else st) := by
      split
      · exact copyChar_ok b e st hok hlt
      · exact hok
    have := (copySegmentLoop_ok b e j _ hok1).1
    exact ⟨this.hb, this.ho, this.hp⟩
  · intro k
    exact removeDotSegmentsLoopAccesses_bound b e k _ h0
  · exact removeDotSegmentsLoopAccesses_bound b e (e - b) _ h0
  · intro hne
    omega
  · intro u hne
    have hu := (removeDotSegmentsLoop_ok u.m_parts.path.start
      (u.m_parts.path.start + u.m_parts.path.count) (u.m_parts.path.count)
      { buf := u.m_string, pos := u.m_parts.path.start, out := u.m_parts.path.start }
      ⟨Nat.le_refl _, Nat.le_refl _, Nat.le_add_right _ _⟩).1
    have hr : (removeDotSegmentsFromRange u.m_string u.m_parts.path.start
          (u.m_parts.path.start + u.m_parts.path.count)).2 =
        (removeDotSegmentsLoop u.m_parts.path.start
          (u.m_parts.path.start + u.m_parts.path.count)
          (u.m_parts.path.start + u.m_parts.path.count - u.m_parts.path.start)
          { buf := u.m_string, pos := u.m_parts.path.start,
            out := u.m_parts.path.start }).out := rfl
    rw [Nat.add_sub_cancel_left] at hr
    have h1 := hu.ho
    have h2 := hu.hp
    omega

theorem removeDotSegmentsFromRange_in_range_witness :
    2 ≤ 15 ∧
    2 ≤ (removeDotSegmentsFromRange "xx/a/./b/../c/.yy".toList 2 15).2 ∧
    (removeDotSegmentsFromRange "xx/a/./b/../c/.yy".toList 2 15).2 ≤ 15 ∧
    (removeDotSegmentsFromRange "xx/a/./b/../c/.yy".toList 2 15).2 = 7 ∧
    (∀ a ∈ removeDotSegmentsFromRangeAccesses "xx/a/./b/../c/.yy".toList 2 15,
      2 ≤ a.index ∧ a.index < 15) ∧
    Access.write 14 ∈ removeDotSegmentsFromRangeAccesses "xx/a/./b/../c/.yy".toList 2 15 :=
  ⟨by decide,
    (removeDotSegmentsFromRange_in_range "xx/a/./b/../c/.yy".toList 2 15 (by decide)).1,
    (removeDotSegmentsFromRange_in_range "xx/a/./b/../c/.yy".toList 2 15 (by decide)).2.1,
    by decide,
    (removeDotSegmentsFromRange_in_range "xx/a/./b/../c/.yy".toList 2 15
      (by decide)).2.2.2.2.2.2.1,
    by decide⟩

/-- Claim C21: for every source string the parser returns `true`, so the
constructor does not set the invalid flag, and the string of the URL is the
source; the standardized form is not invalid either, and nor is any URL made
by the constructors and the member functions. -/
theorem ofString_never_invalid :
    (∀ s : List Char, (initializeFromString s).2 = true) ∧
    (∀ s : List Char, (Url.ofString s).isInvalid = false ∧ (Url.ofString s).string = s) ∧
    (∀ s : List Char, (Url.ofString s).standardized.isInvalid = false) ∧
    (∀ (s : List Char) (base : Url), (Url.ofStringWithBase s base).isInvalid = false ∧
      (Url.ofStringWithBase s base).string = s) ∧
    (∀ u : Url, Constructible u → u.isInvalid = false) := by
  refine ⟨?_, ?_, ofString_standardized_isInvalid, ?_, ?_⟩
  · intro s
    rw [initializeFromString_eq]
    split <;> rfl
  · intro s
    exact ⟨ofString_isInvalid s, ofString_m_string s⟩
  · intro s base
    exact ⟨ofString_isInvalid s, ofString_m_string s⟩
  · intro u hu
    obtain ⟨s, hs | hs⟩ := constructible_cases u hu
    · rw [hs]
      exact ofString_isInvalid s
    · rw [hs]
      exact ofString_standardized_isInvalid s

theorem ofString_never_invalid_witness :
    (initializeFromString []).2 = true ∧
    ((Url.ofString []).isInvalid = false ∧ (Url.ofString []).string = []) ∧
    ((Url.ofString ":/?#[]@ not a url ://".toList).isInvalid = false ∧
      (Url.ofString ":/?#[]@ not a url ://".toList).string = ":/?#[]@ not a url ://".toList) ∧
    (Url.ofString "a/../..#/./".toList).standardized.isInvalid = false ∧
    ((Url.ofString "x/./y".toList).standardized.madeRelative Url.empty).isInvalid = false :=
  ⟨ofString_never_invalid.1 [], ofString_never_invalid.2.1 [],
    ofString_never_invalid.2.1 ":/?#[]@ not a url ://".toList,
    ofString_never_invalid.2.2.1 "a/../..#/./".toList,
    ofString_never_invalid.2.2.2.2 _
      (Constructible.madeRelative _ _ (Constructible.standardized _ (Constructible.ofString _)))⟩

end Tangram

